import Mathlib

/-!
# Red-black tree (`rb_tree.h`): a shallow embedding and its verification

The C++ class `RBTree<T>` is a pointer graph: every `Node` carries a value, two
owning child pointers, a parent back-pointer and a colour; the tree object holds
the `root` pointer.  The embedding keeps this shape.

* Memory is a list of cells addressed by index.  `new` appends a cell, `delete`
  empties one; addresses are never reused.
* A pointer is an `Option Nat`, `none` being `nullptr`.
* Every operation runs in `Except Fault`: dereferencing `nullptr` or a freed
  cell is a fault (undefined behaviour in C++), and so is running out of the
  recursion fuel that stands for the C++ call stack.

The second half relates memory to an algebraic tree (`Tree`) annotated with the
address of every node, and proves the properties of the operations there.
-/

set_option linter.unusedVariables false

namespace RedBlack

section

/-! ## Data model -/

/-- The C++ `enum class Color {RED, BLACK}`. -/
inductive Color where
  | RED
  | BLACK
deriving DecidableEq

/-- The C++ `enum class Order {PRE, IN, POST}`. -/
inductive Order where
  | PRE
  | IN
  | POST
deriving DecidableEq

/-- The C++ `struct Node`: value, child pointers, parent pointer, colour. -/
structure Node (α : Type) where
  value : α
  left : Option Nat
  right : Option Nat
  parent : Option Nat
  color : Color
deriving DecidableEq

/-- What can go wrong while running the C++ code. -/
inductive Fault where
  | nullDeref
  | danglingDeref
  | outOfFuel
deriving DecidableEq

/-- The tree object (its `root` field) together with the memory it lives in. -/
structure RBTree (α : Type) where
  cells : List (Option (Node α))
  root : Option Nat
deriving DecidableEq

/-- Designates a pointer variable passed by reference (`Node*&`): the `root`
field or a child field of the node at an address. -/
inductive Slot where
  | root
  | left (a : Nat)
  | right (a : Nat)
deriving DecidableEq

variable {α : Type}

/-- Content of the cell at address `a`; `none` when the cell is freed or was
never allocated. -/
def get (cells : List (Option (Node α))) (a : Nat) : Option (Node α) :=
  match cells[a]? with
  | some c => c
  | none => none

/-- Dereference a pointer. -/
def load (s : RBTree α) (p : Option Nat) : Except Fault (Node α) :=
  match p with
  | none => .error .nullDeref
  | some a =>
    match get s.cells a with
    | none => .error .danglingDeref
    | some n => .ok n

/-- Overwrite the cell at address `a`. -/
def store (s : RBTree α) (a : Nat) (n : Node α) : RBTree α :=
  { s with cells := s.cells.set a (some n) }

/-- The C++ `p->left = x`. -/
def setLeft (s : RBTree α) (p : Option Nat) (x : Option Nat) : Except Fault (RBTree α) :=
  match p with
  | none => .error .nullDeref
  | some a =>
    match get s.cells a with
    | none => .error .danglingDeref
    | some n => .ok (store s a { n with left := x })

/-- The C++ `p->right = x`. -/
def setRight (s : RBTree α) (p : Option Nat) (x : Option Nat) : Except Fault (RBTree α) :=
  match p with
  | none => .error .nullDeref
  | some a =>
    match get s.cells a with
    | none => .error .danglingDeref
    | some n => .ok (store s a { n with right := x })

/-- The C++ `p->parent = x`. -/
def setParent (s : RBTree α) (p : Option Nat) (x : Option Nat) : Except Fault (RBTree α) :=
  match p with
  | none => .error .nullDeref
  | some a =>
    match get s.cells a with
    | none => .error .danglingDeref
    | some n => .ok (store s a { n with parent := x })

/-- The C++ `p->color = c`. -/
def setColor (s : RBTree α) (p : Option Nat) (c : Color) : Except Fault (RBTree α) :=
  match p with
  | none => .error .nullDeref
  | some a =>
    match get s.cells a with
    | none => .error .danglingDeref
    | some n => .ok (store s a { n with color := c })

/-- The C++ `p->value = v`. -/
def setValue (s : RBTree α) (p : Option Nat) (v : α) : Except Fault (RBTree α) :=
  match p with
  | none => .error .nullDeref
  | some a =>
    match get s.cells a with
    | none => .error .danglingDeref
    | some n => .ok (store s a { n with value := v })

/-- The C++ `new Node(...)`: the node is appended to memory; its address is returned. -/
def alloc (s : RBTree α) (n : Node α) : RBTree α × Nat :=
  ({ s with cells := s.cells ++ [some n] }, s.cells.length)

/-- The C++ `delete p`: deleting `nullptr` does nothing, deleting a freed cell is a
fault. -/
def free (s : RBTree α) (p : Option Nat) : Except Fault (RBTree α) :=
  match p with
  | none => .ok s
  | some a =>
    match get s.cells a with
    | none => .error .danglingDeref
    | some _ => .ok { s with cells := s.cells.set a none }

/-- Read the pointer variable a slot designates. -/
def readSlot (s : RBTree α) : Slot → Except Fault (Option Nat)
  | .root => .ok s.root
  | .left a => do
    let n ← load s (some a)
    pure n.left
  | .right a => do
    let n ← load s (some a)
    pure n.right

/-- Assign to the pointer variable a slot designates. -/
def writeSlot (s : RBTree α) (x : Option Nat) : Slot → Except Fault (RBTree α)
  | .root => .ok { s with root := x }
  | .left a => setLeft s (some a) x
  | .right a => setRight s (some a) x

/-- The C++ `RBTree() : root(nullptr) {}`, in an empty memory. -/
def emptyTree : RBTree α := ⟨[], none⟩

/-! ## Construction, copy, destruction -/

/-- The C++ `copyTree(from, to, parent)`: the reference `to` is a slot of the tree being built. -/
def copyTree : Nat → RBTree α → Option Nat → Slot → Option Nat → Except Fault (RBTree α)
  | 0, _, _, _, _ => .error .outOfFuel
  | fuel + 1, s, src, dst, parent =>
    match src with
    | none => .ok s
    | some _ => do
      let f ← load s src
      let s1 := (alloc s ⟨f.value, none, none, parent, f.color⟩).1
      let a := (alloc s ⟨f.value, none, none, parent, f.color⟩).2
      let s2 ← writeSlot s1 (some a) dst
      let f1 ← load s2 src
      let s3 ← copyTree fuel s2 f1.left (.left a) (some a)
      let f2 ← load s3 src
      copyTree fuel s3 f2.right (.right a) (some a)

/-- The C++ `empty(node)`: release a subtree and null the slot. -/
def empty : Nat → RBTree α → Slot → Except Fault (RBTree α)
  | 0, _, _ => .error .outOfFuel
  | fuel + 1, s, slot => do
    let node ← readSlot s slot
    match node with
    | none => writeSlot s none slot
    | some a => do
      let s1 ← empty fuel s (.left a)
      let s2 ← empty fuel s1 (.right a)
      let s3 ← free s2 (some a)
      writeSlot s3 none slot

/-- The copy constructor `RBTree(const RBTree& rhs)`.  It has no member
initialiser: `root` starts with the indeterminate value `uninit`.  The new
object shares the memory of `rhs`; the result carries the new object's root. -/
def copyConstruct (uninit : Option Nat) (rhs : RBTree α) : Except Fault (RBTree α) :=
  copyTree (rhs.cells.length + 1) { rhs with root := uninit } rhs.root .root none

/-- The copy assignment `operator=` of the object `s` from the object whose
root is `rhsRoot` in the same memory; `self` tells whether both are the same
object (`this == &rhs`). -/
def copyAssign (s : RBTree α) (self : Bool) (rhsRoot : Option Nat) :
    Except Fault (RBTree α) :=
  if self then .ok s
  else do
    let s1 ← empty (s.cells.length + 1) s .root
    copyTree (s1.cells.length + 1) s1 rhsRoot .root none

/-! ## Insertion -/

/-- The C++ `grand_parent(node)`. -/
def grand_parent (s : RBTree α) (node : Option Nat) : Except Fault (Option Nat) :=
  match node with
  | none => .ok none
  | some _ => do
    let n ← load s node
    match n.parent with
    | none => .ok none
    | some _ => do
      let p ← load s n.parent
      pure p.parent

/-- The C++ `uncle(node)`. -/
def uncle (s : RBTree α) (node : Option Nat) : Except Fault (Option Nat) := do
  let g ← grand_parent s node
  match g with
  | none => .ok none
  | some _ => do
    let gn ← load s g
    let n ← load s node
    if gn.left = n.parent then pure gn.right else pure gn.left

/-- The C++ `node_color(n)`: an absent node counts as BLACK. -/
def node_color (s : RBTree α) (n : Option Nat) : Except Fault Color :=
  match n with
  | none => .ok .BLACK
  | some _ => do
    let x ← load s n
    pure x.color

/-- The C++ `replace_node(from, to)`. -/
def replace_node (s : RBTree α) (src : Option Nat) (dst : Option Nat) :
    Except Fault (RBTree α) := do
  let f ← load s src
  let s1 ← match f.parent with
    | none => pure { s with root := dst }
    | some _ => do
      let p ← load s f.parent
      if p.left = src then setLeft s f.parent dst else setRight s f.parent dst
  match dst with
  | none => pure s1
  | some _ => do
    let f1 ← load s1 src
    setParent s1 dst f1.parent

/-- The C++ `rotate_left(n)`. -/
def rotate_left (s : RBTree α) (n : Option Nat) : Except Fault (RBTree α) := do
  let nn ← load s n
  let r := nn.right
  let s1 ← replace_node s n r
  let rn ← load s1 r
  let s2 ← setRight s1 n rn.left
  let rn2 ← load s2 r
  let s3 ← match rn2.left with
    | none => pure s2
    | some _ => setParent s2 rn2.left n
  let s4 ← setLeft s3 r n
  setParent s4 n r

/-- The C++ `rotate_right(n)`. -/
def rotate_right (s : RBTree α) (n : Option Nat) : Except Fault (RBTree α) := do
  let nn ← load s n
  let l := nn.left
  let s1 ← replace_node s n l
  let ln ← load s1 l
  let s2 ← setLeft s1 n ln.right
  let ln2 ← load s2 l
  let s3 ← match ln2.right with
    | none => pure s2
    | some _ => setParent s2 ln2.right n
  let s4 ← setRight s3 l n
  setParent s4 n l

/-- The C++ `insert_case5(n)`. -/
def insert_case5 (s : RBTree α) (n : Option Nat) : Except Fault (RBTree α) := do
  let g ← grand_parent s n
  let nn ← load s n
  let s1 ← setColor s nn.parent .BLACK
  let s2 ← setColor s1 g .RED
  let nn2 ← load s2 n
  let p ← load s2 nn2.parent
  if n = p.left then rotate_right s2 g else rotate_left s2 g

/-- The C++ `insert_case4(n)`; `&&` evaluates its right operand only when the left one
holds. -/
def insert_case4 (s : RBTree α) (n : Option Nat) : Except Fault (RBTree α) := do
  let g ← grand_parent s n
  let nn ← load s n
  let p ← load s nn.parent
  let c1 ← if n = p.right then do
      let gn ← load s g
      pure (decide (nn.parent = gn.left))
    else pure false
  if c1 then do
    let s1 ← rotate_left s nn.parent
    let nn1 ← load s1 n
    insert_case5 s1 nn1.left
  else do
    let c2 ← if n = p.left then do
        let gn ← load s g
        pure (decide (nn.parent = gn.right))
      else pure false
    if c2 then do
      let s1 ← rotate_right s nn.parent
      let nn1 ← load s1 n
      insert_case5 s1 nn1.right
    else insert_case5 s n

/-- The C++ `insert_case3(n)`; the call back into `insert_case1` is the parameter
`case1`. -/
def insert_case3 (case1 : RBTree α → Option Nat → Except Fault (RBTree α))
    (s : RBTree α) (n : Option Nat) : Except Fault (RBTree α) := do
  let u ← uncle s n
  let red ← match u with
    | none => pure false
    | some _ => do
      let c ← node_color s u
      pure (decide (c = .RED))
  if red then do
    let nn ← load s n
    let s1 ← setColor s nn.parent .BLACK
    let s2 ← setColor s1 u .BLACK
    let g ← grand_parent s2 n
    let s3 ← setColor s2 g .RED
    case1 s3 g
  else insert_case4 s n

/-- The C++ `insert_case2(n)`. -/
def insert_case2 (case1 : RBTree α → Option Nat → Except Fault (RBTree α))
    (s : RBTree α) (n : Option Nat) : Except Fault (RBTree α) := do
  let nn ← load s n
  let c ← node_color s nn.parent
  if c = .BLACK then pure s else insert_case3 case1 s n

/-- The C++ `insert_case1(n)`; the fuel bounds the chain case1 → case2 → case3 → case1. -/
def insert_case1 : Nat → RBTree α → Option Nat → Except Fault (RBTree α)
  | 0, _, _ => .error .outOfFuel
  | fuel + 1, s, n => do
    let nn ← load s n
    match nn.parent with
    | none => setColor s n .BLACK
    | some _ => insert_case2 (insert_case1 fuel) s n

variable [LinearOrder α]

/-- The C++ `real_insert(node, parent, val)`: `node` is passed by reference, hence a
slot. -/
def real_insert : Nat → RBTree α → Slot → Option Nat → α → Except Fault (RBTree α)
  | 0, _, _, _, _ => .error .outOfFuel
  | fuel + 1, s, slot, parent, val => do
    let node ← readSlot s slot
    match node with
    | none => do
      let s1 := (alloc s ⟨val, none, none, parent, .RED⟩).1
      let a := (alloc s ⟨val, none, none, parent, .RED⟩).2
      let s2 ← writeSlot s1 (some a) slot
      insert_case1 (s2.cells.length + 1) s2 (some a)
    | some a => do
      let n ← load s node
      if val < n.value then real_insert fuel s (.left a) node val
      else real_insert fuel s (.right a) node val

/-- The C++ `insert(val)`. -/
def insert (s : RBTree α) (val : α) : Except Fault (RBTree α) :=
  real_insert (s.cells.length + 1) s .root none val

/-! ## Search -/

/-- The C++ `real_search(node, val)`: the `while` loop, one iteration per unit of fuel. -/
def real_search : Nat → RBTree α → Option Nat → α → Except Fault (Option Nat)
  | 0, _, _, _ => .error .outOfFuel
  | fuel + 1, s, node, val =>
    match node with
    | none => .ok none
    | some _ => do
      let n ← load s node
      if n.value = val then pure node
      else if val < n.value then real_search fuel s n.left val
      else real_search fuel s n.right val

/-- The C++ `search(val)`. -/
def search (s : RBTree α) (val : α) : Except Fault (Option Nat) :=
  real_search (s.cells.length + 1) s s.root val

/-! ## Deletion -/

/-- The loop `while (successor->left) successor = successor->left;`. -/
def leftmost : Nat → RBTree α → Option Nat → Except Fault (Option Nat)
  | 0, _, _ => .error .outOfFuel
  | fuel + 1, s, p => do
    let n ← load s p
    match n.left with
    | none => pure p
    | some _ => leftmost fuel s n.left

/-- The C++ `remove_real(node, val)`. -/
def remove_real : Nat → RBTree α → Option Nat → α → Except Fault (RBTree α)
  | 0, _, _, _ => .error .outOfFuel
  | fuel + 1, s, node, val =>
    match node with
    | none => .ok s
    | some _ => do
      let n ← load s node
      if n.value = val then
        if n.left = none ∧ n.right = none then
          match n.parent with
          | some _ => do
            let p ← load s n.parent
            let s1 ← if p.left = node then setLeft s n.parent none
              else setRight s n.parent none
            free s1 node
          | none => do
            let s1 ← free s s.root
            pure { s1 with root := none }
        else if n.left = none ∨ n.right = none then
          let child := match n.right with
            | some _ => n.right
            | none => n.left
          match n.parent with
          | some _ => do
            let p ← load s n.parent
            let s1 ← if p.left = node then setLeft s n.parent child
              else setRight s n.parent child
            free s1 node
          | none => do
            let s1 : RBTree α := { s with root := child }
            free s1 node
        else do
          let successor ← leftmost (s.cells.length + 1) s n.right
          let temp := n.value
          let sn ← load s successor
          let s1 ← setValue s node sn.value
          let s2 ← setValue s1 successor temp
          let n2 ← load s2 node
          remove_real fuel s2 n2.right temp
      else do
        let s1 ← remove_real fuel s n.left val
        let n1 ← load s1 node
        remove_real fuel s1 n1.right val

/-- The C++ `remove(val)`. -/
def remove (s : RBTree α) (val : α) : Except Fault (RBTree α) :=
  remove_real (s.cells.length + 1) s s.root val

/-! ## Traversal -/

/-- The C++ `traverse(node, f, order)`: the visitor `f` receives the node pointer; the
results of the visits are collected in the order in which they happen. -/
def traverse {β : Type} : Nat → RBTree α → Option Nat → (Nat → Node α → β) → Order →
    Except Fault (List β)
  | 0, _, _, _, _ => .error .outOfFuel
  | fuel + 1, s, node, f, order =>
    match node with
    | none => .ok []
    | some a => do
      let n ← load s node
      let pre := if order = .PRE then [f a n] else []
      let l ← match n.left with
        | none => pure []
        | some _ => traverse fuel s n.left f order
      let mid := if order = .IN then [f a n] else []
      let r ← match n.right with
        | none => pure []
        | some _ => traverse fuel s n.right f order
      let post := if order = .POST then [f a n] else []
      pure (pre ++ l ++ mid ++ r ++ post)

/-- The C++ `print(order)`: one output line per node, here the pair of the value and
the colour letter that the line `<value>:<letter>` shows. -/
def print (s : RBTree α) (order : Order) : Except Fault (List (α × Char)) :=
  traverse (s.cells.length + 1) s s.root
    (fun _ n => (n.value, if n.color = .RED then 'R' else 'B')) order

/-- The values met by an in-order traversal from the root. -/
def inorderValues (s : RBTree α) : Except Fault (List α) :=
  traverse (s.cells.length + 1) s s.root (fun _ n => n.value) .IN

/-! ## Running sequences of operations -/

/-- Insert the values of a list one by one, first element first. -/
def insertAll (s : RBTree α) : List α → Except Fault (RBTree α)
  | [] => .ok s
  | x :: xs => do
    let s1 ← insert s x
    insertAll s1 xs

/-- A public mutating operation. -/
inductive Op (α : Type) where
  | ins (v : α)
  | rem (v : α)
deriving DecidableEq

/-- Run a sequence of operations, first element first. -/
def runOps (s : RBTree α) : List (Op α) → Except Fault (RBTree α)
  | [] => .ok s
  | .ins v :: ops => do
    let s1 ← insert s v
    runOps s1 ops
  | .rem v :: ops => do
    let s1 ← remove s v
    runOps s1 ops

/-! ## Algebraic view of the memory -/

/-- A binary tree whose nodes carry their address, colour and value. -/
inductive Tree (α : Type) where
  | nil
  | node (a : Nat) (c : Color) (l : Tree α) (v : α) (r : Tree α)
deriving DecidableEq

/-- The pointer to the root node of a tree, `nullptr` for the empty tree. -/
def Tree.ptr : Tree α → Option Nat
  | .nil => none
  | .node a _ _ _ _ => some a

/-- The addresses of all nodes. -/
def Tree.addrs : Tree α → List Nat
  | .nil => []
  | .node a _ l _ r => a :: (l.addrs ++ r.addrs)

/-- The values in in-order: left subtree, node, right subtree. -/
def Tree.inorder : Tree α → List α
  | .nil => []
  | .node _ _ l v r => l.inorder ++ v :: r.inorder

/-- Number of nodes on the longest path from the root to an absent child. -/
def Tree.height : Tree α → Nat
  | .nil => 0
  | .node _ _ l _ r => max l.height r.height + 1

/-- Number of nodes. -/
def Tree.size : Tree α → Nat
  | .nil => 0
  | .node _ _ l _ r => l.size + r.size + 1

/-- Colour of the root; an absent node counts as BLACK. -/
def Tree.color : Tree α → Color
  | .nil => .BLACK
  | .node _ c _ _ _ => c

/-- The tree with its root recoloured. -/
def Tree.paint (c : Color) : Tree α → Tree α
  | .nil => .nil
  | .node a _ l v r => .node a c l v r

/-- The memory holds the tree `t` whose root has parent pointer `par`: every
node sits at its address with its value, colour, the pointers to its children
and the pointer to its parent. -/
def Own (cells : List (Option (Node α))) : Option Nat → Tree α → Prop
  | _, .nil => True
  | par, .node a c l v r =>
    get cells a = some ⟨v, l.ptr, r.ptr, par, c⟩ ∧ Own cells (some a) l ∧ Own cells (some a) r

/-- The memory holds the tree `t` as far as values, colours and child pointers
go; parent pointers are not looked at. -/
def Shape (cells : List (Option (Node α))) : Tree α → Prop
  | .nil => True
  | .node a c l v r =>
    (∃ q, get cells a = some ⟨v, l.ptr, r.ptr, q, c⟩) ∧ Shape cells l ∧ Shape cells r

/-- The state `s` is the tree `t` with consistent parent pointers: the root
pointer designates the root of `t`, whose parent pointer is null, every other
node points back to the node holding it, and no address occurs twice. -/
def Models (s : RBTree α) (t : Tree α) : Prop :=
  s.root = t.ptr ∧ Own s.cells none t ∧ t.addrs.Nodup

/-- The state `s` is the tree `t`, parent pointers left aside. -/
def ModelsShape (s : RBTree α) (t : Tree α) : Prop :=
  s.root = t.ptr ∧ Shape s.cells t ∧ t.addrs.Nodup

/-- The visits a traversal of the tree `t` makes, the root of `t` having
parent pointer `par`: the visitor sees each node as it lies in memory. -/
def Tree.visits {β : Type} (f : Nat → Node α → β) (order : Order) :
    Option Nat → Tree α → List β
  | _, .nil => []
  | par, .node a c l v r =>
    (if order = .PRE then [f a ⟨v, l.ptr, r.ptr, par, c⟩] else []) ++
      Tree.visits f order (some a) l ++
      (if order = .IN then [f a ⟨v, l.ptr, r.ptr, par, c⟩] else []) ++
      Tree.visits f order (some a) r ++
      (if order = .POST then [f a ⟨v, l.ptr, r.ptr, par, c⟩] else [])

/-! ### Colour invariants -/

/-- No RED node has a RED child. -/
def NoRedRed : Tree α → Prop
  | .nil => True
  | .node _ c l _ r =>
    (c = .RED → l.color = .BLACK ∧ r.color = .BLACK) ∧ NoRedRed l ∧ NoRedRed r

/-- The number of BLACK nodes on the leftmost path to an absent child. -/
def blackHeight : Tree α → Nat
  | .nil => 0
  | .node _ c l _ _ => blackHeight l + (if c = .BLACK then 1 else 0)

/-- Every path from a node to an absent child below it passes through the same
number of BLACK nodes. -/
def BlackBalanced : Tree α → Prop
  | .nil => True
  | .node _ _ l _ r => blackHeight l = blackHeight r ∧ BlackBalanced l ∧ BlackBalanced r

/-- The three colour invariants of a red-black tree. -/
def RedBlackInv (t : Tree α) : Prop :=
  t.color = .BLACK ∧ NoRedRed t ∧ BlackBalanced t

/-- The numbers of BLACK nodes on all the paths from the root to an absent
child. -/
def blackCounts : Tree α → List Nat
  | .nil => [0]
  | .node _ c l _ r =>
    (blackCounts l ++ blackCounts r).map (fun k => k + (if c = .BLACK then 1 else 0))

/-! ### Ordering -/

/-- The ordering as the specification words it: left subtree strictly smaller,
right subtree greater or equal, at every node. -/
def StrictLeftBST : Tree α → Prop
  | .nil => True
  | .node _ _ l v r =>
    (∀ x ∈ l.inorder, x < v) ∧ (∀ x ∈ r.inorder, v ≤ x) ∧ StrictLeftBST l ∧ StrictLeftBST r

/-- The ordering the rotations keep: left subtree smaller or equal, right
subtree greater or equal, at every node. -/
def WeakBST : Tree α → Prop
  | .nil => True
  | .node _ _ l v r =>
    (∀ x ∈ l.inorder, x ≤ v) ∧ (∀ x ∈ r.inorder, v ≤ x) ∧ WeakBST l ∧ WeakBST r

/-! ### Trees with a hole -/

/-- One step of a path from a hole up to the root: the node above the hole and
the sibling subtree.  `L` means the hole is the left child, `R` the right. -/
inductive Frame (α : Type) where
  | L (a : Nat) (c : Color) (v : α) (r : Tree α)
  | R (a : Nat) (c : Color) (l : Tree α) (v : α)
deriving DecidableEq

/-- Address of the node of a frame. -/
def Frame.addr : Frame α → Nat
  | .L a _ _ _ => a
  | .R a _ _ _ => a

/-- Colour of the node of a frame. -/
def Frame.color : Frame α → Color
  | .L _ c _ _ => c
  | .R _ c _ _ => c

/-- The sibling subtree of a frame. -/
def Frame.sibling : Frame α → Tree α
  | .L _ _ _ r => r
  | .R _ _ l _ => l

/-- Fill the hole of a path (innermost frame first) with a tree. -/
def plug : List (Frame α) → Tree α → Tree α
  | [], t => t
  | .L a c v r :: fs, t => plug fs (.node a c t v r)
  | .R a c l v :: fs, t => plug fs (.node a c l v t)

/-- Parent pointer of the hole: the innermost frame, null at the root. -/
def ctxPtr : List (Frame α) → Option Nat
  | [] => none
  | f :: _ => some f.addr

/-- Root pointer of the plugged tree, given the pointer in the hole. -/
def rootPtr : List (Frame α) → Option Nat → Option Nat
  | [], h => h
  | f :: fs, _ => rootPtr fs (some f.addr)

/-- Addresses of the nodes of a path and of their sibling subtrees. -/
def ctxAddrs : List (Frame α) → List Nat
  | [] => []
  | f :: fs => f.addr :: (f.sibling.addrs ++ ctxAddrs fs)

/-- The memory holds the path `fs` around a hole whose pointer is `hole`. -/
def OwnCtx (cells : List (Option (Node α))) : List (Frame α) → Option Nat → Prop
  | [], _ => True
  | .L a c v r :: fs, hole =>
    get cells a = some ⟨v, hole, r.ptr, ctxPtr fs, c⟩ ∧ Own cells (some a) r ∧
      OwnCtx cells fs (some a)
  | .R a c l v :: fs, hole =>
    get cells a = some ⟨v, l.ptr, hole, ctxPtr fs, c⟩ ∧ Own cells (some a) l ∧
      OwnCtx cells fs (some a)

/-- The state `s` is the tree `plug fs t`, seen as the path `fs` and the
subtree `t` in its hole. -/
def Rep (s : RBTree α) (fs : List (Frame α)) (t : Tree α) : Prop :=
  s.root = rootPtr fs t.ptr ∧ OwnCtx s.cells fs t.ptr ∧ Own s.cells (ctxPtr fs) t ∧
    (t.addrs ++ ctxAddrs fs).Nodup

/-- The pointer variable holding the hole of a path: the root pointer or a
child field of the innermost frame. -/
def slotOf : List (Frame α) → Slot
  | [] => .root
  | .L a _ _ _ :: _ => .left a
  | .R a _ _ _ :: _ => .right a

/-- Colour of the innermost frame of a path; BLACK for the empty path, as
for an absent parent. -/
def ctxColor : List (Frame α) → Color
  | [] => .BLACK
  | f :: _ => f.color

/-- Colour of the root of the plugged tree, given the colour of the root of
the tree in the hole. -/
def rootColor : List (Frame α) → Color → Color
  | [], c => c
  | f :: fs, _ => rootColor fs f.color

/-- No RED node of the path has a RED child, the hole left aside. -/
def CtxNoRedRed : List (Frame α) → Prop
  | [] => True
  | f :: fs =>
    NoRedRed f.sibling ∧ (f.color = .RED → f.sibling.color = .BLACK ∧ ctxColor fs = .BLACK) ∧
      CtxNoRedRed fs

/-- The path is black-balanced for a tree of black height `h` in its hole. -/
def CtxBalanced : List (Frame α) → Nat → Prop
  | [], _ => True
  | f :: fs, h =>
    blackHeight f.sibling = h ∧ BlackBalanced f.sibling ∧
      CtxBalanced fs (h + (if f.color = .BLACK then 1 else 0))

/-- The values of a path that come before the hole in in-order. -/
def ctxBefore : List (Frame α) → List α
  | [] => []
  | .L _ _ _ _ :: fs => ctxBefore fs
  | .R _ _ l v :: fs => ctxBefore fs ++ (l.inorder ++ [v])

/-- The values of a path that come after the hole in in-order. -/
def ctxAfter : List (Frame α) → List α
  | [] => []
  | .L _ _ v r :: fs => (v :: r.inorder) ++ ctxAfter fs
  | .R _ _ _ _ :: fs => ctxAfter fs

/-! ### The insertion fixup on trees with a hole -/

/-- The node of a frame rebuilt with a colour, a tree in the hole and a
sibling. -/
def Frame.build : Frame α → Color → Tree α → Tree α → Tree α
  | .L a _ v _, c, hole, sib => .node a c hole v sib
  | .R a _ _ v, c, hole, sib => .node a c sib v hole

/-- What `insert_case3` does when the uncle is RED: parent and uncle become
BLACK, the grandparent RED.  The result is the subtree at the grandparent. -/
def recolour (gf pf : Frame α) (t : Tree α) : Tree α :=
  gf.build .RED (pf.build .BLACK t pf.sibling) (gf.sibling.paint .BLACK)

/-- What `insert_case4` and `insert_case5` do to the subtree at the
grandparent: `gf` is the grandparent, `pf` the parent, the rest is the node. -/
def rotateFix : Frame α → Frame α → Nat → Color → Tree α → α → Tree α → Tree α
  | .L g _ gv u, .L p _ pv pr, n, cn, nl, nv, nr =>
    .node p .BLACK (.node n cn nl nv nr) pv (.node g .RED pr gv u)
  | .L g _ gv u, .R p cp pl pv, n, _, nl, nv, nr =>
    .node n .BLACK (.node p cp pl pv nl) nv (.node g .RED nr gv u)
  | .R g _ u gv, .R p _ pl pv, n, cn, nl, nv, nr =>
    .node p .BLACK (.node g .RED u gv pl) pv (.node n cn nl nv nr)
  | .R g _ u gv, .L p cp pv pr, n, _, nl, nv, nr =>
    .node n .BLACK (.node g .RED u gv nl) nv (.node p cp nr pv pr)

/-- What `insert_case1` does, seen on the path and the subtree at the node it
is called on; `none` where the code dereferences a null pointer. -/
def fixup : List (Frame α) → Tree α → Option (Tree α)
  | _, .nil => none
  | [], .node n _ l v r => some (.node n .BLACK l v r)
  | [pf], .node n cn nl nv nr =>
    if pf.color = .BLACK then some (plug [pf] (.node n cn nl nv nr)) else none
  | pf :: gf :: fs, .node n cn nl nv nr =>
    if pf.color = .BLACK then some (plug (pf :: gf :: fs) (.node n cn nl nv nr))
    else if gf.sibling.color = .RED then fixup fs (recolour gf pf (.node n cn nl nv nr))
    else some (plug fs (rotateFix gf pf n cn nl nv nr))

/-- The path `real_insert` follows from the hole of `fs` filled with `t` down
to the absent child where the new node goes. -/
def descend (val : α) : List (Frame α) → Tree α → List (Frame α)
  | fs, .nil => fs
  | fs, .node a c l v r =>
    if val < v then descend val (.L a c v r :: fs) l
    else descend val (.R a c l v :: fs) r

/-- What `insert(val)` does to a tree when the new node gets address `a`;
`none` where the code faults. -/
def insertT (t : Tree α) (a : Nat) (val : α) : Option (Tree α) :=
  fixup (descend val [] t) (.node a .RED .nil val .nil)

/-! ### Deletion on trees -/

/-- Address of the leftmost node. -/
def Tree.leftmostAddr : Tree α → Option Nat
  | .nil => none
  | .node a _ .nil _ _ => some a
  | .node _ _ l _ _ => l.leftmostAddr

/-- Value of the leftmost node, `d` for the empty tree. -/
def Tree.leftmostValue (d : α) : Tree α → α
  | .nil => d
  | .node _ _ .nil v _ => v
  | .node _ _ l _ _ => l.leftmostValue d

/-- The tree with the value of its leftmost node replaced. -/
def Tree.setLeftmost (x : α) : Tree α → Tree α
  | .nil => .nil
  | .node a c .nil _ r => .node a c .nil x r
  | .node a c l v r => .node a c (l.setLeftmost x) v r

/-- What `remove_real(node, val)` does to the subtree at `node`, as far as
shape, values and colours go.  The fuel mirrors the fuel of `remove_real`. -/
def removeT (val : α) : Nat → Tree α → Tree α
  | 0, t => t
  | _ + 1, .nil => .nil
  | fuel + 1, .node a c l v r =>
    if v = val then
      match l, r with
      | .nil, .nil => .nil
      | .nil, .node b cb rl rv rr => .node b cb rl rv rr
      | .node b cb ll lv lr, .nil => .node b cb ll lv lr
      | .node b cb ll lv lr, .node d cd rl rv rr =>
        .node a c (.node b cb ll lv lr) (Tree.leftmostValue v (.node d cd rl rv rr))
          (removeT v fuel (Tree.setLeftmost v (.node d cd rl rv rr)))
    else .node a c (removeT val fuel l) v (removeT val fuel r)

/-- The pointer variable `slot` holds the pointer `p` to a subtree whose root
has parent pointer `par`. -/
def SlotHolds (s : RBTree α) (par p : Option Nat) : Slot → Prop
  | .root => par = none ∧ s.root = p
  | .left q => par = some q ∧ ∃ pn, get s.cells q = some pn ∧ pn.left = p
  | .right q =>
    par = some q ∧ ∃ pn, get s.cells q = some pn ∧ pn.right = p ∧ (p ≠ none → pn.left ≠ p)

/-- Between the states `s` and `s1` the pointer variable `slot` was assigned
`p`, and nothing else changed in the root pointer and in the node of the slot. -/
def SlotUpdated (s s1 : RBTree α) (p : Option Nat) : Slot → Prop
  | .root => s1.root = p
  | .left q =>
    s1.root = s.root ∧ ∃ pn, get s.cells q = some pn ∧ get s1.cells q = some { pn with left := p }
  | .right q =>
    s1.root = s.root ∧
      ∃ pn, get s.cells q = some pn ∧ get s1.cells q = some { pn with right := p }

/-- The state after a node at address `a` has been unlinked: the pointer
variable `slot` that held it is assigned `p`, and its cell is freed. -/
def spliceState (s : RBTree α) (a : Nat) (p : Option Nat) : Slot → RBTree α
  | .root => ⟨s.cells.set a none, p⟩
  | .left q =>
    match get s.cells q with
    | some pn => ⟨(s.cells.set q (some { pn with left := p })).set a none, s.root⟩
    | none => s
  | .right q =>
    match get s.cells q with
    | some pn => ⟨(s.cells.set q (some { pn with right := p })).set a none, s.root⟩
    | none => s

/-! ### Traversal orders, depths, parent links -/

/-- The addresses of the nodes in the order in which a traversal visits them:
node, left subtree, right subtree for PRE; left subtree, node, right subtree
for IN; left subtree, right subtree, node for POST. -/
def Tree.order : Order → Tree α → List Nat
  | _, .nil => []
  | .PRE, .node a _ l _ r => a :: (Tree.order .PRE l ++ Tree.order .PRE r)
  | .IN, .node a _ l _ r => Tree.order .IN l ++ a :: Tree.order .IN r
  | .POST, .node a _ l _ r => Tree.order .POST l ++ (Tree.order .POST r ++ [a])

/-- The depths of the leaves (the nodes without children), from left to
right, the root being at depth `d`. -/
def Tree.leafDepths : Nat → Tree α → List Nat
  | _, .nil => []
  | d, .node _ _ .nil _ .nil => [d]
  | d, .node _ _ l _ r => Tree.leafDepths (d + 1) l ++ Tree.leafDepths (d + 1) r

/-- The value at the root. -/
def Tree.rootValue : Tree α → Option α
  | .nil => none
  | .node _ _ _ v _ => some v

/-- Value of the node of a frame. -/
def Frame.value : Frame α → α
  | .L _ _ v _ => v
  | .R _ _ _ v => v

/-- The parent pointers of the nodes at the addresses `nodes` are consistent
in the state `s`: the parent pointer of the root is null, and the parent
pointer of every other node designates a node of which it is the left or the
right child, no other node having it as a child. -/
def ParentLinksConsistent (s : RBTree α) (nodes : List Nat) : Prop :=
  (∀ a, s.root = some a → ∃ n, get s.cells a = some n ∧ n.parent = none) ∧
    ∀ x ∈ nodes, s.root ≠ some x →
      ∃ p ∈ nodes, ∃ nx np, get s.cells x = some nx ∧ nx.parent = some p ∧
        get s.cells p = some np ∧ (np.left = some x ∨ np.right = some x) ∧
        ∀ q ∈ nodes, ∀ nq, get s.cells q = some nq →
          (nq.left = some x ∨ nq.right = some x) → q = p

end

/-! # Theorems -/

section

variable {α : Type}

/-! ## Memory -/

theorem get_lt {cells : List (Option (Node α))} {a : Nat} {n : Node α}
    (h : get cells a = some n) : a < cells.length := by
  by_contra hlt
  have : cells[a]? = none := List.getElem?_eq_none (Nat.le_of_not_lt hlt)
  simp [get, this] at h

theorem get_set_eq {cells : List (Option (Node α))} {a : Nat} (x : Option (Node α))
    (h : a < cells.length) : get (cells.set a x) a = x := by
  simp [get, List.getElem?_set, h]

theorem get_set_ne {cells : List (Option (Node α))} {a b : Nat} (x : Option (Node α))
    (h : a ≠ b) : get (cells.set a x) b = get cells b := by
  simp [get, List.getElem?_set, h]

theorem get_append_lt {cells : List (Option (Node α))} {a : Nat} (x : Option (Node α))
    (h : a < cells.length) : get (cells ++ [x]) a = get cells a := by
  simp [get, List.getElem?_append_left h]

theorem get_append_length (cells : List (Option (Node α))) (x : Option (Node α)) :
    get (cells ++ [x]) cells.length = x := by
  simp [get]

theorem get_length (cells : List (Option (Node α))) : get cells cells.length = none := by
  simp [get]

/-! ## Trees in memory -/

theorem own_lt {cells : List (Option (Node α))} :
    ∀ {t : Tree α} {par : Option Nat}, Own cells par t → ∀ a ∈ t.addrs, a < cells.length
  | .nil, _, _, a, ha => by simp [Tree.addrs] at ha
  | .node b c l v r, par, h, a, ha => by
    obtain ⟨h1, h2, h3⟩ := h
    simp only [Tree.addrs, List.mem_cons, List.mem_append] at ha
    rcases ha with rfl | ha | ha
    · exact get_lt h1
    · exact own_lt h2 a ha
    · exact own_lt h3 a ha

theorem own_set {cells : List (Option (Node α))} {a : Nat} (x : Option (Node α)) :
    ∀ {t : Tree α} {par : Option Nat}, Own cells par t → a ∉ t.addrs →
      Own (cells.set a x) par t
  | .nil, _, _, _ => trivial
  | .node b c l v r, par, h, ha => by
    obtain ⟨h1, h2, h3⟩ := h
    simp only [Tree.addrs, List.mem_cons, List.mem_append, not_or] at ha
    refine ⟨?_, own_set x h2 ha.2.1, own_set x h3 ha.2.2⟩
    rw [get_set_ne x ha.1]; exact h1

theorem own_append {cells : List (Option (Node α))} (x : Option (Node α)) :
    ∀ {t : Tree α} {par : Option Nat}, Own cells par t → Own (cells ++ [x]) par t
  | .nil, _, _ => trivial
  | .node b c l v r, par, h => by
    obtain ⟨h1, h2, h3⟩ := h
    refine ⟨?_, own_append x h2, own_append x h3⟩
    rw [get_append_lt x (get_lt h1)]; exact h1

theorem own_shape {cells : List (Option (Node α))} :
    ∀ {t : Tree α} {par : Option Nat}, Own cells par t → Shape cells t
  | .nil, _, _ => trivial
  | .node _ _ _ _ _, par, h => ⟨⟨par, h.1⟩, own_shape h.2.1, own_shape h.2.2⟩

theorem shape_lt {cells : List (Option (Node α))} :
    ∀ {t : Tree α}, Shape cells t → ∀ a ∈ t.addrs, a < cells.length
  | .nil, _, a, ha => by simp [Tree.addrs] at ha
  | .node b c l v r, h, a, ha => by
    obtain ⟨⟨q, h1⟩, h2, h3⟩ := h
    simp only [Tree.addrs, List.mem_cons, List.mem_append] at ha
    rcases ha with rfl | ha | ha
    · exact get_lt h1
    · exact shape_lt h2 a ha
    · exact shape_lt h3 a ha

theorem shape_set {cells : List (Option (Node α))} {a : Nat} (x : Option (Node α)) :
    ∀ {t : Tree α}, Shape cells t → a ∉ t.addrs → Shape (cells.set a x) t
  | .nil, _, _ => trivial
  | .node b c l v r, h, ha => by
    obtain ⟨⟨q, h1⟩, h2, h3⟩ := h
    simp only [Tree.addrs, List.mem_cons, List.mem_append, not_or] at ha
    refine ⟨⟨q, ?_⟩, shape_set x h2 ha.2.1, shape_set x h3 ha.2.2⟩
    rw [get_set_ne x ha.1]; exact h1

/-- Changing the parent pointer of the root of a subtree. -/
theorem own_reparent {cells : List (Option (Node α))} {a : Nat} {c : Color} {l r : Tree α}
    {v : α} {par : Option Nat} (par' : Option Nat) (h : Own cells par (.node a c l v r))
    (hl : a ∉ l.addrs) (hr : a ∉ r.addrs) :
    Own (cells.set a (some ⟨v, l.ptr, r.ptr, par', c⟩)) par' (.node a c l v r) := by
  obtain ⟨h1, h2, h3⟩ := h
  exact ⟨get_set_eq _ (get_lt h1), own_set _ h2 hl, own_set _ h3 hr⟩

theorem size_le_of_nodup {l : List Nat} {n : Nat} (hn : l.Nodup) (hlt : ∀ a ∈ l, a < n) :
    l.length ≤ n := by
  have h1 : l.toFinset ⊆ Finset.range n := by
    intro a ha
    simp only [List.mem_toFinset] at ha
    simpa using hlt a ha
  have h2 := Finset.card_le_card h1
  rwa [List.toFinset_card_of_nodup hn, Finset.card_range] at h2

theorem length_addrs (t : Tree α) : t.addrs.length = t.size := by
  induction t with
  | nil => rfl
  | node a c l v r ihl ihr => simp [Tree.addrs, Tree.size, ihl, ihr]

theorem height_le_size (t : Tree α) : t.height ≤ t.size := by
  induction t with
  | nil => simp [Tree.height, Tree.size]
  | node a c l v r ihl ihr => simp [Tree.height, Tree.size]; omega

theorem shape_size_le {cells : List (Option (Node α))} {t : Tree α} (h : Shape cells t)
    (hn : t.addrs.Nodup) : t.size ≤ cells.length := by
  rw [← length_addrs]
  exact size_le_of_nodup hn (shape_lt h)

theorem ptr_plug : ∀ (fs : List (Frame α)) (t : Tree α), (plug fs t).ptr = rootPtr fs t.ptr
  | [], _ => rfl
  | .L a c v r :: fs, t => by
    simp only [plug, rootPtr, Frame.addr]; rw [ptr_plug fs]; rfl
  | .R a c l v :: fs, t => by
    simp only [plug, rootPtr, Frame.addr]; rw [ptr_plug fs]; rfl

theorem own_plug {cells : List (Option (Node α))} :
    ∀ (fs : List (Frame α)) (t : Tree α),
      Own cells none (plug fs t) ↔ OwnCtx cells fs t.ptr ∧ Own cells (ctxPtr fs) t
  | [], t => by simp [plug, OwnCtx, ctxPtr]
  | .L a c v r :: fs, t => by
    simp only [plug, own_plug fs, OwnCtx, ctxPtr, Own, Tree.ptr, Frame.addr]
    tauto
  | .R a c l v :: fs, t => by
    simp only [plug, own_plug fs, OwnCtx, ctxPtr, Own, Tree.ptr, Frame.addr]
    tauto

theorem addrs_plug : ∀ (fs : List (Frame α)) (t : Tree α),
    (plug fs t).addrs.Perm (t.addrs ++ ctxAddrs fs)
  | [], t => by simp [plug, ctxAddrs]
  | .L a c v r :: fs, t => by
    refine (addrs_plug fs _).trans ?_
    simp only [Tree.addrs, ctxAddrs, Frame.addr, Frame.sibling, List.cons_append,
      List.append_assoc]
    exact List.perm_middle.symm
  | .R a c l v :: fs, t => by
    refine (addrs_plug fs _).trans ?_
    simp only [Tree.addrs, ctxAddrs, Frame.addr, Frame.sibling, List.cons_append,
      List.append_assoc]
    refine List.Perm.trans ?_ List.perm_middle.symm
    refine List.Perm.cons _ ?_
    rw [← List.append_assoc, ← List.append_assoc]
    exact List.Perm.append_right _ List.perm_append_comm

theorem models_plug {s : RBTree α} {fs : List (Frame α)} {t : Tree α} :
    Models s (plug fs t) ↔ Rep s fs t := by
  unfold Models Rep
  rw [ptr_plug, own_plug, (addrs_plug fs t).nodup_iff]
  tauto

theorem rep_nil {s : RBTree α} {t : Tree α} : Rep s [] t ↔ Models s t :=
  (@models_plug α s [] t).symm

/-- Moving the focus one node up or down. -/
theorem rep_up {s : RBTree α} {f : Frame α} {fs : List (Frame α)} {t : Tree α} :
    Rep s (f :: fs) t ↔ Rep s fs (plug [f] t) := by
  rw [← models_plug, ← models_plug]
  cases f <;> rfl

theorem inorder_plug_congr {t t' : Tree α} (h : t.inorder = t'.inorder) :
    ∀ fs : List (Frame α), (plug fs t).inorder = (plug fs t').inorder
  | [] => h
  | .L a c v r :: fs => by
    simp only [plug]
    exact inorder_plug_congr (by simp [Tree.inorder, h]) fs
  | .R a c l v :: fs => by
    simp only [plug]
    exact inorder_plug_congr (by simp [Tree.inorder, h]) fs

end

section

variable {α : Type}

@[simp]
theorem ok_bind {β γ : Type} (a : β) (f : β → Except Fault γ) :
    (Except.ok a >>= f) = f a := rfl

@[simp]
theorem pure_eq_ok {β : Type} (a : β) : (pure a : Except Fault β) = Except.ok a := rfl

theorem get_set (cells : List (Option (Node α))) (a b : Nat) (x : Option (Node α)) :
    get (cells.set a x) b =
      if b = a then (if a < cells.length then x else none) else get cells b := by
  by_cases h : b = a
  · subst h
    by_cases h2 : b < cells.length
    · simp [h2, get_set_eq]
    · have h3 : (cells.set b x)[b]? = none :=
        List.getElem?_eq_none (by simpa using Nat.le_of_not_lt h2)
      simp [h2, get, h3]
  · simp [h, get_set_ne _ (Ne.symm h)]

theorem own_congr {cells cells' : List (Option (Node α))} :
    ∀ {t : Tree α} {par : Option Nat}, Own cells par t →
      (∀ b ∈ t.addrs, get cells' b = get cells b) → Own cells' par t
  | .nil, _, _, _ => trivial
  | .node a c l v r, par, h, hc => by
    obtain ⟨h1, h2, h3⟩ := h
    refine ⟨?_, own_congr h2 ?_, own_congr h3 ?_⟩
    · rw [hc a (by simp [Tree.addrs])]; exact h1
    · intro b hb; exact hc b (by simp [Tree.addrs, hb])
    · intro b hb; exact hc b (by simp [Tree.addrs, hb])

theorem ownCtx_congr {cells cells' : List (Option (Node α))} :
    ∀ {fs : List (Frame α)} {hole : Option Nat}, OwnCtx cells fs hole →
      (∀ b ∈ ctxAddrs fs, get cells' b = get cells b) → OwnCtx cells' fs hole
  | [], _, _, _ => trivial
  | .L a c v r :: fs, hole, h, hc => by
    obtain ⟨h1, h2, h3⟩ := h
    refine ⟨?_, own_congr h2 ?_, ownCtx_congr h3 ?_⟩
    · rw [hc a (by simp [ctxAddrs, Frame.addr])]; exact h1
    · intro b hb; exact hc b (by simp [ctxAddrs, Frame.sibling, hb])
    · intro b hb; exact hc b (by simp [ctxAddrs, hb])
  | .R a c l v :: fs, hole, h, hc => by
    obtain ⟨h1, h2, h3⟩ := h
    refine ⟨?_, own_congr h2 ?_, ownCtx_congr h3 ?_⟩
    · rw [hc a (by simp [ctxAddrs, Frame.addr])]; exact h1
    · intro b hb; exact hc b (by simp [ctxAddrs, Frame.sibling, hb])
    · intro b hb; exact hc b (by simp [ctxAddrs, hb])

theorem ownCtx_lt {cells : List (Option (Node α))} :
    ∀ {fs : List (Frame α)} {hole : Option Nat}, OwnCtx cells fs hole →
      ∀ a ∈ ctxAddrs fs, a < cells.length
  | [], _, _, a, ha => by simp [ctxAddrs] at ha
  | .L b c v r :: fs, hole, h, a, ha => by
    obtain ⟨h1, h2, h3⟩ := h
    simp only [ctxAddrs, Frame.addr, Frame.sibling, List.mem_cons, List.mem_append] at ha
    rcases ha with rfl | ha | ha
    · exact get_lt h1
    · exact own_lt h2 a ha
    · exact ownCtx_lt h3 a ha
  | .R b c l v :: fs, hole, h, a, ha => by
    obtain ⟨h1, h2, h3⟩ := h
    simp only [ctxAddrs, Frame.addr, Frame.sibling, List.mem_cons, List.mem_append] at ha
    rcases ha with rfl | ha | ha
    · exact get_lt h1
    · exact own_lt h2 a ha
    · exact ownCtx_lt h3 a ha

/-- Redirecting the child pointer of the node above the hole. -/
theorem ownCtx_relink {cells cells' : List (Option (Node α))} {fs : List (Frame α)}
    {hole hole' : Option Nat} (h : OwnCtx cells fs hole)
    (hnd : (ctxAddrs fs).Nodup)
    (hhead : ∀ f fs', fs = f :: fs' → ∀ n, get cells f.addr = some n →
      get cells' f.addr = some (match f with
        | .L _ _ _ _ => { n with left := hole' }
        | .R _ _ _ _ => { n with right := hole' }))
    (hrest : ∀ b ∈ ctxAddrs fs, ctxPtr fs ≠ some b → get cells' b = get cells b) :
    OwnCtx cells' fs hole' := by
  cases fs with
  | nil => trivial
  | cons f fs' =>
    cases f with
    | L a c v r =>
      obtain ⟨h1, h2, h3⟩ := h
      simp only [ctxAddrs, Frame.addr, Frame.sibling, List.nodup_cons, List.mem_append,
        not_or, List.nodup_append] at hnd
      refine ⟨?_, own_congr h2 ?_, ownCtx_congr h3 ?_⟩
      · have := hhead _ _ rfl _ h1
        simpa [Frame.addr] using this
      · intro b hb
        refine hrest b (by simp [ctxAddrs, Frame.sibling, hb]) ?_
        simp only [ctxPtr, Frame.addr, ne_eq, Option.some.injEq]
        rintro rfl; exact hnd.1.1 hb
      · intro b hb
        refine hrest b (by simp [ctxAddrs, hb]) ?_
        simp only [ctxPtr, Frame.addr, ne_eq, Option.some.injEq]
        rintro rfl; exact hnd.1.2 hb
    | R a c l v =>
      obtain ⟨h1, h2, h3⟩ := h
      simp only [ctxAddrs, Frame.addr, Frame.sibling, List.nodup_cons, List.mem_append,
        not_or, List.nodup_append] at hnd
      refine ⟨?_, own_congr h2 ?_, ownCtx_congr h3 ?_⟩
      · have := hhead _ _ rfl _ h1
        simpa [Frame.addr] using this
      · intro b hb
        refine hrest b (by simp [ctxAddrs, Frame.sibling, hb]) ?_
        simp only [ctxPtr, Frame.addr, ne_eq, Option.some.injEq]
        rintro rfl; exact hnd.1.1 hb
      · intro b hb
        refine hrest b (by simp [ctxAddrs, hb]) ?_
        simp only [ctxPtr, Frame.addr, ne_eq, Option.some.injEq]
        rintro rfl; exact hnd.1.2 hb

theorem rep_get {s : RBTree α} {fs : List (Frame α)} {a : Nat} {c : Color} {l r : Tree α}
    {v : α} (h : Rep s fs (.node a c l v r)) :
    get s.cells a = some ⟨v, l.ptr, r.ptr, ctxPtr fs, c⟩ := h.2.2.1.1

end

section

variable {α : Type}

@[simp]
theorem ptr_nil : (Tree.nil : Tree α).ptr = none := rfl

@[simp]
theorem ptr_node (a : Nat) (c : Color) (l : Tree α) (v : α) (r : Tree α) :
    (Tree.node a c l v r).ptr = some a := rfl

@[simp]
theorem ctxPtr_nil : ctxPtr ([] : List (Frame α)) = none := rfl

@[simp]
theorem ctxPtr_cons (f : Frame α) (fs : List (Frame α)) :
    ctxPtr (f :: fs) = some f.addr := rfl

@[simp]
theorem addr_L (a : Nat) (c : Color) (v : α) (r : Tree α) :
    (Frame.L a c v r).addr = a := rfl

@[simp]
theorem addr_R (a : Nat) (c : Color) (l : Tree α) (v : α) :
    (Frame.R a c l v).addr = a := rfl

@[simp]
theorem rootPtr_nil (h : Option Nat) : rootPtr ([] : List (Frame α)) h = h := rfl

@[simp]
theorem rootPtr_cons (f : Frame α) (fs : List (Frame α)) (h : Option Nat) :
    rootPtr (f :: fs) h = rootPtr fs (some f.addr) := rfl

theorem ptr_mem {t : Tree α} {x : Nat} (h : t.ptr = some x) : x ∈ t.addrs := by
  cases t with
  | nil => simp at h
  | node a c l v r => simp at h; simp [Tree.addrs, h]

theorem ptr_ne_of_not_mem {t : Tree α} {x : Nat} (h : x ∉ t.addrs) : t.ptr ≠ some x :=
  fun e => h (ptr_mem e)

theorem ctxPtr_mem {fs : List (Frame α)} {x : Nat} (h : ctxPtr fs = some x) :
    x ∈ ctxAddrs fs := by
  cases fs with
  | nil => simp at h
  | cons f fs => simp at h; simp [ctxAddrs, h]

/-- Memory that agrees outside a set of addresses holds the same trees away
from that set. -/
theorem own_frame {cells cells' : List (Option (Node α))} (M : List Nat) {t : Tree α}
    {par : Option Nat} (h : Own cells par t)
    (hag : ∀ z, z ∉ M → get cells' z = get cells z) (hdis : ∀ m ∈ M, m ∉ t.addrs) :
    Own cells' par t :=
  own_congr h (fun b hb => hag b (fun hm => hdis b hm hb))

theorem ownCtx_frame {cells cells' : List (Option (Node α))} (M : List Nat)
    {fs : List (Frame α)} {hole : Option Nat} (h : OwnCtx cells fs hole)
    (hag : ∀ z, z ∉ M → get cells' z = get cells z) (hdis : ∀ m ∈ M, m ∉ ctxAddrs fs) :
    OwnCtx cells' fs hole :=
  ownCtx_congr h (fun b hb => hag b (fun hm => hdis b hm hb))

/-- The code of `replace_node(a, b)` on a node `a` in the hole of a path: the node above
(or the root pointer) now designates `b`, and `b` points back to it. -/
theorem replace_node_spec {s : RBTree α} {fs : List (Frame α)} {a b : Nat} {na nb : Node α}
    (hroot : s.root = rootPtr fs (some a)) (hctx : OwnCtx s.cells fs (some a))
    (hndc : (ctxAddrs fs).Nodup)
    (ha : get s.cells a = some na) (hpar : na.parent = ctxPtr fs)
    (hb : get s.cells b = some nb)
    (hab : a ≠ b) (hac : a ∉ ctxAddrs fs) (hbc : b ∉ ctxAddrs fs) :
    ∃ s1, replace_node s (some a) (some b) = .ok s1 ∧ s1.root = rootPtr fs (some b) ∧
      OwnCtx s1.cells fs (some b) ∧
      get s1.cells b = some { nb with parent := ctxPtr fs } ∧
      s1.cells.length = s.cells.length ∧
      (∀ z, z ≠ b → ctxPtr fs ≠ some z → get s1.cells z = get s.cells z) := by
  have hbl := get_lt hb
  cases fs with
  | nil =>
    refine ⟨{ store s b { nb with parent := none } with root := some b }, ?_, rfl, trivial,
      ?_, ?_, ?_⟩
    · simp [replace_node, load, setParent, store, ha, hb, hpar]
    · simp [store, get_set, hbl]
    · simp [store]
    · intro z hz _
      simp [store, get_set, hz]
  | cons f fs' =>
    cases f with
    | L q cq qv qr =>
      obtain ⟨h1, h2, h3⟩ := hctx
      simp only [ctxAddrs, Frame.addr, Frame.sibling, List.mem_cons, List.mem_append,
        not_or, List.nodup_cons, List.nodup_append] at hac hbc hndc
      have hql := get_lt h1
      have hqb : q ≠ b := fun e => hbc.1 e.symm
      have hqa : q ≠ a := fun e => hac.1 e.symm
      have hag : ∀ z, z ∉ [b, q] → get (store (store s q ⟨qv, some b, qr.ptr, ctxPtr fs', cq⟩) b
          { nb with parent := some q }).cells z = get s.cells z := by
        intro z hz
        simp only [List.mem_cons, List.mem_singleton, not_or, List.not_mem_nil,
          or_false] at hz
        simp [store, get_set, hz]
      refine ⟨store (store s q ⟨qv, some b, qr.ptr, ctxPtr fs', cq⟩) b
        { nb with parent := some q }, ?_, ?_, ⟨?_, ?_, ?_⟩, ?_, ?_, ?_⟩
      · simp [replace_node, load, setParent, setLeft, store, ha, hb, hpar, get_set, hbl, hql,
          h1, hqb, hqa, hqa.symm, hab, hab.symm, hqb.symm]
      · simp [store, hroot]
      · simp [store, get_set, hqb, hql]
      · exact own_frame [b, q] h2 hag (by simp [hbc, hndc])
      · exact ownCtx_frame [b, q] h3 hag (by simp [hbc, hndc])
      · simp [store, get_set, hbl]
      · simp [store]
      · intro z hz1 hz2
        exact hag z (by simpa [hz1] using Ne.symm hz2)
    | R q cq ql qv =>
      obtain ⟨h1, h2, h3⟩ := hctx
      simp only [ctxAddrs, Frame.addr, Frame.sibling, List.mem_cons, List.mem_append,
        not_or, List.nodup_cons, List.nodup_append] at hac hbc hndc
      have hql := get_lt h1
      have hqb : q ≠ b := fun e => hbc.1 e.symm
      have hqa : q ≠ a := fun e => hac.1 e.symm
      have hqla : ql.ptr ≠ some a := ptr_ne_of_not_mem hac.2.1
      have hag : ∀ z, z ∉ [b, q] → get (store (store s q ⟨qv, ql.ptr, some b, ctxPtr fs', cq⟩) b
          { nb with parent := some q }).cells z = get s.cells z := by
        intro z hz
        simp only [List.mem_cons, List.mem_singleton, not_or, List.not_mem_nil,
          or_false] at hz
        simp [store, get_set, hz]
      refine ⟨store (store s q ⟨qv, ql.ptr, some b, ctxPtr fs', cq⟩) b
        { nb with parent := some q }, ?_, ?_, ⟨?_, ?_, ?_⟩, ?_, ?_, ?_⟩
      · simp [replace_node, load, setParent, setRight, store, ha, hb, hpar, get_set, hbl, hql,
          h1, hqb, hqa, hqa.symm, hab, hab.symm, hqb.symm, hqla]
      · simp [store, hroot]
      · simp [store, get_set, hqb, hql]
      · exact own_frame [b, q] h2 hag (by simp [hbc, hndc])
      · exact ownCtx_frame [b, q] h3 hag (by simp [hbc, hndc])
      · simp [store, get_set, hbl]
      · simp [store]
      · intro z hz1 hz2
        exact hag z (by simpa [hz1] using Ne.symm hz2)

end

section

variable {α : Type}

theorem rep_setColor {s : RBTree α} {fs : List (Frame α)} {a : Nat} {c : Color} {l r : Tree α}
    {v : α} (c' : Color) (h : Rep s fs (.node a c l v r)) :
    ∃ s', setColor s (some a) c' = .ok s' ∧ Rep s' fs (.node a c' l v r) ∧
      s'.cells.length = s.cells.length := by
  obtain ⟨hroot, hctx, ⟨ha, hl, hr⟩, hnd⟩ := h
  have hal := get_lt ha
  simp only [Tree.addrs, List.cons_append, List.nodup_cons, List.mem_append, not_or,
    List.append_assoc] at hnd
  obtain ⟨⟨h1, h2, h3⟩, hnd'⟩ := hnd
  have hag : ∀ z, z ∉ [a] → get (store s a ⟨v, l.ptr, r.ptr, ctxPtr fs, c'⟩).cells z
      = get s.cells z := by
    intro z hz
    simp only [List.mem_singleton] at hz
    simp [store, get_set, hz]
  refine ⟨store s a ⟨v, l.ptr, r.ptr, ctxPtr fs, c'⟩, ?_, ⟨?_, ?_, ⟨?_, ?_, ?_⟩, ?_⟩, ?_⟩
  · simp [setColor, ha]
  · simpa [store] using hroot
  · exact ownCtx_frame [a] hctx hag (by simpa using h3)
  · simp [store, get_set, hal]
  · exact own_frame [a] hl hag (by simpa using h1)
  · exact own_frame [a] hr hag (by simpa using h2)
  · simp only [Tree.addrs, List.cons_append, List.nodup_cons, List.mem_append, not_or,
      List.append_assoc]
    exact ⟨⟨h1, h2, h3⟩, hnd'⟩
  · simp [store]

/-- A subtree whose root gets a new parent pointer, all else unchanged. -/
theorem own_reparent_congr {cells cells' : List (Option (Node α))} {t : Tree α}
    {par par' : Option Nat} (h : Own cells par t) (hnd : t.addrs.Nodup)
    (hroot : ∀ z n, t.ptr = some z → get cells z = some n →
      get cells' z = some { n with parent := par' })
    (hrest : ∀ z ∈ t.addrs, t.ptr ≠ some z → get cells' z = get cells z) :
    Own cells' par' t := by
  cases t with
  | nil => trivial
  | node x cx xl xv xr =>
    obtain ⟨hx, hxl, hxr⟩ := h
    simp only [Tree.addrs, List.nodup_cons, List.mem_append, not_or] at hnd
    refine ⟨?_, own_congr hxl ?_, own_congr hxr ?_⟩
    · simpa using hroot x _ rfl hx
    · intro z hz
      refine hrest z (by simp [Tree.addrs, hz]) ?_
      simp only [ptr_node, ne_eq, Option.some.injEq]
      rintro rfl; exact hnd.1.1 hz
    · intro z hz
      refine hrest z (by simp [Tree.addrs, hz]) ?_
      simp only [ptr_node, ne_eq, Option.some.injEq]
      rintro rfl; exact hnd.1.2 hz

/-- The memory after `rotate_left(a)`, cell by cell. -/
theorem rotate_left_cells {s : RBTree α} {fs : List (Frame α)} {a b : Nat} {c cb : Color}
    {l rl rr : Tree α} {v rv : α}
    (h : Rep s fs (.node a c l v (.node b cb rl rv rr))) :
    ∃ s', rotate_left s (some a) = .ok s' ∧ s'.root = rootPtr fs (some b) ∧
      s'.cells.length = s.cells.length ∧ OwnCtx s'.cells fs (some b) ∧
      get s'.cells a = some ⟨v, l.ptr, rl.ptr, some b, c⟩ ∧
      get s'.cells b = some ⟨rv, some a, rr.ptr, ctxPtr fs, cb⟩ ∧
      (∀ z n, rl.ptr = some z → get s.cells z = some n →
        get s'.cells z = some { n with parent := some a }) ∧
      (∀ z, z ≠ a → z ≠ b → rl.ptr ≠ some z → z ∉ ctxAddrs fs →
        get s'.cells z = get s.cells z) := by
  obtain ⟨hroot, hctx, ⟨ha, hl, hb, hrl, hrr⟩, hnd⟩ := h
  have hh : (a :: b :: (l.addrs ++ (rl.addrs ++ (rr.addrs ++ ctxAddrs fs)))).Nodup := by
    refine (List.Perm.nodup_iff ?_).mp hnd
    simp only [List.perm_iff_count, Tree.addrs, List.count_cons, List.count_append]
    intro z; omega
  simp only [List.nodup_cons, List.mem_cons, List.mem_append, not_or, List.nodup_append,
    List.disjoint_append_right] at hh
  obtain ⟨⟨hab, -, harl, -, hac⟩, ⟨-, hbrl, -, hbc⟩, -, ⟨-, ⟨-, hndc, -⟩, -, hd⟩, -⟩ := hh
  obtain ⟨s1, hs1, hroot1, hctx1, hb1, hlen1, hag1⟩ :=
    replace_node_spec (by simpa using hroot) hctx hndc ha rfl hb hab hac hbc
  have hcq : ctxPtr fs ≠ some a := fun e => hac (ctxPtr_mem e)
  have ha1 : get s1.cells a = _ := (hag1 a hab hcq).trans ha
  have hal1 : a < s1.cells.length := get_lt ha1
  have hbl1 : b < s1.cells.length := get_lt hb1
  have hba : b ≠ a := Ne.symm hab
  cases rl with
  | nil =>
    refine ⟨store (store (store s1 a ⟨v, l.ptr, none, ctxPtr fs, c⟩) b
        ⟨rv, some a, rr.ptr, ctxPtr fs, cb⟩) a ⟨v, l.ptr, none, some b, c⟩,
      ?_, ?_, ?_, ?_, ?_, ?_, ?_, ?_⟩
    · simp [rotate_left, load, ha, hs1, setRight, setLeft, setParent, store, ha1, hb1,
        get_set, hab, hba, hal1, hbl1]
    · simpa [store] using hroot1
    · simp [store, hlen1]
    · refine ownCtx_frame [a, b] hctx1 ?_ (by simp [hac, hbc])
      intro z hz
      simp only [List.mem_cons, List.mem_singleton, not_or, List.not_mem_nil,
        or_false] at hz
      simp [store, get_set, hz]
    · simp [store, get_set, hab, hba, hal1, hbl1]
    · simp [store, get_set, hab, hba, hal1, hbl1]
    · intro z n hz; simp at hz
    · intro z hz1 hz2 _ hz4
      rw [← hag1 z hz2 (fun e => hz4 (ctxPtr_mem e))]
      simp [store, get_set, hz1, hz2]
  | node x cx xl xv xr =>
    obtain ⟨hx, hxl, hxr⟩ := hrl
    simp only [Tree.addrs, List.mem_cons, List.mem_append, not_or] at harl hbrl
    have hxa : x ≠ a := Ne.symm harl.1
    have hxb : x ≠ b := Ne.symm hbrl.1
    have hxc : x ∉ ctxAddrs fs := fun hc => hd (by simp [Tree.addrs]) hc
    have hx1 : get s1.cells x = _ := (hag1 x hxb (fun e => hxc (ctxPtr_mem e))).trans hx
    have hxl1 : x < s1.cells.length := get_lt hx1
    refine ⟨store (store (store (store s1 a ⟨v, l.ptr, some x, ctxPtr fs, c⟩) x
          ⟨xv, xl.ptr, xr.ptr, some a, cx⟩) b
          ⟨rv, some a, rr.ptr, ctxPtr fs, cb⟩) a ⟨v, l.ptr, some x, some b, c⟩,
      ?_, ?_, ?_, ?_, ?_, ?_, ?_, ?_⟩
    · simp [rotate_left, load, ha, hs1, setRight, setLeft, setParent, store, ha1, hb1, hx1,
        get_set, hab, hba, hal1, hbl1, hxa, hxb, hxa.symm, hxb.symm, hxl1]
    · simpa [store] using hroot1
    · simp [store, hlen1]
    · refine ownCtx_frame [a, b, x] hctx1 ?_ (by simp [hac, hbc, hxc])
      intro z hz
      simp only [List.mem_cons, List.mem_singleton, not_or, List.not_mem_nil,
        or_false] at hz
      simp [store, get_set, hz]
    · simp [store, get_set, hab, hba, hal1, hbl1, hxl1]
    · simp [store, get_set, hab, hba, hal1, hbl1, hxl1]
    · intro z n hz hn
      simp only [ptr_node, Option.some.injEq] at hz
      subst hz
      rw [hx] at hn
      simp only [Option.some.injEq] at hn
      subst hn
      simp [store, get_set, hab, hba, hal1, hbl1, hxl1, hxa, hxb, hxa.symm, hxb.symm]
    · intro z hz1 hz2 hz3 hz4
      simp only [ptr_node, ne_eq, Option.some.injEq] at hz3
      rw [← hag1 z hz2 (fun e => hz4 (ctxPtr_mem e))]
      simp [store, get_set, hz1, hz2, Ne.symm hz3]

theorem rep_rotate_left {s : RBTree α} {fs : List (Frame α)} {a b : Nat} {c cb : Color}
    {l rl rr : Tree α} {v rv : α}
    (h : Rep s fs (.node a c l v (.node b cb rl rv rr))) :
    ∃ s', rotate_left s (some a) = .ok s' ∧
      Rep s' fs (.node b cb (.node a c l v rl) rv rr) ∧ s'.cells.length = s.cells.length := by
  obtain ⟨s', hs', hroot', hlen', hctx', ha', hb', hx', hcold⟩ := rotate_left_cells h
  obtain ⟨hroot, hctx, ⟨ha, hl, hb, hrl, hrr⟩, hnd⟩ := h
  have hnd2 : ((Tree.node b cb (.node a c l v rl) rv rr).addrs ++ ctxAddrs fs).Nodup := by
    refine (List.Perm.nodup_iff ?_).mp hnd
    simp only [List.perm_iff_count, Tree.addrs, List.count_cons, List.count_append]
    intro z; omega
  have hh : (a :: b :: (l.addrs ++ (rl.addrs ++ (rr.addrs ++ ctxAddrs fs)))).Nodup := by
    refine (List.Perm.nodup_iff ?_).mp hnd
    simp only [List.perm_iff_count, Tree.addrs, List.count_cons, List.count_append]
    intro z; omega
  simp only [List.nodup_cons, List.mem_cons, List.mem_append, not_or, List.nodup_append,
    List.disjoint_append_right] at hh
  obtain ⟨⟨hab, hal, harl, harr, hac⟩, ⟨hbl, hbrl, hbrr, hbc⟩, -, ⟨hndrl, ⟨-, -, hd5⟩, hd3, hd4⟩,
    hd1, hd2, hd6⟩ := hh
  refine ⟨s', hs', ⟨by simpa using hroot', hctx', ⟨hb', ⟨ha', ?_, ?_⟩, ?_⟩, hnd2⟩, hlen'⟩
  · exact own_congr hl (fun z hz => hcold z (ne_of_mem_of_not_mem hz hal)
      (ne_of_mem_of_not_mem hz hbl) (fun e => hd1 hz (ptr_mem e)) (fun hc => hd6 hz hc))
  · exact own_reparent_congr hrl hndrl hx' (fun z hz hp => hcold z
      (ne_of_mem_of_not_mem hz harl) (ne_of_mem_of_not_mem hz hbrl) hp (fun hc => hd4 hz hc))
  · exact own_congr hrr (fun z hz => hcold z (ne_of_mem_of_not_mem hz harr)
      (ne_of_mem_of_not_mem hz hbrr) (fun e => hd3 (ptr_mem e) hz) (fun hc => hd5 hz hc))

/-- The memory after `rotate_right(a)`, cell by cell. -/
theorem rotate_right_cells {s : RBTree α} {fs : List (Frame α)} {a b : Nat} {c cb : Color}
    {ll lr r : Tree α} {v lv : α}
    (h : Rep s fs (.node a c (.node b cb ll lv lr) v r)) :
    ∃ s', rotate_right s (some a) = .ok s' ∧ s'.root = rootPtr fs (some b) ∧
      s'.cells.length = s.cells.length ∧ OwnCtx s'.cells fs (some b) ∧
      get s'.cells a = some ⟨v, lr.ptr, r.ptr, some b, c⟩ ∧
      get s'.cells b = some ⟨lv, ll.ptr, some a, ctxPtr fs, cb⟩ ∧
      (∀ z n, lr.ptr = some z → get s.cells z = some n →
        get s'.cells z = some { n with parent := some a }) ∧
      (∀ z, z ≠ a → z ≠ b → lr.ptr ≠ some z → z ∉ ctxAddrs fs →
        get s'.cells z = get s.cells z) := by
  obtain ⟨hroot, hctx, ⟨ha, ⟨hb, hll, hlr⟩, hr⟩, hnd⟩ := h
  have hh : (a :: b :: (ll.addrs ++ (lr.addrs ++ (r.addrs ++ ctxAddrs fs)))).Nodup := by
    refine (List.Perm.nodup_iff ?_).mp hnd
    simp only [List.perm_iff_count, Tree.addrs, List.count_cons, List.count_append]
    intro z; omega
  simp only [List.nodup_cons, List.mem_cons, List.mem_append, not_or, List.nodup_append,
    List.disjoint_append_right] at hh
  obtain ⟨⟨hab, -, harl, -, hac⟩, ⟨-, hbrl, -, hbc⟩, -, ⟨-, ⟨-, hndc, -⟩, -, hd⟩, -⟩ := hh
  obtain ⟨s1, hs1, hroot1, hctx1, hb1, hlen1, hag1⟩ :=
    replace_node_spec (by simpa using hroot) hctx hndc ha rfl hb hab hac hbc
  have hcq : ctxPtr fs ≠ some a := fun e => hac (ctxPtr_mem e)
  have ha1 : get s1.cells a = _ := (hag1 a hab hcq).trans ha
  have hal1 : a < s1.cells.length := get_lt ha1
  have hbl1 : b < s1.cells.length := get_lt hb1
  have hba : b ≠ a := Ne.symm hab
  cases lr with
  | nil =>
    refine ⟨store (store (store s1 a ⟨v, none, r.ptr, ctxPtr fs, c⟩) b
        ⟨lv, ll.ptr, some a, ctxPtr fs, cb⟩) a ⟨v, none, r.ptr, some b, c⟩,
      ?_, ?_, ?_, ?_, ?_, ?_, ?_, ?_⟩
    · simp [rotate_right, load, ha, hs1, setRight, setLeft, setParent, store, ha1, hb1,
        get_set, hab, hba, hal1, hbl1]
    · simpa [store] using hroot1
    · simp [store, hlen1]
    · refine ownCtx_frame [a, b] hctx1 ?_ (by simp [hac, hbc])
      intro z hz
      simp only [List.mem_cons, List.mem_singleton, not_or, List.not_mem_nil,
        or_false] at hz
      simp [store, get_set, hz]
    · simp [store, get_set, hab, hba, hal1, hbl1]
    · simp [store, get_set, hab, hba, hal1, hbl1]
    · intro z n hz; simp at hz
    · intro z hz1 hz2 _ hz4
      rw [← hag1 z hz2 (fun e => hz4 (ctxPtr_mem e))]
      simp [store, get_set, hz1, hz2]
  | node x cx xl xv xr =>
    obtain ⟨hx, hxl, hxr⟩ := hlr
    simp only [Tree.addrs, List.mem_cons, List.mem_append, not_or] at harl hbrl
    have hxa : x ≠ a := Ne.symm harl.1
    have hxb : x ≠ b := Ne.symm hbrl.1
    have hxc : x ∉ ctxAddrs fs := fun hc => hd (by simp [Tree.addrs]) hc
    have hx1 : get s1.cells x = _ := (hag1 x hxb (fun e => hxc (ctxPtr_mem e))).trans hx
    have hxl1 : x < s1.cells.length := get_lt hx1
    refine ⟨store (store (store (store s1 a ⟨v, some x, r.ptr, ctxPtr fs, c⟩) x
          ⟨xv, xl.ptr, xr.ptr, some a, cx⟩) b
          ⟨lv, ll.ptr, some a, ctxPtr fs, cb⟩) a ⟨v, some x, r.ptr, some b, c⟩,
      ?_, ?_, ?_, ?_, ?_, ?_, ?_, ?_⟩
    · simp [rotate_right, load, ha, hs1, setRight, setLeft, setParent, store, ha1, hb1, hx1,
        get_set, hab, hba, hal1, hbl1, hxa, hxb, hxa.symm, hxb.symm, hxl1]
    · simpa [store] using hroot1
    · simp [store, hlen1]
    · refine ownCtx_frame [a, b, x] hctx1 ?_ (by simp [hac, hbc, hxc])
      intro z hz
      simp only [List.mem_cons, List.mem_singleton, not_or, List.not_mem_nil,
        or_false] at hz
      simp [store, get_set, hz]
    · simp [store, get_set, hab, hba, hal1, hbl1, hxl1]
    · simp [store, get_set, hab, hba, hal1, hbl1, hxl1]
    · intro z n hz hn
      simp only [ptr_node, Option.some.injEq] at hz
      subst hz
      rw [hx] at hn
      simp only [Option.some.injEq] at hn
      subst hn
      simp [store, get_set, hab, hba, hal1, hbl1, hxl1, hxa, hxb, hxa.symm, hxb.symm]
    · intro z hz1 hz2 hz3 hz4
      simp only [ptr_node, ne_eq, Option.some.injEq] at hz3
      rw [← hag1 z hz2 (fun e => hz4 (ctxPtr_mem e))]
      simp [store, get_set, hz1, hz2, Ne.symm hz3]

theorem rep_rotate_right {s : RBTree α} {fs : List (Frame α)} {a b : Nat} {c cb : Color}
    {ll lr r : Tree α} {v lv : α}
    (h : Rep s fs (.node a c (.node b cb ll lv lr) v r)) :
    ∃ s', rotate_right s (some a) = .ok s' ∧
      Rep s' fs (.node b cb ll lv (.node a c lr v r)) ∧ s'.cells.length = s.cells.length := by
  obtain ⟨s', hs', hroot', hlen', hctx', ha', hb', hx', hcold⟩ := rotate_right_cells h
  obtain ⟨hroot, hctx, ⟨ha, ⟨hb, hll, hlr⟩, hr⟩, hnd⟩ := h
  have hnd2 : ((Tree.node b cb ll lv (.node a c lr v r)).addrs ++ ctxAddrs fs).Nodup := by
    refine (List.Perm.nodup_iff ?_).mp hnd
    simp only [List.perm_iff_count, Tree.addrs, List.count_cons, List.count_append]
    intro z; omega
  have hh : (a :: b :: (ll.addrs ++ (lr.addrs ++ (r.addrs ++ ctxAddrs fs)))).Nodup := by
    refine (List.Perm.nodup_iff ?_).mp hnd
    simp only [List.perm_iff_count, Tree.addrs, List.count_cons, List.count_append]
    intro z; omega
  simp only [List.nodup_cons, List.mem_cons, List.mem_append, not_or, List.nodup_append,
    List.disjoint_append_right] at hh
  obtain ⟨⟨hab, hal, harl, harr, hac⟩, ⟨hbl, hbrl, hbrr, hbc⟩, -, ⟨hndrl, ⟨-, -, hd5⟩, hd3, hd4⟩,
    hd1, hd2, hd6⟩ := hh
  refine ⟨s', hs', ⟨by simpa using hroot', hctx', ⟨hb', ?_, ha', ?_, ?_⟩, hnd2⟩, hlen'⟩
  · exact own_congr hll (fun z hz => hcold z (ne_of_mem_of_not_mem hz hal)
      (ne_of_mem_of_not_mem hz hbl) (fun e => hd1 hz (ptr_mem e)) (fun hc => hd6 hz hc))
  · exact own_reparent_congr hlr hndrl hx' (fun z hz hp => hcold z
      (ne_of_mem_of_not_mem hz harl) (ne_of_mem_of_not_mem hz hbrl) hp (fun hc => hd4 hz hc))
  · exact own_congr hr (fun z hz => hcold z (ne_of_mem_of_not_mem hz harr)
      (ne_of_mem_of_not_mem hz hbrr) (fun e => hd3 (ptr_mem e) hz) (fun hc => hd5 hz hc))

end

section

variable {α : Type}

theorem insert_case5_LL {s : RBTree α} {fs : List (Frame α)} {n p g : Nat} {cn cp cg : Color}
    {nl nr pr u : Tree α} {nv pv gv : α}
    (h : Rep s (.L p cp pv pr :: .L g cg gv u :: fs) (.node n cn nl nv nr)) :
    ∃ s', insert_case5 s (some n) = .ok s' ∧
      Rep s' fs (.node p .BLACK (.node n cn nl nv nr) pv (.node g .RED pr gv u)) ∧
      s'.cells.length = s.cells.length := by
  have h1 : Rep s (.L g cg gv u :: fs) (.node p cp (.node n cn nl nv nr) pv pr) := rep_up.mp h
  obtain ⟨s1, hs1, hr1, hl1⟩ := rep_setColor .BLACK h1
  have h2 : Rep s1 fs (.node g cg (.node p .BLACK (.node n cn nl nv nr) pv pr) gv u) :=
    rep_up.mp hr1
  obtain ⟨s2, hs2, hr2, hl2⟩ := rep_setColor .RED h2
  obtain ⟨s3, hs3, hr3, hl3⟩ := rep_rotate_right hr2
  have hn := rep_get h
  have hp := rep_get h1
  obtain ⟨-, -, ⟨-, ⟨hp2, ⟨hn2, -, -⟩, -⟩, -⟩, -⟩ := hr2
  refine ⟨s3, ?_, hr3, by omega⟩
  simp at hn hp hn2 hp2
  simp [insert_case5, grand_parent, load, hn, hp, hs1, hs2, hn2, hp2, hs3]

theorem insert_case5_RR {s : RBTree α} {fs : List (Frame α)} {n p g : Nat} {cn cp cg : Color}
    {nl nr pl u : Tree α} {nv pv gv : α}
    (h : Rep s (.R p cp pl pv :: .R g cg u gv :: fs) (.node n cn nl nv nr)) :
    ∃ s', insert_case5 s (some n) = .ok s' ∧
      Rep s' fs (.node p .BLACK (.node g .RED u gv pl) pv (.node n cn nl nv nr)) ∧
      s'.cells.length = s.cells.length := by
  have h1 : Rep s (.R g cg u gv :: fs) (.node p cp pl pv (.node n cn nl nv nr)) := rep_up.mp h
  obtain ⟨s1, hs1, hr1, hl1⟩ := rep_setColor .BLACK h1
  have h2 : Rep s1 fs (.node g cg u gv (.node p .BLACK pl pv (.node n cn nl nv nr))) :=
    rep_up.mp hr1
  obtain ⟨s2, hs2, hr2, hl2⟩ := rep_setColor .RED h2
  obtain ⟨s3, hs3, hr3, hl3⟩ := rep_rotate_left hr2
  have hn := rep_get h
  have hp := rep_get h1
  have hnpl : pl.ptr ≠ some n := by
    refine ptr_ne_of_not_mem ?_
    have := h.2.2.2
    simp only [Tree.addrs, ctxAddrs, Frame.addr, Frame.sibling, List.cons_append,
      List.nodup_cons, List.mem_append, List.mem_cons, not_or, List.append_assoc] at this
    exact this.1.2.2.2.1
  obtain ⟨-, -, ⟨-, -, ⟨hp2, -, ⟨hn2, -, -⟩⟩⟩, -⟩ := hr2
  refine ⟨s3, ?_, hr3, by omega⟩
  simp at hn hp hn2 hp2
  simp [insert_case5, grand_parent, load, hn, hp, hs1, hs2, hn2, hp2, hs3, hnpl.symm]

theorem insert_case4_spec {s : RBTree α} {fs : List (Frame α)} {pf gf : Frame α} {n : Nat}
    {cn : Color} {nl nr : Tree α} {nv : α}
    (h : Rep s (pf :: gf :: fs) (.node n cn nl nv nr)) :
    ∃ s', insert_case4 s (some n) = .ok s' ∧ Rep s' fs (rotateFix gf pf n cn nl nv nr) ∧
      s'.cells.length = s.cells.length := by
  have hn := rep_get h
  have hnd := h.2.2.2
  cases pf with
  | L p cp pv pr =>
    have h1 : Rep s (gf :: fs) (.node p cp (.node n cn nl nv nr) pv pr) := rep_up.mp h
    have hp := rep_get h1
    have hnpr : pr.ptr ≠ some n := by
      refine ptr_ne_of_not_mem ?_
      simp only [Tree.addrs, ctxAddrs, Frame.addr, Frame.sibling, List.cons_append,
        List.nodup_cons, List.mem_append, List.mem_cons, not_or, List.append_assoc] at hnd
      exact hnd.1.2.2.2.1
    cases gf with
    | L g cg gv u =>
      obtain ⟨s', hs', hr', hl'⟩ := insert_case5_LL h
      refine ⟨s', ?_, hr', hl'⟩
      have h2 : Rep s fs (.node g cg (.node p cp (.node n cn nl nv nr) pv pr) gv u) :=
        rep_up.mp h1
      have hg := rep_get h2
      have hup : u.ptr ≠ some p := by
        refine ptr_ne_of_not_mem ?_
        have := h2.2.2.2
        simp only [Tree.addrs, List.cons_append, List.nodup_cons, List.mem_append,
          List.mem_cons, not_or, List.append_assoc] at this
        exact this.2.1.2.2.2.2.1
      simp at hn hp hg
      simp [insert_case4, grand_parent, load, hn, hp, hg, hs', hnpr.symm, hup.symm]
    | R g cg u gv =>
      obtain ⟨s1, hs1, hr1, hl1⟩ := rep_rotate_right h1
      have h2 : Rep s fs (.node g cg u gv (.node p cp (.node n cn nl nv nr) pv pr)) :=
        rep_up.mp h1
      have hg := rep_get h2
      have hr1' : Rep s1 (.R n cn nl nv :: .R g cg u gv :: fs) (.node p cp nr pv pr) :=
        rep_up.mpr hr1
      obtain ⟨s', hs', hr', hl'⟩ := insert_case5_RR hr1'
      have hn1 := rep_get hr1
      refine ⟨s', ?_, hr', by omega⟩
      simp at hn hp hg hn1
      simp [insert_case4, grand_parent, load, hn, hp, hg, hs1, hn1, hs', hnpr.symm]
  | R p cp pl pv =>
    have h1 : Rep s (gf :: fs) (.node p cp pl pv (.node n cn nl nv nr)) := rep_up.mp h
    have hp := rep_get h1
    have hnpl : pl.ptr ≠ some n := by
      refine ptr_ne_of_not_mem ?_
      simp only [Tree.addrs, ctxAddrs, Frame.addr, Frame.sibling, List.cons_append,
        List.nodup_cons, List.mem_append, List.mem_cons, not_or, List.append_assoc] at hnd
      exact hnd.1.2.2.2.1
    cases gf with
    | L g cg gv u =>
      obtain ⟨s1, hs1, hr1, hl1⟩ := rep_rotate_left h1
      have h2 : Rep s fs (.node g cg (.node p cp pl pv (.node n cn nl nv nr)) gv u) :=
        rep_up.mp h1
      have hg := rep_get h2
      have hr1' : Rep s1 (.L n cn nv nr :: .L g cg gv u :: fs) (.node p cp pl pv nl) :=
        rep_up.mpr hr1
      obtain ⟨s', hs', hr', hl'⟩ := insert_case5_LL hr1'
      have hn1 := rep_get hr1
      refine ⟨s', ?_, hr', by omega⟩
      simp at hn hp hg hn1
      simp [insert_case4, grand_parent, load, hn, hp, hg, hs1, hn1, hs', hnpl.symm]
    | R g cg u gv =>
      obtain ⟨s', hs', hr', hl'⟩ := insert_case5_RR h
      refine ⟨s', ?_, hr', hl'⟩
      have h2 : Rep s fs (.node g cg u gv (.node p cp pl pv (.node n cn nl nv nr))) :=
        rep_up.mp h1
      have hg := rep_get h2
      have hup : u.ptr ≠ some p := by
        refine ptr_ne_of_not_mem ?_
        have := h2.2.2.2
        have hh : (p :: (u.addrs ++ (g :: pl.addrs ++ (Tree.node n cn nl nv nr).addrs
            ++ ctxAddrs fs))).Nodup := by
          refine (List.Perm.nodup_iff ?_).mp this
          simp only [List.perm_iff_count, Tree.addrs, List.count_cons, List.count_append]
          intro z; omega
        simp only [List.nodup_cons, List.mem_append, not_or] at hh
        exact hh.1.1
      simp at hn hp hg
      simp [insert_case4, grand_parent, load, hn, hp, hg, hs', hnpl.symm, hup.symm]

@[simp]
theorem color_nil : (Tree.nil : Tree α).color = .BLACK := rfl

@[simp]
theorem color_node (a : Nat) (c : Color) (l : Tree α) (v : α) (r : Tree α) :
    (Tree.node a c l v r).color = c := rfl

/-- The uncle, as `uncle(n)` computes it, is the sibling of the parent. -/
theorem uncle_spec {s : RBTree α} {fs : List (Frame α)} {pf gf : Frame α} {n : Nat}
    {cn : Color} {nl nr : Tree α} {nv : α}
    (h : Rep s (pf :: gf :: fs) (.node n cn nl nv nr)) :
    uncle s (some n) = .ok gf.sibling.ptr ∧ grand_parent s (some n) = .ok (some gf.addr) ∧
      ∃ nd, get s.cells n = some nd ∧ nd.parent = some pf.addr := by
  have hn := rep_get h
  have h1 := rep_up.mp h
  have h2 := rep_up.mp h1
  have hnd := h2.2.2.2
  cases pf with
  | L p cp pv pr =>
    have hp := rep_get h1
    cases gf with
    | L g cg gv u =>
      have hg := rep_get h2
      simp [plug] at hn hp hg
      simp [uncle, grand_parent, load, hn, hp, hg, Frame.sibling]
    | R g cg u gv =>
      have hg := rep_get h2
      have hup : u.ptr ≠ some p := by
        refine ptr_ne_of_not_mem ?_
        have hh : (p :: (u.addrs ++ (g :: pr.addrs ++ (Tree.node n cn nl nv nr).addrs
            ++ ctxAddrs fs))).Nodup := by
          refine (List.Perm.nodup_iff ?_).mp hnd
          simp only [List.perm_iff_count, Tree.addrs, List.count_cons, List.count_append,
            plug]
          intro z; omega
        simp only [List.nodup_cons, List.mem_append, not_or] at hh
        exact hh.1.1
      simp [plug] at hn hp hg
      simp [uncle, grand_parent, load, hn, hp, hg, Frame.sibling, hup]
  | R p cp pl pv =>
    have hp := rep_get h1
    cases gf with
    | L g cg gv u =>
      have hg := rep_get h2
      simp [plug] at hn hp hg
      simp [uncle, grand_parent, load, hn, hp, hg, Frame.sibling]
    | R g cg u gv =>
      have hg := rep_get h2
      have hup : u.ptr ≠ some p := by
        refine ptr_ne_of_not_mem ?_
        have hh : (p :: (u.addrs ++ (g :: pl.addrs ++ (Tree.node n cn nl nv nr).addrs
            ++ ctxAddrs fs))).Nodup := by
          refine (List.Perm.nodup_iff ?_).mp hnd
          simp only [List.perm_iff_count, Tree.addrs, List.count_cons, List.count_append,
            plug]
          intro z; omega
        simp only [List.nodup_cons, List.mem_append, not_or] at hh
        exact hh.1.1
      simp [plug] at hn hp hg
      simp [uncle, grand_parent, load, hn, hp, hg, Frame.sibling, hup]

theorem insert_case3_black {s : RBTree α} {fs : List (Frame α)} {pf gf : Frame α} {n : Nat}
    {cn : Color} {nl nr : Tree α} {nv : α}
    (case1 : RBTree α → Option Nat → Except Fault (RBTree α))
    (h : Rep s (pf :: gf :: fs) (.node n cn nl nv nr)) (hu : gf.sibling.color ≠ .RED) :
    insert_case3 case1 s (some n) = insert_case4 s (some n) := by
  obtain ⟨hunc, -, -⟩ := uncle_spec h
  have h2 := rep_up.mp (rep_up.mp h)
  cases gf with
  | L g cg gv u =>
    cases u with
    | nil => simp [insert_case3, hunc, Frame.sibling]
    | node x cx xl xv xr =>
      obtain ⟨-, -, ⟨-, -, ⟨hx, -, -⟩⟩, -⟩ := h2
      simp [Frame.sibling] at hu
      simp [insert_case3, hunc, Frame.sibling, node_color, load, hx, hu]
  | R g cg u gv =>
    cases u with
    | nil => simp [insert_case3, hunc, Frame.sibling]
    | node x cx xl xv xr =>
      obtain ⟨-, -, ⟨-, ⟨hx, -, -⟩, -⟩, -⟩ := h2
      simp [Frame.sibling] at hu
      simp [insert_case3, hunc, Frame.sibling, node_color, load, hx, hu]

/-- Moving the focus from a subtree to its sibling. -/
theorem rep_swap {s : RBTree α} {fs : List (Frame α)} {g : Nat} {cg : Color} {gv : α}
    {lt rt : Tree α} : Rep s (.L g cg gv rt :: fs) lt ↔ Rep s (.R g cg lt gv :: fs) rt := by
  rw [rep_up, rep_up]; rfl

theorem insert_case3_red {s : RBTree α} {fs : List (Frame α)} {pf gf : Frame α} {n : Nat}
    {cn : Color} {nl nr : Tree α} {nv : α}
    (case1 : RBTree α → Option Nat → Except Fault (RBTree α))
    (h : Rep s (pf :: gf :: fs) (.node n cn nl nv nr)) (hu : gf.sibling.color = .RED) :
    ∃ s3, insert_case3 case1 s (some n) = case1 s3 (some gf.addr) ∧
      Rep s3 fs (recolour gf pf (.node n cn nl nv nr)) ∧
      s3.cells.length = s.cells.length := by
  obtain ⟨hunc, -, -⟩ := uncle_spec h
  have hn := rep_get h
  simp at hn
  cases pf with
  | L p cp pv pr =>
    cases gf with
    | L g cg gv u =>
      cases u with
      | nil => simp [Frame.sibling] at hu
      | node x cx xl xv xr =>
        have h1 : Rep s (.L g cg gv (.node x cx xl xv xr) :: fs) (.node p cp (.node n cn nl nv nr) pv pr) := rep_up.mp h
        obtain ⟨s1, hs1, hr1, hl1⟩ := rep_setColor .BLACK h1
        have h2 : Rep s1 (.R g cg (.node p .BLACK (.node n cn nl nv nr) pv pr) gv :: fs) (.node x cx xl xv xr) :=
          rep_swap.mp hr1
        obtain ⟨s2, hs2, hr2, hl2⟩ := rep_setColor .BLACK h2
        have h3 : Rep s2 fs (.node g cg (.node p .BLACK (.node n cn nl nv nr) pv pr) gv (.node x .BLACK xl xv xr)) := rep_up.mp hr2
        obtain ⟨s3, hs3, hr3, hl3⟩ := rep_setColor .RED h3
        have h4 : Rep s2 (.L p .BLACK pv pr :: .L g cg gv (.node x .BLACK xl xv xr) :: fs) (.node n cn nl nv nr) :=
          rep_up.mpr (rep_up.mpr h3)
        obtain ⟨-, hgp, -⟩ := uncle_spec h4
        have hx := rep_get (rep_swap.mp h1 : Rep s (.R g cg (.node p cp (.node n cn nl nv nr) pv pr) gv :: fs) (.node x cx xl xv xr))
        refine ⟨s3, ?_, by simpa [recolour, Frame.build, Frame.sibling, Tree.paint] using hr3,
          by omega⟩
        simp at hx hgp
        simp [Frame.sibling] at hu
        simp [insert_case3, hunc, Frame.sibling, node_color, load, hx, hu, hn, hs1, hs2, hgp,
          hs3]
    | R g cg u gv =>
      cases u with
      | nil => simp [Frame.sibling] at hu
      | node x cx xl xv xr =>
        have h1 : Rep s (.R g cg (.node x cx xl xv xr) gv :: fs) (.node p cp (.node n cn nl nv nr) pv pr) := rep_up.mp h
        obtain ⟨s1, hs1, hr1, hl1⟩ := rep_setColor .BLACK h1
        have h2 : Rep s1 (.L g cg gv (.node p .BLACK (.node n cn nl nv nr) pv pr) :: fs) (.node x cx xl xv xr) :=
          rep_swap.mpr hr1
        obtain ⟨s2, hs2, hr2, hl2⟩ := rep_setColor .BLACK h2
        have h3 : Rep s2 fs (.node g cg (.node x .BLACK xl xv xr) gv (.node p .BLACK (.node n cn nl nv nr) pv pr)) := rep_up.mp hr2
        obtain ⟨s3, hs3, hr3, hl3⟩ := rep_setColor .RED h3
        have h4 : Rep s2 (.L p .BLACK pv pr :: .R g cg (.node x .BLACK xl xv xr) gv :: fs) (.node n cn nl nv nr) :=
          rep_up.mpr (rep_up.mpr h3)
        obtain ⟨-, hgp, -⟩ := uncle_spec h4
        have hx := rep_get (rep_swap.mpr h1 : Rep s (.L g cg gv (.node p cp (.node n cn nl nv nr) pv pr) :: fs) (.node x cx xl xv xr))
        refine ⟨s3, ?_, by simpa [recolour, Frame.build, Frame.sibling, Tree.paint] using hr3,
          by omega⟩
        simp at hx hgp
        simp [Frame.sibling] at hu
        simp [insert_case3, hunc, Frame.sibling, node_color, load, hx, hu, hn, hs1, hs2, hgp,
          hs3]
  | R p cp pl pv =>
    cases gf with
    | L g cg gv u =>
      cases u with
      | nil => simp [Frame.sibling] at hu
      | node x cx xl xv xr =>
        have h1 : Rep s (.L g cg gv (.node x cx xl xv xr) :: fs) (.node p cp pl pv (.node n cn nl nv nr)) := rep_up.mp h
        obtain ⟨s1, hs1, hr1, hl1⟩ := rep_setColor .BLACK h1
        have h2 : Rep s1 (.R g cg (.node p .BLACK pl pv (.node n cn nl nv nr)) gv :: fs) (.node x cx xl xv xr) :=
          rep_swap.mp hr1
        obtain ⟨s2, hs2, hr2, hl2⟩ := rep_setColor .BLACK h2
        have h3 : Rep s2 fs (.node g cg (.node p .BLACK pl pv (.node n cn nl nv nr)) gv (.node x .BLACK xl xv xr)) := rep_up.mp hr2
        obtain ⟨s3, hs3, hr3, hl3⟩ := rep_setColor .RED h3
        have h4 : Rep s2 (.R p .BLACK pl pv :: .L g cg gv (.node x .BLACK xl xv xr) :: fs) (.node n cn nl nv nr) :=
          rep_up.mpr (rep_up.mpr h3)
        obtain ⟨-, hgp, -⟩ := uncle_spec h4
        have hx := rep_get (rep_swap.mp h1 : Rep s (.R g cg (.node p cp pl pv (.node n cn nl nv nr)) gv :: fs) (.node x cx xl xv xr))
        refine ⟨s3, ?_, by simpa [recolour, Frame.build, Frame.sibling, Tree.paint] using hr3,
          by omega⟩
        simp at hx hgp
        simp [Frame.sibling] at hu
        simp [insert_case3, hunc, Frame.sibling, node_color, load, hx, hu, hn, hs1, hs2, hgp,
          hs3]
    | R g cg u gv =>
      cases u with
      | nil => simp [Frame.sibling] at hu
      | node x cx xl xv xr =>
        have h1 : Rep s (.R g cg (.node x cx xl xv xr) gv :: fs) (.node p cp pl pv (.node n cn nl nv nr)) := rep_up.mp h
        obtain ⟨s1, hs1, hr1, hl1⟩ := rep_setColor .BLACK h1
        have h2 : Rep s1 (.L g cg gv (.node p .BLACK pl pv (.node n cn nl nv nr)) :: fs) (.node x cx xl xv xr) :=
          rep_swap.mpr hr1
        obtain ⟨s2, hs2, hr2, hl2⟩ := rep_setColor .BLACK h2
        have h3 : Rep s2 fs (.node g cg (.node x .BLACK xl xv xr) gv (.node p .BLACK pl pv (.node n cn nl nv nr))) := rep_up.mp hr2
        obtain ⟨s3, hs3, hr3, hl3⟩ := rep_setColor .RED h3
        have h4 : Rep s2 (.R p .BLACK pl pv :: .R g cg (.node x .BLACK xl xv xr) gv :: fs) (.node n cn nl nv nr) :=
          rep_up.mpr (rep_up.mpr h3)
        obtain ⟨-, hgp, -⟩ := uncle_spec h4
        have hx := rep_get (rep_swap.mpr h1 : Rep s (.L g cg gv (.node p cp pl pv (.node n cn nl nv nr)) :: fs) (.node x cx xl xv xr))
        refine ⟨s3, ?_, by simpa [recolour, Frame.build, Frame.sibling, Tree.paint] using hr3,
          by omega⟩
        simp at hx hgp
        simp [Frame.sibling] at hu
        simp [insert_case3, hunc, Frame.sibling, node_color, load, hx, hu, hn, hs1, hs2, hgp,
          hs3]

theorem insert_case2_parent {s : RBTree α} {fs : List (Frame α)} {pf : Frame α} {n : Nat}
    {cn : Color} {nl nr : Tree α} {nv : α}
    (h : Rep s (pf :: fs) (.node n cn nl nv nr)) :
    ∃ nd, get s.cells n = some nd ∧ nd.parent = some pf.addr ∧
      node_color s (some pf.addr) = .ok pf.color := by
  have hn := rep_get h
  have h1 := rep_up.mp h
  cases pf with
  | L p cp pv pr =>
    have hp := rep_get h1
    exact ⟨_, hn, rfl, by simp [node_color, load, hp, Frame.color]⟩
  | R p cp pl pv =>
    have hp := rep_get h1
    exact ⟨_, hn, rfl, by simp [node_color, load, hp, Frame.color]⟩

/-- The code of `insert_case1` on a node in the hole of a path does what `fixup` says. -/
theorem insert_case1_spec : ∀ (fs : List (Frame α)) (fuel : Nat) (s : RBTree α) (n : Nat)
    (cn : Color) (nl : Tree α) (nv : α) (nr : Tree α) (T' : Tree α),
    Rep s fs (.node n cn nl nv nr) → fixup fs (.node n cn nl nv nr) = some T' →
    fs.length < fuel →
    ∃ s', insert_case1 fuel s (some n) = .ok s' ∧ Models s' T' ∧
      s'.cells.length = s.cells.length
  | _, 0, _, _, _, _, _, _, _, _, _, hf => absurd hf (Nat.not_lt_zero _)
  | [], fuel + 1, s, n, cn, nl, nv, nr, T', h, hfix, _ => by
    obtain ⟨s', hs', hr', hl'⟩ := rep_setColor .BLACK h
    have hn := rep_get h
    simp only [fixup, Option.some.injEq] at hfix
    subst hfix
    refine ⟨s', ?_, rep_nil.mp hr', hl'⟩
    simp at hn
    simp [insert_case1, load, hn, hs']
  | [pf], fuel + 1, s, n, cn, nl, nv, nr, T', h, hfix, _ => by
    obtain ⟨nd, hn, hpar, hcol⟩ := insert_case2_parent h
    by_cases hc : pf.color = .BLACK
    · simp only [fixup, hc, if_true, Option.some.injEq] at hfix
      subst hfix
      refine ⟨s, ?_, models_plug.mpr h, rfl⟩
      simp [insert_case1, insert_case2, load, hn, hpar, hcol, hc]
    · simp [fixup, hc] at hfix
  | pf :: gf :: fs, fuel + 1, s, n, cn, nl, nv, nr, T', h, hfix, hfuel => by
    obtain ⟨nd, hn, hpar, hcol⟩ := insert_case2_parent h
    by_cases hc : pf.color = .BLACK
    · simp only [fixup, hc, if_true, Option.some.injEq] at hfix
      subst hfix
      refine ⟨s, ?_, models_plug.mpr h, rfl⟩
      simp [insert_case1, insert_case2, load, hn, hpar, hcol, hc]
    · by_cases hu : gf.sibling.color = .RED
      · simp only [fixup, hc, hu, if_true, if_false] at hfix
        obtain ⟨s3, hs3, hr3, hl3⟩ := insert_case3_red (insert_case1 fuel) h hu
        have hfuel' : fs.length < fuel := by simp at hfuel; omega
        have hgo : ∃ s', insert_case1 fuel s3 (some gf.addr) = .ok s' ∧ Models s' T' ∧
            s'.cells.length = s3.cells.length := by
          cases gf with
          | L g cg gv u =>
            exact insert_case1_spec fs fuel s3 g _ _ _ _ T' hr3 hfix hfuel'
          | R g cg u gv =>
            exact insert_case1_spec fs fuel s3 g _ _ _ _ T' hr3 hfix hfuel'
        obtain ⟨s', hs', hm', hl'⟩ := hgo
        refine ⟨s', ?_, hm', by omega⟩
        simp [insert_case1, insert_case2, load, hn, hpar, hcol, hc, hs3, hs']
      · simp only [fixup, hc, hu, if_false, Option.some.injEq] at hfix
        subst hfix
        obtain ⟨s', hs', hr', hl'⟩ := insert_case4_spec h
        refine ⟨s', ?_, models_plug.mpr hr', hl'⟩
        simp [insert_case1, insert_case2, load, hn, hpar, hcol, hc,
          insert_case3_black (insert_case1 fuel) h hu, hs']

end

section

variable {α : Type}

theorem get_append (cells : List (Option (Node α))) (x : Option (Node α)) (z : Nat) :
    get (cells ++ [x]) z = if z = cells.length then x else get cells z := by
  by_cases h : z = cells.length
  · subst h; simp [get_append_length]
  · rw [if_neg h]
    by_cases hzl : z < cells.length
    · exact get_append_lt _ hzl
    · have h1 : cells[z]? = none := List.getElem?_eq_none (Nat.le_of_not_lt hzl)
      have h2 : (cells ++ [x])[z]? = none := List.getElem?_eq_none (by simp; omega)
      simp [get, h1, h2]

@[simp]
theorem slotOf_nil : slotOf ([] : List (Frame α)) = .root := rfl

@[simp]
theorem slotOf_L (a : Nat) (c : Color) (v : α) (r : Tree α) (fs : List (Frame α)) :
    slotOf (.L a c v r :: fs) = .left a := rfl

@[simp]
theorem slotOf_R (a : Nat) (c : Color) (l : Tree α) (v : α) (fs : List (Frame α)) :
    slotOf (.R a c l v :: fs) = .right a := rfl

theorem readSlot_spec {s : RBTree α} {fs : List (Frame α)} {t : Tree α} (h : Rep s fs t) :
    readSlot s (slotOf fs) = .ok t.ptr := by
  obtain ⟨hroot, hctx, -, -⟩ := h
  cases fs with
  | nil => simpa [readSlot] using hroot
  | cons f fs =>
    cases f with
    | L a c v r => simp [readSlot, load, hctx.1]
    | R a c l v => simp [readSlot, load, hctx.1]

theorem length_le_ctxAddrs (fs : List (Frame α)) : fs.length ≤ (ctxAddrs fs).length := by
  induction fs with
  | nil => simp
  | cons f fs ih => simp [ctxAddrs]; omega

theorem ownCtx_append {cells : List (Option (Node α))} (x : Option (Node α))
    {fs : List (Frame α)} {hole : Option Nat} (h : OwnCtx cells fs hole) :
    OwnCtx (cells ++ [x]) fs hole :=
  ownCtx_congr h (fun b hb => get_append_lt x (ownCtx_lt h b hb))

/-- Allocating the new RED node and hanging it into the hole of a path. -/
theorem link_spec {s : RBTree α} {fs : List (Frame α)} (val : α) (h : Rep s fs .nil) :
    ∃ s2, writeSlot (alloc s ⟨val, none, none, ctxPtr fs, .RED⟩).1
        (some (alloc s ⟨val, none, none, ctxPtr fs, .RED⟩).2) (slotOf fs) = .ok s2 ∧
      Rep s2 fs (.node s.cells.length .RED .nil val .nil) ∧
      s2.cells.length = s.cells.length + 1 := by
  obtain ⟨hroot, hctx, -, hnd⟩ := h
  have hlt := ownCtx_lt hctx
  have hfresh : s.cells.length ∉ ctxAddrs fs := fun hm => Nat.lt_irrefl _ (hlt _ hm)
  have hnd' : ((Tree.node s.cells.length Color.RED Tree.nil val Tree.nil).addrs
      ++ ctxAddrs fs).Nodup := by
    simp only [Tree.addrs, List.append_nil, List.singleton_append, List.nodup_cons]
    exact ⟨hfresh, by simpa [Tree.addrs] using hnd⟩
  cases fs with
  | nil =>
    refine ⟨⟨s.cells ++ [some (Node.mk val none none none .RED)], some s.cells.length⟩, ?_,
      ⟨rfl, trivial, ⟨?_, trivial, trivial⟩, hnd'⟩, ?_⟩
    · simp [writeSlot, alloc]
    · simp [get_append]
    · simp
  | cons f fs' =>
    cases f with
    | L q cq qv qr =>
      obtain ⟨h1, h2, h3⟩ := hctx
      have hql := get_lt h1
      simp only [ctxAddrs, Frame.addr, Frame.sibling, List.mem_cons, List.mem_append,
        not_or] at hfresh
      have hag : ∀ z, z ∉ [q, s.cells.length] →
          get ((s.cells ++ [some (Node.mk val none none (some q) .RED)]).set q
            (some ⟨qv, some s.cells.length, qr.ptr, ctxPtr fs', cq⟩)) z = get s.cells z := by
        intro z hz
        simp only [List.mem_cons, List.mem_singleton, not_or, List.not_mem_nil,
          or_false] at hz
        simp [get_set, get_append, hz]
      have hdis : ∀ m ∈ [q, s.cells.length], m ∉ qr.addrs := by
        simp only [ctxAddrs, Frame.addr, Frame.sibling, Tree.addrs, List.nil_append,
          List.nodup_cons, List.mem_append, not_or] at hnd
        simp [hnd.1.1, hfresh.2.1]
      have hdis2 : ∀ m ∈ [q, s.cells.length], m ∉ ctxAddrs fs' := by
        simp only [ctxAddrs, Frame.addr, Frame.sibling, Tree.addrs, List.nil_append,
          List.nodup_cons, List.mem_append, not_or] at hnd
        simp [hnd.1.2, hfresh.2.2]
      refine ⟨⟨(s.cells ++ [some (Node.mk val none none (some q) .RED)]).set q
          (some ⟨qv, some s.cells.length, qr.ptr, ctxPtr fs', cq⟩), s.root⟩, ?_,
        ⟨?_, ⟨?_, ?_, ?_⟩, ⟨?_, trivial, trivial⟩, hnd'⟩, ?_⟩
      · simp [writeSlot, alloc, setLeft, store, get_append_lt _ hql, h1]
      · simpa using hroot
      · have : q < s.cells.length + 1 := by omega
        simp [get_set, this]
      · exact own_frame _ h2 hag hdis
      · exact ownCtx_frame _ h3 hag hdis2
      · simp [get_set, hfresh.1, get_append]
      · simp
    | R q cq ql qv =>
      obtain ⟨h1, h2, h3⟩ := hctx
      have hql := get_lt h1
      simp only [ctxAddrs, Frame.addr, Frame.sibling, List.mem_cons, List.mem_append,
        not_or] at hfresh
      have hag : ∀ z, z ∉ [q, s.cells.length] →
          get ((s.cells ++ [some (Node.mk val none none (some q) .RED)]).set q
            (some ⟨qv, ql.ptr, some s.cells.length, ctxPtr fs', cq⟩)) z = get s.cells z := by
        intro z hz
        simp only [List.mem_cons, List.mem_singleton, not_or, List.not_mem_nil,
          or_false] at hz
        simp [get_set, get_append, hz]
      have hdis : ∀ m ∈ [q, s.cells.length], m ∉ ql.addrs := by
        simp only [ctxAddrs, Frame.addr, Frame.sibling, Tree.addrs, List.nil_append,
          List.nodup_cons, List.mem_append, not_or] at hnd
        simp [hnd.1.1, hfresh.2.1]
      have hdis2 : ∀ m ∈ [q, s.cells.length], m ∉ ctxAddrs fs' := by
        simp only [ctxAddrs, Frame.addr, Frame.sibling, Tree.addrs, List.nil_append,
          List.nodup_cons, List.mem_append, not_or] at hnd
        simp [hnd.1.2, hfresh.2.2]
      refine ⟨⟨(s.cells ++ [some (Node.mk val none none (some q) .RED)]).set q
          (some ⟨qv, ql.ptr, some s.cells.length, ctxPtr fs', cq⟩), s.root⟩, ?_,
        ⟨?_, ⟨?_, ?_, ?_⟩, ⟨?_, trivial, trivial⟩, hnd'⟩, ?_⟩
      · simp [writeSlot, alloc, setRight, store, get_append_lt _ hql, h1]
      · simpa using hroot
      · have : q < s.cells.length + 1 := by omega
        simp [get_set, this]
      · exact own_frame _ h2 hag hdis
      · exact ownCtx_frame _ h3 hag hdis2
      · simp [get_set, hfresh.1, get_append]
      · simp

theorem rep_depth_le {s : RBTree α} {fs : List (Frame α)} {t : Tree α} (h : Rep s fs t) :
    fs.length ≤ s.cells.length := by
  obtain ⟨-, hctx, -, hnd⟩ := h
  refine (length_le_ctxAddrs fs).trans (size_le_of_nodup ?_ (ownCtx_lt hctx))
  exact (List.nodup_append.mp hnd).2.1

theorem models_size_le {s : RBTree α} {t : Tree α} (h : Models s t) :
    t.size ≤ s.cells.length :=
  shape_size_le (own_shape h.2.1) h.2.2

variable [LinearOrder α]

/-- The code of `real_insert` on the subtree in the hole of a path does what `descend`
followed by `fixup` says. -/
theorem real_insert_spec : ∀ (t : Tree α) (fs : List (Frame α)) (fuel : Nat) (s : RBTree α)
    (val : α) (T' : Tree α), Rep s fs t →
    fixup (descend val fs t) (.node s.cells.length .RED .nil val .nil) = some T' →
    t.height < fuel →
    ∃ s', real_insert fuel s (slotOf fs) (ctxPtr fs) val = .ok s' ∧ Models s' T' ∧
      s'.cells.length = s.cells.length + 1
  | _, _, 0, _, _, _, _, _, hf => absurd hf (Nat.not_lt_zero _)
  | .nil, fs, fuel + 1, s, val, T', h, hfix, _ => by
    obtain ⟨s2, hs2, hr2, hl2⟩ := link_spec val h
    simp only [descend] at hfix
    have hd := rep_depth_le hr2
    obtain ⟨s', hs', hm', hl'⟩ := insert_case1_spec fs (s2.cells.length + 1) s2 _ _ _ _ _ T'
      hr2 hfix (by omega)
    refine ⟨s', ?_, hm', by omega⟩
    have hrs := readSlot_spec h
    simp only [ptr_nil] at hrs
    simp only [real_insert, hrs, ok_bind, hs2]
    simpa [alloc] using hs'
  | .node b c l v r, fs, fuel + 1, s, val, T', h, hfix, hfuel => by
    have hrs := readSlot_spec h
    have hb := rep_get h
    simp only [Tree.height] at hfuel
    by_cases hlt : val < v
    · simp only [descend, hlt, if_true] at hfix
      have h' : Rep s (.L b c v r :: fs) l := rep_up.mpr h
      obtain ⟨s', hs', hm', hl'⟩ := real_insert_spec l _ fuel s val T' h' hfix (by omega)
      refine ⟨s', ?_, hm', hl'⟩
      simp only [ptr_node] at hrs
      simp only [real_insert, hrs, ok_bind, load, hb, hlt, if_true]
      simpa using hs'
    · simp only [descend, hlt, if_false] at hfix
      have h' : Rep s (.R b c l v :: fs) r := rep_up.mpr h
      obtain ⟨s', hs', hm', hl'⟩ := real_insert_spec r _ fuel s val T' h' hfix (by omega)
      refine ⟨s', ?_, hm', hl'⟩
      simp only [ptr_node] at hrs
      simp only [real_insert, hrs, ok_bind, load, hb, hlt, if_false]
      simpa using hs'

/-- The code of `insert` on a tree in memory does what `insertT` says, the new node taking
the next free address. -/
theorem insert_spec {s : RBTree α} {t T' : Tree α} {val : α} (h : Models s t)
    (hfix : insertT t s.cells.length val = some T') :
    ∃ s', insert s val = .ok s' ∧ Models s' T' ∧ s'.cells.length = s.cells.length + 1 := by
  have hh := height_le_size t
  have hs := models_size_le h
  exact real_insert_spec t [] (s.cells.length + 1) s val T' (rep_nil.mpr h) hfix (by omega)

end

section

variable {α : Type}

/-! ## Colour invariants through a path -/

@[simp]
theorem ctxColor_nil : ctxColor ([] : List (Frame α)) = .BLACK := rfl

@[simp]
theorem ctxColor_cons (f : Frame α) (fs : List (Frame α)) :
    ctxColor (f :: fs) = f.color := rfl

@[simp]
theorem frameColor_L (a : Nat) (c : Color) (v : α) (r : Tree α) :
    (Frame.L a c v r).color = c := rfl

@[simp]
theorem frameColor_R (a : Nat) (c : Color) (l : Tree α) (v : α) :
    (Frame.R a c l v).color = c := rfl

@[simp]
theorem sibling_L (a : Nat) (c : Color) (v : α) (r : Tree α) :
    (Frame.L a c v r).sibling = r := rfl

@[simp]
theorem sibling_R (a : Nat) (c : Color) (l : Tree α) (v : α) :
    (Frame.R a c l v).sibling = l := rfl

theorem color_plug : ∀ (fs : List (Frame α)) (t : Tree α),
    (plug fs t).color = rootColor fs t.color
  | [], _ => rfl
  | .L a c v r :: fs, t => by simp [plug, rootColor, color_plug fs, Frame.color]
  | .R a c l v :: fs, t => by simp [plug, rootColor, color_plug fs, Frame.color]

theorem noRedRed_plug : ∀ (fs : List (Frame α)) (t : Tree α),
    NoRedRed (plug fs t) ↔
      NoRedRed t ∧ CtxNoRedRed fs ∧ (ctxColor fs = .RED → t.color = .BLACK)
  | [], t => by simp [plug, CtxNoRedRed]
  | .L a c v r :: fs, t => by
    simp only [plug, noRedRed_plug fs, NoRedRed, CtxNoRedRed, ctxColor_cons, frameColor_L,
      frameColor_R, sibling_L, sibling_R, color_node]
    constructor
    · rintro ⟨⟨h1, h2, h3⟩, h4, h5⟩
      exact ⟨h2, ⟨h3, fun hc => ⟨(h1 hc).2, by
        cases hcc : ctxColor fs with
        | RED => exact absurd (h5 hcc) (by simp [hc])
        | BLACK => rfl⟩, h4⟩, fun hc => (h1 hc).1⟩
    · rintro ⟨h1, ⟨h2, h3, h4⟩, h5⟩
      refine ⟨⟨fun hc => ⟨h5 hc, (h3 hc).1⟩, h1, h2⟩, h4, fun hcc => ?_⟩
      cases c with
      | RED => exact absurd (h3 rfl).2 (by simp [hcc])
      | BLACK => rfl
  | .R a c l v :: fs, t => by
    simp only [plug, noRedRed_plug fs, NoRedRed, CtxNoRedRed, ctxColor_cons, frameColor_L,
      frameColor_R, sibling_L, sibling_R, color_node]
    constructor
    · rintro ⟨⟨h1, h2, h3⟩, h4, h5⟩
      exact ⟨h3, ⟨h2, fun hc => ⟨(h1 hc).1, by
        cases hcc : ctxColor fs with
        | RED => exact absurd (h5 hcc) (by simp [hc])
        | BLACK => rfl⟩, h4⟩, fun hc => (h1 hc).2⟩
    · rintro ⟨h1, ⟨h2, h3, h4⟩, h5⟩
      refine ⟨⟨fun hc => ⟨(h3 hc).1, h5 hc⟩, h2, h1⟩, h4, fun hcc => ?_⟩
      cases c with
      | RED => exact absurd (h3 rfl).2 (by simp [hcc])
      | BLACK => rfl

theorem blackBalanced_plug : ∀ (fs : List (Frame α)) (t : Tree α),
    BlackBalanced (plug fs t) ↔ BlackBalanced t ∧ CtxBalanced fs (blackHeight t)
  | [], t => by simp [plug, CtxBalanced]
  | .L a c v r :: fs, t => by
    simp only [plug, blackBalanced_plug fs, BlackBalanced, CtxBalanced, frameColor_L,
      frameColor_R, sibling_L, sibling_R, blackHeight]
    constructor
    · rintro ⟨⟨h1, h2, h3⟩, h4⟩
      exact ⟨h2, h1.symm, h3, h4⟩
    · rintro ⟨h1, h2, h3, h4⟩
      exact ⟨⟨h2.symm, h1, h3⟩, h4⟩
  | .R a c l v :: fs, t => by
    simp only [plug, blackBalanced_plug fs, BlackBalanced, CtxBalanced, frameColor_L,
      frameColor_R, sibling_L, sibling_R, blackHeight]
    constructor
    · rintro ⟨⟨h1, h2, h3⟩, h4⟩
      exact ⟨h3, h1, h2, by rw [← h1]; exact h4⟩
    · rintro ⟨h1, h2, h3, h4⟩
      exact ⟨⟨h2, h3, h1⟩, by rw [h2]; exact h4⟩

theorem inorder_plug : ∀ (fs : List (Frame α)) (t : Tree α),
    (plug fs t).inorder = ctxBefore fs ++ (t.inorder ++ ctxAfter fs)
  | [], t => by simp [plug, ctxBefore, ctxAfter]
  | .L a c v r :: fs, t => by
    simp [plug, inorder_plug fs, ctxBefore, ctxAfter, Tree.inorder]
  | .R a c l v :: fs, t => by
    simp [plug, inorder_plug fs, ctxBefore, ctxAfter, Tree.inorder]

/-! ## The fixup keeps the in-order sequence and restores the colours -/

theorem inorder_recolour (gf pf : Frame α) (t : Tree α) :
    (recolour gf pf t).inorder = (plug [pf, gf] t).inorder := by
  cases gf with
  | L g cg gv u =>
    cases pf <;> cases u <;> simp [recolour, Frame.build, Frame.sibling, Tree.paint, plug,
      Tree.inorder]
  | R g cg u gv =>
    cases pf <;> cases u <;> simp [recolour, Frame.build, Frame.sibling, Tree.paint, plug,
      Tree.inorder]

theorem inorder_rotateFix (gf pf : Frame α) (n : Nat) (cn : Color) (nl : Tree α) (nv : α)
    (nr : Tree α) :
    (rotateFix gf pf n cn nl nv nr).inorder = (plug [pf, gf] (.node n cn nl nv nr)).inorder := by
  cases gf <;> cases pf <;> simp [rotateFix, plug, Tree.inorder]

theorem inorder_fixup : ∀ (fs : List (Frame α)) (t T' : Tree α),
    fixup fs t = some T' → T'.inorder = (plug fs t).inorder
  | _, .nil, _, h => by simp [fixup] at h
  | [], .node n cn nl nv nr, T', h => by
    simp only [fixup, Option.some.injEq] at h
    subst h; rfl
  | [pf], .node n cn nl nv nr, T', h => by
    by_cases hc : pf.color = .BLACK
    · simp only [fixup, hc, if_true, Option.some.injEq] at h
      subst h; rfl
    · simp [fixup, hc] at h
  | pf :: gf :: fs, .node n cn nl nv nr, T', h => by
    by_cases hc : pf.color = .BLACK
    · simp only [fixup, hc, if_true, Option.some.injEq] at h
      subst h; rfl
    · by_cases hu : gf.sibling.color = .RED
      · simp only [fixup, hc, hu, if_true, if_false] at h
        rw [inorder_fixup fs _ T' h]
        have := inorder_plug_congr (inorder_recolour gf pf (.node n cn nl nv nr)) fs
        rw [this]
        cases pf <;> cases gf <;> rfl
      · simp only [fixup, hc, hu, if_false, Option.some.injEq] at h
        subst h
        have := inorder_plug_congr (inorder_rotateFix gf pf n cn nl nv nr) fs
        rw [this]
        cases pf <;> cases gf <;> rfl

end

section

variable {α : Type}

theorem rootColor_cons (f : Frame α) (fs : List (Frame α)) (c c' : Color) :
    rootColor (f :: fs) c = rootColor (f :: fs) c' := rfl

theorem color_cases (c : Color) : c = .RED ∨ c = .BLACK := by
  cases c <;> simp

theorem ne_black_iff {c : Color} : c ≠ .BLACK ↔ c = .RED := by
  cases c <;> simp

theorem ne_red_iff {c : Color} : c ≠ .RED ↔ c = .BLACK := by
  cases c <;> simp

theorem redBlackInv_plug {fs : List (Frame α)} {t : Tree α} (hc : t.color = .BLACK)
    (h1 : NoRedRed t) (h2 : BlackBalanced t) (h3 : CtxNoRedRed fs)
    (h4 : CtxBalanced fs (blackHeight t)) (h5 : rootColor fs .BLACK = .BLACK) :
    RedBlackInv (plug fs t) := by
  refine ⟨?_, (noRedRed_plug fs t).mpr ⟨h1, h3, fun _ => hc⟩,
    (blackBalanced_plug fs t).mpr ⟨h2, h4⟩⟩
  rw [color_plug, hc]; exact h5

/-- The recolouring step hands the invariants of the loop two levels up. -/
theorem recolour_inv {pf gf : Frame α} {fs : List (Frame α)} {t : Tree α}
    (h1 : NoRedRed t) (h2 : BlackBalanced t)
    (h3 : CtxNoRedRed (pf :: gf :: fs)) (h4 : CtxBalanced (pf :: gf :: fs) (blackHeight t))
    (hpf : pf.color = .RED) (hu : gf.sibling.color = .RED) :
    (recolour gf pf t).color = .RED ∧ NoRedRed (recolour gf pf t) ∧
      BlackBalanced (recolour gf pf t) ∧ CtxNoRedRed fs ∧
      CtxBalanced fs (blackHeight (recolour gf pf t)) := by
  obtain ⟨h31, h32, h33, h34, h35⟩ := h3
  obtain ⟨h41, h42, h43, h44, h45⟩ := h4
  have hg : gf.color = .BLACK := by simpa using (h32 hpf).2
  cases gf with
  | L g cg gv u =>
    cases u with
    | nil => simp at hu
    | node x cx xl xv xr =>
      simp only [sibling_L, color_node, frameColor_L] at hu hg h33 h34 h35 h43 h44 h45
      subst hu hg
      cases pf with
      | L p cp pv pr =>
        simp only [sibling_L, frameColor_L] at hpf h31 h32 h41 h42 h43 h45
        subst hpf
        simp_all [recolour, Frame.build, Tree.paint, NoRedRed, BlackBalanced, blackHeight]
      | R p cp pl pv =>
        simp only [sibling_R, frameColor_R] at hpf h31 h32 h41 h42 h43 h45
        subst hpf
        simp_all [recolour, Frame.build, Tree.paint, NoRedRed, BlackBalanced, blackHeight]
  | R g cg u gv =>
    cases u with
    | nil => simp at hu
    | node x cx xl xv xr =>
      simp only [sibling_R, color_node, frameColor_R] at hu hg h33 h34 h35 h43 h44 h45
      subst hu hg
      cases pf with
      | L p cp pv pr =>
        simp only [sibling_L, frameColor_L] at hpf h31 h32 h41 h42 h43 h45
        subst hpf
        simp_all [recolour, Frame.build, Tree.paint, NoRedRed, BlackBalanced, blackHeight]
      | R p cp pl pv =>
        simp only [sibling_R, frameColor_R] at hpf h31 h32 h41 h42 h43 h45
        subst hpf
        simp_all [recolour, Frame.build, Tree.paint, NoRedRed, BlackBalanced, blackHeight]

/-- The rotation step ends the loop with a sound subtree at the grandparent. -/
theorem rotateFix_inv {pf gf : Frame α} {fs : List (Frame α)} {n : Nat} {nl nr : Tree α}
    {nv : α} (h1 : NoRedRed (.node n .RED nl nv nr)) (h2 : BlackBalanced (.node n .RED nl nv nr))
    (h3 : CtxNoRedRed (pf :: gf :: fs))
    (h4 : CtxBalanced (pf :: gf :: fs) (blackHeight (.node n .RED nl nv nr)))
    (hpf : pf.color = .RED) (hu : gf.sibling.color = .BLACK) :
    (rotateFix gf pf n .RED nl nv nr).color = .BLACK ∧
      NoRedRed (rotateFix gf pf n .RED nl nv nr) ∧
      BlackBalanced (rotateFix gf pf n .RED nl nv nr) ∧ CtxNoRedRed fs ∧
      CtxBalanced fs (blackHeight (rotateFix gf pf n .RED nl nv nr)) := by
  obtain ⟨h31, h32, h33, h34, h35⟩ := h3
  obtain ⟨h41, h42, h43, h44, h45⟩ := h4
  have hg : gf.color = .BLACK := by simpa using (h32 hpf).2
  cases gf with
  | L g cg gv u =>
    simp only [sibling_L, frameColor_L] at hu hg h33 h34 h35 h43 h44 h45
    subst hg
    cases pf with
    | L p cp pv pr =>
      simp only [sibling_L, frameColor_L] at hpf h31 h32 h41 h42 h43 h45
      subst hpf
      simp_all [rotateFix, NoRedRed, BlackBalanced, blackHeight]
    | R p cp pl pv =>
      simp only [sibling_R, frameColor_R] at hpf h31 h32 h41 h42 h43 h45
      subst hpf
      simp_all [rotateFix, NoRedRed, BlackBalanced, blackHeight]
  | R g cg u gv =>
    simp only [sibling_R, frameColor_R] at hu hg h33 h34 h35 h43 h44 h45
    subst hg
    cases pf with
    | L p cp pv pr =>
      simp only [sibling_L, frameColor_L] at hpf h31 h32 h41 h42 h43 h45
      subst hpf
      simp_all [rotateFix, NoRedRed, BlackBalanced, blackHeight]
    | R p cp pl pv =>
      simp only [sibling_R, frameColor_R] at hpf h31 h32 h41 h42 h43 h45
      subst hpf
      simp_all [rotateFix, NoRedRed, BlackBalanced, blackHeight]

/-- From a RED node whose subtree is sound, in a sound path below a BLACK
root, the fixup succeeds and gives a red-black tree. -/
theorem fixup_inv : ∀ (fs : List (Frame α)) (t : Tree α), t.color = .RED → NoRedRed t →
    BlackBalanced t → CtxNoRedRed fs → CtxBalanced fs (blackHeight t) →
    rootColor fs .BLACK = .BLACK → ∃ T', fixup fs t = some T' ∧ RedBlackInv T'
  | _, .nil, hc, _, _, _, _, _ => by simp at hc
  | [], .node n cn nl nv nr, _, h1, h2, _, _, _ =>
    ⟨_, rfl, rfl, ⟨by simp, h1.2.1, h1.2.2⟩, h2⟩
  | [pf], .node n cn nl nv nr, hc, h1, h2, h3, h4, h5 => by
    have hpf : pf.color = .BLACK := by
      cases pf <;> simpa [rootColor] using h5
    refine ⟨_, by simp [fixup, hpf], ?_, (noRedRed_plug _ _).mpr ⟨h1, h3, ?_⟩,
      (blackBalanced_plug _ _).mpr ⟨h2, h4⟩⟩
    · rw [color_plug]; exact h5
    · simp [hpf]
  | pf :: gf :: fs, .node n cn nl nv nr, hc, h1, h2, h3, h4, h5 => by
    by_cases hpf : pf.color = .BLACK
    · refine ⟨_, by simp [fixup, hpf], ?_, (noRedRed_plug _ _).mpr ⟨h1, h3, ?_⟩,
        (blackBalanced_plug _ _).mpr ⟨h2, h4⟩⟩
      · rw [color_plug]; exact h5
      · simp [hpf]
    · have hpf' : pf.color = .RED := ne_black_iff.mp hpf
      have hg : gf.color = .BLACK := by simpa using (h3.2.1 hpf').2
      have h5' : rootColor fs .BLACK = .BLACK := by
        simpa [rootColor, hg] using h5
      by_cases hu : gf.sibling.color = .RED
      · obtain ⟨r1, r2, r3, r4, r5⟩ := recolour_inv h1 h2 h3 h4 hpf' hu
        obtain ⟨T', hT', hinv⟩ := fixup_inv fs _ r1 r2 r3 r4 r5 h5'
        exact ⟨T', by simp [fixup, hpf, hu, hT'], hinv⟩
      · have hu' : gf.sibling.color = .BLACK := ne_red_iff.mp hu
        simp only [color_node] at hc
        subst hc
        obtain ⟨r1, r2, r3, r4, r5⟩ := rotateFix_inv h1 h2 h3 h4 hpf' hu'
        exact ⟨_, by simp [fixup, hpf, hu], redBlackInv_plug r1 r2 r3 r4 r5 h5'⟩

end

section

variable {α : Type}

theorem blackCounts_of_balanced : ∀ {t : Tree α}, BlackBalanced t →
    ∀ k ∈ blackCounts t, k = blackHeight t
  | .nil, _, k, hk => by simpa [blackCounts, blackHeight] using hk
  | .node a c l v r, h, k, hk => by
    obtain ⟨h1, h2, h3⟩ := h
    simp only [blackCounts, List.mem_map, List.mem_append] at hk
    obtain ⟨j, hj | hj, rfl⟩ := hk
    · rw [blackCounts_of_balanced h2 j hj]; rfl
    · rw [blackCounts_of_balanced h3 j hj, ← h1]; rfl

variable [LinearOrder α]

/-! ## The descent of `real_insert` -/

theorem plug_descend (val : α) : ∀ (t : Tree α) (fs : List (Frame α)),
    plug (descend val fs t) .nil = plug fs t
  | .nil, fs => rfl
  | .node a c l v r, fs => by
    by_cases h : val < v
    · simp only [descend, h, if_true]; rw [plug_descend val l]; rfl
    · simp only [descend, h, if_false]; rw [plug_descend val r]; rfl

theorem descend_bounds (val : α) : ∀ (t : Tree α) (fs : List (Frame α)),
    (plug fs t).inorder.Sorted (· ≤ ·) → (∀ x ∈ ctxBefore fs, x ≤ val) →
    (∀ x ∈ ctxAfter fs, val ≤ x) →
    (∀ x ∈ ctxBefore (descend val fs t), x ≤ val) ∧
      (∀ x ∈ ctxAfter (descend val fs t), val ≤ x)
  | .nil, fs, _, hb, ha => ⟨hb, ha⟩
  | .node a c l v r, fs, hs, hb, ha => by
    have hs' := hs
    rw [inorder_plug] at hs'
    simp only [List.Sorted, Tree.inorder, List.pairwise_append, List.pairwise_cons,
      List.mem_append, List.mem_cons] at hs'
    obtain ⟨-, ⟨⟨-, ⟨hvr, -⟩, hlv⟩, -, hra⟩, -⟩ := hs'
    by_cases h : val < v
    · simp only [descend, h, if_true]
      refine descend_bounds val l _ hs (by simpa [ctxBefore] using hb) ?_
      intro x hx
      simp only [ctxAfter, List.cons_append, List.mem_cons, List.mem_append] at hx
      rcases hx with rfl | hx | hx
      · exact le_of_lt h
      · exact le_trans (le_of_lt h) (hvr x hx)
      · exact ha x hx
    · simp only [descend, h, if_false]
      have hv : v ≤ val := not_lt.mp h
      refine descend_bounds val r _ hs ?_ (by simpa [ctxAfter] using ha)
      intro x hx
      simp only [ctxBefore, List.mem_append, List.mem_singleton] at hx
      rcases hx with hx | hx | rfl
      · exact hb x hx
      · exact le_trans (hlv x hx v (Or.inl rfl)) hv
      · exact hv

theorem sorted_insert_mid {A B : List α} {v : α} (h : (A ++ B).Sorted (· ≤ ·))
    (hA : ∀ x ∈ A, x ≤ v) (hB : ∀ x ∈ B, v ≤ x) : (A ++ v :: B).Sorted (· ≤ ·) := by
  simp only [List.Sorted, List.pairwise_append, List.pairwise_cons, List.mem_cons] at h ⊢
  obtain ⟨h1, h2, h3⟩ := h
  refine ⟨h1, ⟨hB, h2⟩, ?_⟩
  rintro x hx y (rfl | hy)
  · exact hA x hx
  · exact h3 x hx y hy

/-- What `insertT` returns on a red-black tree with sorted in-order sequence. -/
theorem insertT_spec {t : Tree α} (a : Nat) (val : α) (hinv : RedBlackInv t)
    (hs : t.inorder.Sorted (· ≤ ·)) :
    ∃ T', insertT t a val = some T' ∧ RedBlackInv T' ∧ T'.inorder.Sorted (· ≤ ·) ∧
      T'.inorder.Perm (val :: t.inorder) := by
  have hp : plug (descend val [] t) .nil = t := plug_descend val t []
  obtain ⟨hc, hrr, hbb⟩ := hinv
  have hc' : rootColor (descend val [] t) .BLACK = .BLACK := by
    have := color_plug (descend val [] t) .nil
    rw [hp, hc] at this
    exact this.symm
  have hrr' := (noRedRed_plug (descend val [] t) .nil).mp (by rw [hp]; exact hrr)
  have hbb' := (blackBalanced_plug (descend val [] t) .nil).mp (by rw [hp]; exact hbb)
  obtain ⟨T', hT', hinv'⟩ := fixup_inv (descend val [] t) (.node a .RED .nil val .nil) rfl
    ⟨by simp, trivial, trivial⟩ ⟨rfl, trivial, trivial⟩ hrr'.2.1
    (by simpa [blackHeight] using hbb'.2) hc'
  have hin := inorder_fixup _ _ _ hT'
  rw [inorder_plug] at hin
  have hb := descend_bounds val t [] (by simpa [plug] using hs)
    (by simp [ctxBefore]) (by simp [ctxAfter])
  have hin0 : t.inorder = ctxBefore (descend val [] t) ++ ctxAfter (descend val [] t) := by
    have := inorder_plug (descend val [] t) .nil
    rw [hp] at this
    simpa [Tree.inorder] using this
  simp only [Tree.inorder, List.nil_append] at hin
  refine ⟨T', hT', hinv', ?_, ?_⟩
  · rw [hin]
    rw [hin0] at hs
    exact sorted_insert_mid hs hb.1 hb.2
  · rw [hin, hin0]
    exact List.perm_middle

end

section

variable {α : Type}

/-! ## Traversal -/

theorem traverse_spec {β : Type} (f : Nat → Node α → β) (order : Order) (s : RBTree α) :
    ∀ (t : Tree α) (par : Option Nat) (fuel : Nat), Own s.cells par t → t.height < fuel →
      traverse fuel s t.ptr f order = .ok (t.visits f order par)
  | _, _, 0, _, hf => absurd hf (Nat.not_lt_zero _)
  | .nil, _, fuel + 1, _, _ => rfl
  | .node a c l v r, par, fuel + 1, h, hf => by
    obtain ⟨ha, hl, hr⟩ := h
    simp only [Tree.height] at hf
    have ihl := traverse_spec f order s l (some a) fuel hl (by omega)
    have ihr := traverse_spec f order s r (some a) fuel hr (by omega)
    simp only [traverse, ptr_node, load, ha, ok_bind, Tree.visits]
    cases hlp : l.ptr with
    | none =>
      cases l with
      | nil =>
        cases hrp : r.ptr with
        | none =>
          cases r with
          | nil => simp [Tree.visits]
          | node _ _ _ _ _ => simp at hrp
        | some y =>
          rw [hrp] at ihr
          simp [ihr, Tree.visits]
      | node _ _ _ _ _ => simp at hlp
    | some x =>
      rw [hlp] at ihl
      cases hrp : r.ptr with
      | none =>
        cases r with
        | nil => simp [ihl, Tree.visits]
        | node _ _ _ _ _ => simp at hrp
      | some y =>
        rw [hrp] at ihr
        simp [ihl, ihr]

theorem visits_value_in (par : Option Nat) : ∀ (t : Tree α),
    t.visits (fun _ n => n.value) .IN par = t.inorder
  | .nil => rfl
  | .node a c l v r => by
    simp [Tree.visits, Tree.inorder, visits_value_in (some a) l, visits_value_in (some a) r]

theorem inorderValues_spec {s : RBTree α} {t : Tree α} (h : Models s t) :
    inorderValues s = .ok t.inorder := by
  have hh := height_le_size t
  have hs := models_size_le h
  unfold inorderValues
  rw [h.1, traverse_spec _ _ s t none _ h.2.1 (by omega), visits_value_in]

theorem models_shape {s : RBTree α} {t : Tree α} (h : Models s t) : ModelsShape s t :=
  ⟨h.1, own_shape h.2.1, h.2.2⟩

theorem models_empty : Models (emptyTree : RBTree α) .nil :=
  ⟨rfl, trivial, List.nodup_nil⟩

variable [LinearOrder α]

/-! ## Search -/

theorem sorted_node {a : Nat} {c : Color} {l r : Tree α} {v : α}
    (h : (Tree.node a c l v r).inorder.Sorted (· ≤ ·)) :
    l.inorder.Sorted (· ≤ ·) ∧ r.inorder.Sorted (· ≤ ·) ∧ (∀ x ∈ l.inorder, x ≤ v) ∧
      (∀ x ∈ r.inorder, v ≤ x) := by
  simp only [List.Sorted, Tree.inorder, List.pairwise_append, List.pairwise_cons,
    List.mem_cons] at h
  obtain ⟨h1, ⟨h2, h3⟩, h4⟩ := h
  exact ⟨h1, h3, fun x hx => h4 x hx v (Or.inl rfl), h2⟩

theorem weakBST_of_sorted : ∀ {t : Tree α}, t.inorder.Sorted (· ≤ ·) → WeakBST t
  | .nil, _ => trivial
  | .node _ _ _ _ _, h => by
    obtain ⟨h1, h2, h3, h4⟩ := sorted_node h
    exact ⟨h3, h4, weakBST_of_sorted h1, weakBST_of_sorted h2⟩

/-- The code of `real_search` on a tree with sorted in-order sequence finds the value
exactly when it is there, and returns a node holding it. -/
theorem real_search_spec (s : RBTree α) (val : α) :
    ∀ (t : Tree α) (fuel : Nat), Shape s.cells t → t.inorder.Sorted (· ≤ ·) →
      t.height < fuel →
      ∃ r, real_search fuel s t.ptr val = .ok r ∧ (r.isSome ↔ val ∈ t.inorder) ∧
        ∀ a, r = some a → a ∈ t.addrs ∧ ∃ nd, get s.cells a = some nd ∧ nd.value = val
  | _, 0, _, _, hf => absurd hf (Nat.not_lt_zero _)
  | .nil, fuel + 1, _, _, _ => ⟨none, rfl, by simp [Tree.inorder], by simp⟩
  | .node a c l v r, fuel + 1, h, hs, hf => by
    obtain ⟨⟨q, ha⟩, hl, hr⟩ := h
    obtain ⟨hsl, hsr, hlv, hvr⟩ := sorted_node hs
    simp only [Tree.height] at hf
    by_cases heq : v = val
    · refine ⟨some a, by simp [real_search, load, ha, heq], by simp [Tree.inorder, heq], ?_⟩
      intro b hb
      simp only [Option.some.injEq] at hb
      subst hb
      exact ⟨by simp [Tree.addrs], _, ha, heq⟩
    · by_cases hlt : val < v
      · obtain ⟨res, hres, hiff, hnode⟩ := real_search_spec s val l fuel hl hsl (by omega)
        refine ⟨res, by simp [real_search, load, ha, heq, hlt, hres], ?_, ?_⟩
        · rw [hiff]
          simp only [Tree.inorder, List.mem_append, List.mem_cons]
          constructor
          · exact Or.inl
          · rintro (h1 | h1 | h1)
            · exact h1
            · exact absurd h1.symm heq
            · exact absurd (hvr val h1) (not_le.mpr hlt)
        · intro b hb
          obtain ⟨h1, h2⟩ := hnode b hb
          exact ⟨by simp [Tree.addrs, h1], h2⟩
      · obtain ⟨res, hres, hiff, hnode⟩ := real_search_spec s val r fuel hr hsr (by omega)
        refine ⟨res, by simp [real_search, load, ha, heq, hlt, hres], ?_, ?_⟩
        · rw [hiff]
          simp only [Tree.inorder, List.mem_append, List.mem_cons]
          constructor
          · exact fun h1 => Or.inr (Or.inr h1)
          · rintro (h1 | h1 | h1)
            · exact absurd (lt_of_le_of_ne (hlv val h1) (Ne.symm heq)) hlt
            · exact absurd h1.symm heq
            · exact h1
        · intro b hb
          obtain ⟨h1, h2⟩ := hnode b hb
          exact ⟨by simp [Tree.addrs, h1], h2⟩

theorem search_spec {s : RBTree α} {t : Tree α} (val : α) (h : ModelsShape s t)
    (hs : t.inorder.Sorted (· ≤ ·)) :
    ∃ r, search s val = .ok r ∧ (r.isSome ↔ val ∈ t.inorder) ∧
      ∀ a, r = some a → a ∈ t.addrs ∧ ∃ nd, get s.cells a = some nd ∧ nd.value = val := by
  have hh := height_le_size t
  have hsz := shape_size_le h.2.1 h.2.2
  unfold search
  rw [h.1]
  exact real_search_spec s val t _ h.2.1 hs (by omega)

/-! ## Sequences of insertions -/

/-- One `insert` on a red-black tree in memory. -/
theorem insert_step {s : RBTree α} {t : Tree α} (val : α) (h : Models s t)
    (hinv : RedBlackInv t) (hs : t.inorder.Sorted (· ≤ ·)) :
    ∃ s' t', insert s val = .ok s' ∧ Models s' t' ∧ RedBlackInv t' ∧
      t'.inorder.Sorted (· ≤ ·) ∧ t'.inorder.Perm (val :: t.inorder) := by
  obtain ⟨T', hT', h1, h2, h3⟩ := insertT_spec s.cells.length val hinv hs
  obtain ⟨s', hs', hm', -⟩ := insert_spec h hT'
  exact ⟨s', T', hs', hm', h1, h2, h3⟩

theorem insertAll_step : ∀ (xs : List α) {s : RBTree α} {t : Tree α}, Models s t →
    RedBlackInv t → t.inorder.Sorted (· ≤ ·) →
    ∃ s' t', insertAll s xs = .ok s' ∧ Models s' t' ∧ RedBlackInv t' ∧
      t'.inorder.Sorted (· ≤ ·) ∧ t'.inorder.Perm (t.inorder ++ xs)
  | [], s, t, h, hinv, hs => ⟨s, t, rfl, h, hinv, hs, by simp⟩
  | x :: xs, s, t, h, hinv, hs => by
    obtain ⟨s1, t1, hs1, hm1, hinv1, hsort1, hperm1⟩ := insert_step x h hinv hs
    obtain ⟨s', t', hs', hm', hinv', hsort', hperm'⟩ := insertAll_step xs hm1 hinv1 hsort1
    refine ⟨s', t', by simp [insertAll, hs1, hs'], hm', hinv', hsort', hperm'.trans ?_⟩
    refine (List.Perm.append_right xs hperm1).trans ?_
    simp only [List.cons_append]
    exact List.perm_middle.symm

theorem insertAll_empty (xs : List α) :
    ∃ s t, insertAll (emptyTree : RBTree α) xs = .ok s ∧ Models s t ∧ RedBlackInv t ∧
      t.inorder.Sorted (· ≤ ·) ∧ t.inorder.Perm xs := by
  obtain ⟨s, t, h1, h2, h3, h4, h5⟩ := insertAll_step xs (@models_empty α)
    ⟨rfl, trivial, trivial⟩ (by simp [Tree.inorder])
  exact ⟨s, t, h1, h2, h3, h4, by simpa [Tree.inorder] using h5⟩

end

section

variable {α : Type}

theorem ptr_eq_none {t : Tree α} : t.ptr = none ↔ t = .nil := by
  cases t <;> simp

/-! ## Deletion: trees -/

theorem addrs_setLeftmost (x : α) : ∀ t : Tree α, (t.setLeftmost x).addrs = t.addrs
  | .nil => rfl
  | .node a c .nil v r => rfl
  | .node a c (.node b cb ll lv lr) v r => by
    simp only [Tree.setLeftmost, Tree.addrs]
    rw [addrs_setLeftmost x (.node b cb ll lv lr)]
    rfl

theorem ptr_setLeftmost (x : α) : ∀ t : Tree α, (t.setLeftmost x).ptr = t.ptr
  | .nil => rfl
  | .node a c .nil v r => rfl
  | .node a c (.node b cb ll lv lr) v r => rfl

theorem height_setLeftmost (x : α) : ∀ t : Tree α, (t.setLeftmost x).height = t.height
  | .nil => rfl
  | .node a c .nil v r => rfl
  | .node a c (.node b cb ll lv lr) v r => by
    simp only [Tree.setLeftmost, Tree.height]
    rw [height_setLeftmost x (.node b cb ll lv lr)]
    rfl

theorem leftmostAddr_mem : ∀ {t : Tree α} {x : Nat}, t.leftmostAddr = some x → x ∈ t.addrs
  | .nil, _, h => by simp [Tree.leftmostAddr] at h
  | .node a c .nil v r, x, h => by
    simp only [Tree.leftmostAddr, Option.some.injEq] at h
    simp [Tree.addrs, h]
  | .node a c (.node b cb ll lv lr) v r, x, h => by
    simp only [Tree.leftmostAddr] at h
    have := leftmostAddr_mem h
    simp only [Tree.addrs, List.mem_cons, List.mem_append] at this ⊢
    tauto

theorem leftmostAddr_isSome : ∀ (a : Nat) (c : Color) (l : Tree α) (v : α) (r : Tree α),
    ∃ x, (Tree.node a c l v r).leftmostAddr = some x
  | a, _, .nil, _, _ => ⟨a, rfl⟩
  | _, _, .node b cb ll lv lr, _, _ => by
    obtain ⟨x, hx⟩ := leftmostAddr_isSome b cb ll lv lr
    exact ⟨x, by simpa [Tree.leftmostAddr] using hx⟩

/-- The loop that looks for the in-order successor stops at the leftmost node. -/
theorem leftmost_spec (s : RBTree α) : ∀ (t : Tree α) (fuel : Nat), Shape s.cells t →
    t ≠ .nil → t.height ≤ fuel → leftmost fuel s t.ptr = .ok t.leftmostAddr
  | .nil, _, _, hn, _ => absurd rfl hn
  | .node a c l v r, 0, _, _, hf => by simp [Tree.height] at hf
  | .node a c .nil v r, fuel + 1, h, _, _ => by
    obtain ⟨⟨q, ha⟩, -, -⟩ := h
    simp [leftmost, load, ha, Tree.leftmostAddr]
  | .node a c (.node b cb ll lv lr) v r, fuel + 1, h, _, hf => by
    obtain ⟨⟨q, ha⟩, hl, -⟩ := h
    have ih := leftmost_spec s (.node b cb ll lv lr) fuel hl (by simp) (by
      simp only [Tree.height] at hf ⊢; omega)
    simp only [ptr_node] at ih
    simp [leftmost, load, ha, Tree.leftmostAddr, ih]

/-- At the leftmost node sits the leftmost value, and no left child. -/
theorem shape_leftmost {cells : List (Option (Node α))} (d : α) :
    ∀ {t : Tree α} {x : Nat}, Shape cells t → t.leftmostAddr = some x →
      ∃ nd, get cells x = some nd ∧ nd.value = t.leftmostValue d ∧ nd.left = none
  | .nil, _, _, h => by simp [Tree.leftmostAddr] at h
  | .node a c .nil v r, x, hs, h => by
    simp only [Tree.leftmostAddr, Option.some.injEq] at h
    subst h
    obtain ⟨⟨q, ha⟩, -, -⟩ := hs
    exact ⟨_, ha, rfl, rfl⟩
  | .node a c (.node b cb ll lv lr) v r, x, hs, h => by
    simp only [Tree.leftmostAddr] at h
    exact @shape_leftmost cells d (.node b cb ll lv lr) x hs.2.1 h

/-- Overwriting the value at the leftmost node. -/
theorem own_setLeftmost {cells : List (Option (Node α))} (x : α) :
    ∀ {t : Tree α} {par : Option Nat} {a : Nat} {nd : Node α}, Own cells par t →
      t.addrs.Nodup → t.leftmostAddr = some a → get cells a = some nd →
      Own (cells.set a (some { nd with value := x })) par (t.setLeftmost x)
  | .nil, _, _, _, _, _, h, _ => by simp [Tree.leftmostAddr] at h
  | .node b c .nil v r, par, a, nd, ho, hnd, h, hg => by
    simp only [Tree.leftmostAddr, Option.some.injEq] at h
    subst h
    obtain ⟨hb, -, hr⟩ := ho
    rw [hb] at hg
    simp only [Option.some.injEq] at hg
    subst hg
    simp only [Tree.addrs, List.nil_append, List.nodup_cons] at hnd
    refine ⟨?_, trivial, own_set _ hr hnd.1⟩
    simp [get_set, get_lt hb]
  | .node b c (.node e ce ll lv lr) v r, par, a, nd, ho, hnd, h, hg => by
    simp only [Tree.leftmostAddr] at h
    obtain ⟨hb, hl, hr⟩ := ho
    have hmem := leftmostAddr_mem h
    simp only [Tree.addrs, List.nodup_cons, List.mem_append, not_or, List.nodup_append,
      List.mem_cons] at hnd hmem
    have hnd' : (Tree.node e ce ll lv lr).addrs.Nodup := by
      simp only [Tree.addrs, List.nodup_cons, List.mem_append, not_or, List.nodup_append]
      exact hnd.2.1
    have hab : a ≠ b := by
      rintro rfl
      rcases hmem with rfl | hm | hm
      · exact hnd.1.1.1 rfl
      · exact hnd.1.1.2.1 hm
      · exact hnd.1.1.2.2 hm
    have har : a ∉ r.addrs := by
      intro hm
      exact hnd.2.2.2 (by simpa [Tree.addrs] using hmem) hm
    have ih := own_setLeftmost x hl hnd' h hg
    refine ⟨?_, ih, own_set _ hr har⟩
    rw [get_set_ne _ hab]
    simpa [ptr_setLeftmost] using hb

variable [LinearOrder α]

theorem removeT_sublist (val : α) : ∀ (fuel : Nat) (t : Tree α),
    (removeT val fuel t).addrs.Sublist t.addrs
  | 0, t => List.Sublist.refl _
  | _ + 1, .nil => List.Sublist.refl _
  | fuel + 1, .node a c l v r => by
    by_cases h : v = val
    · cases l with
      | nil =>
        cases r with
        | nil => simp [removeT, h, Tree.addrs]
        | node d cd rl rv rr =>
          simp only [removeT, h, if_true]
          simp only [Tree.addrs, List.nil_append]
          exact List.sublist_cons_self _ _
      | node b cb ll lv lr =>
        cases r with
        | nil =>
          simp only [removeT, h, if_true]
          simp only [Tree.addrs, List.append_nil]
          exact List.sublist_cons_self _ _
        | node d cd rl rv rr =>
          simp only [removeT, h, if_true]
          have ih := removeT_sublist val fuel (Tree.setLeftmost val (.node d cd rl rv rr))
          rw [addrs_setLeftmost] at ih
          simp only [Tree.addrs] at ih ⊢
          exact List.Sublist.cons₂ _ (List.Sublist.append (List.Sublist.refl _) ih)
    · simp only [removeT, h, if_false, Tree.addrs]
      exact List.Sublist.cons₂ _
        (List.Sublist.append (removeT_sublist val fuel l) (removeT_sublist val fuel r))

/-- The code of `remove_real` changes nothing when no node of the subtree holds the value. -/
theorem remove_real_absent (s : RBTree α) (val : α) : ∀ (t : Tree α) (fuel : Nat),
    Shape s.cells t → val ∉ t.inorder → t.height < fuel →
    remove_real fuel s t.ptr val = .ok s
  | _, 0, _, _, hf => absurd hf (Nat.not_lt_zero _)
  | .nil, fuel + 1, _, _, _ => rfl
  | .node a c l v r, fuel + 1, h, hv, hf => by
    obtain ⟨⟨q, ha⟩, hl, hr⟩ := h
    simp only [Tree.inorder, List.mem_append, List.mem_cons, not_or] at hv
    simp only [Tree.height] at hf
    have ihl := remove_real_absent s val l fuel hl hv.1 (by omega)
    have ihr := remove_real_absent s val r fuel hr hv.2.2 (by omega)
    have hne : ¬ v = val := fun e => hv.2.1 e.symm
    simp [remove_real, load, ha, hne, ihl, ihr]

theorem removeT_absent (val : α) : ∀ (fuel : Nat) (t : Tree α), val ∉ t.inorder →
    removeT val fuel t = t
  | 0, _, _ => rfl
  | _ + 1, .nil, _ => rfl
  | fuel + 1, .node a c l v r, hv => by
    simp only [Tree.inorder, List.mem_append, List.mem_cons, not_or] at hv
    have hne : ¬ v = val := fun e => hv.2.1 e.symm
    simp [removeT, hne, removeT_absent val fuel l hv.1, removeT_absent val fuel r hv.2.2]

end

section

variable {α : Type}

theorem shape_congr {cells cells' : List (Option (Node α))} :
    ∀ {t : Tree α}, Shape cells t → (∀ b ∈ t.addrs, get cells' b = get cells b) →
      Shape cells' t
  | .nil, _, _ => trivial
  | .node a c l v r, h, hc => by
    obtain ⟨⟨q, h1⟩, h2, h3⟩ := h
    refine ⟨⟨q, ?_⟩, shape_congr h2 ?_, shape_congr h3 ?_⟩
    · rw [hc a (by simp [Tree.addrs])]; exact h1
    · intro b hb; exact hc b (by simp [Tree.addrs, hb])
    · intro b hb; exact hc b (by simp [Tree.addrs, hb])

theorem node_eta_left (pn : Node α) : ({ pn with left := pn.left } : Node α) = pn := rfl

theorem node_eta_right (pn : Node α) : ({ pn with right := pn.right } : Node α) = pn := rfl

/-- A slot that holds a pointer has, trivially, been assigned that pointer. -/
theorem slotUpdated_refl {s : RBTree α} {par p : Option Nat} {slot : Slot}
    (h : SlotHolds s par p slot) : SlotUpdated s s p slot := by
  cases slot with
  | root => exact h.2
  | left q =>
    obtain ⟨-, pn, h1, h2⟩ := h
    exact ⟨rfl, pn, h1, by rw [← h2]; exact h1⟩
  | right q =>
    obtain ⟨-, pn, h1, h2, -⟩ := h
    exact ⟨rfl, pn, h1, by rw [← h2]; exact h1⟩

/-- When only cells away from the slot changed, the slot still counts as
assigned what it held. -/
theorem slotUpdated_of_agree {s s' : RBTree α} {par p : Option Nat} {slot : Slot}
    (h : SlotHolds s par p slot) (hroot : s'.root = s.root)
    (hag : ∀ q, par = some q → get s'.cells q = get s.cells q) :
    SlotUpdated s s' p slot := by
  cases slot with
  | root => exact hroot.trans h.2
  | left q =>
    obtain ⟨hp, pn, h1, h2⟩ := h
    exact ⟨hroot, pn, h1, by rw [hag q hp, ← h2]; exact h1⟩
  | right q =>
    obtain ⟨hp, pn, h1, h2, -⟩ := h
    exact ⟨hroot, pn, h1, by rw [hag q hp, ← h2]; exact h1⟩

/-- What holds after a node has been unlinked and its only child, if any,
put in its place. -/
theorem splice_post {s : RBTree α} {slot : Slot} {par : Option Nat} {a : Nat}
    (child : Tree α) (hslot : SlotHolds s par (some a) slot)
    (hq : ∀ q, par = some q → q ≠ a ∧ q ∉ child.addrs) (hchild : Shape s.cells child)
    (hac : a ∉ child.addrs) :
    Shape (spliceState s a child.ptr slot).cells child ∧
      SlotUpdated s (spliceState s a child.ptr slot) child.ptr slot ∧
      (∀ z, z ≠ a → par ≠ some z →
        get (spliceState s a child.ptr slot).cells z = get s.cells z) ∧
      (spliceState s a child.ptr slot).cells.length = s.cells.length := by
  cases slot with
  | root =>
    refine ⟨shape_set _ hchild hac, rfl, ?_, by simp [spliceState]⟩
    intro z hz _
    simp [spliceState, get_set, hz]
  | left q =>
    obtain ⟨hp, pn, h1, h2⟩ := hslot
    obtain ⟨hqa, hqc⟩ := hq q hp
    have hql := get_lt h1
    simp only [spliceState, h1]
    refine ⟨shape_set _ (shape_set _ hchild hqc) hac, ⟨rfl, pn, h1, ?_⟩, ?_, by simp⟩
    · simp [get_set, hqa, hql]
    · intro z hz hz2
      have : z ≠ q := fun e => hz2 (by rw [hp, e])
      simp [get_set, hz, this]
  | right q =>
    obtain ⟨hp, pn, h1, h2, -⟩ := hslot
    obtain ⟨hqa, hqc⟩ := hq q hp
    have hql := get_lt h1
    simp only [spliceState, h1]
    refine ⟨shape_set _ (shape_set _ hchild hqc) hac, ⟨rfl, pn, h1, ?_⟩, ?_, by simp⟩
    · simp [get_set, hqa, hql]
    · intro z hz hz2
      have : z ≠ q := fun e => hz2 (by rw [hp, e])
      simp [get_set, hz, this]

end

section

variable {α : Type} [LinearOrder α]

/-- The code that unlinks a node without children. -/
theorem unlink_leaf {s : RBTree α} {slot : Slot} {par : Option Nat} {a : Nat} {v : α}
    {c : Color} (fuel : Nat) (ha : get s.cells a = some ⟨v, none, none, par, c⟩)
    (hslot : SlotHolds s par (some a) slot) (hq : ∀ q, par = some q → q ≠ a) :
    remove_real (fuel + 1) s (some a) v = .ok (spliceState s a none slot) := by
  have hal := get_lt ha
  cases slot with
  | root =>
    obtain ⟨hp, hr⟩ := hslot
    subst hp
    simp [remove_real, load, ha, free, hr, spliceState]
  | left q =>
    obtain ⟨hp, pn, h1, h2⟩ := hslot
    subst hp
    have hqa := hq q rfl
    have hql := get_lt h1
    simp [remove_real, load, ha, free, spliceState, h1, h2, setLeft, store, get_set, hqa,
      hqa.symm, hal]
  | right q =>
    obtain ⟨hp, pn, h1, h2, h3⟩ := hslot
    subst hp
    have hqa := hq q rfl
    have hql := get_lt h1
    have h3' := h3 (by simp)
    simp [remove_real, load, ha, free, spliceState, h1, h3', setRight, store, get_set, hqa,
      hqa.symm, hal]

/-- The code that unlinks a node with one child. -/
theorem unlink_one {s : RBTree α} {slot : Slot} {par : Option Nat} {a : Nat} {v : α}
    {c : Color} {lp rp : Option Nat} (fuel : Nat)
    (ha : get s.cells a = some ⟨v, lp, rp, par, c⟩)
    (hone : (lp = none ∧ rp ≠ none) ∨ (lp ≠ none ∧ rp = none))
    (hslot : SlotHolds s par (some a) slot) (hq : ∀ q, par = some q → q ≠ a) :
    remove_real (fuel + 1) s (some a) v =
      .ok (spliceState s a (if rp = none then lp else rp) slot) := by
  have hal := get_lt ha
  have hchild : (match rp with
      | some _ => rp
      | none => lp) = (if rp = none then lp else rp) := by
    cases rp <;> simp
  rcases hone with ⟨hl, hr⟩ | ⟨hl, hr⟩
  · subst hl
    obtain ⟨d, rfl⟩ := Option.ne_none_iff_exists'.mp hr
    cases slot with
    | root =>
      obtain ⟨hp, hr⟩ := hslot
      subst hp
      simp [remove_real, load, ha, free, spliceState, get_set, hal]
    | left q =>
      obtain ⟨hp, pn, h1, h2⟩ := hslot
      subst hp
      have hqa := hq q rfl
      have hql := get_lt h1
      simp [remove_real, load, ha, free, spliceState, h1, h2, setLeft, store, get_set, hqa,
        hqa.symm, hal]
    | right q =>
      obtain ⟨hp, pn, h1, h2, h3⟩ := hslot
      subst hp
      have hqa := hq q rfl
      have hql := get_lt h1
      have h3' := h3 (by simp)
      simp [remove_real, load, ha, free, spliceState, h1, h3', setRight, store, get_set, hqa,
        hqa.symm, hal]
  · subst hr
    obtain ⟨d, rfl⟩ := Option.ne_none_iff_exists'.mp hl
    cases slot with
    | root =>
      obtain ⟨hp, hr⟩ := hslot
      subst hp
      simp [remove_real, load, ha, free, spliceState, get_set, hal]
    | left q =>
      obtain ⟨hp, pn, h1, h2⟩ := hslot
      subst hp
      have hqa := hq q rfl
      have hql := get_lt h1
      simp [remove_real, load, ha, free, spliceState, h1, h2, setLeft, store, get_set, hqa,
        hqa.symm, hal]
    | right q =>
      obtain ⟨hp, pn, h1, h2, h3⟩ := hslot
      subst hp
      have hqa := hq q rfl
      have hql := get_lt h1
      have h3' := h3 (by simp)
      simp [remove_real, load, ha, free, spliceState, h1, h3', setRight, store, get_set, hqa,
        hqa.symm, hal]

/-- The code of `remove_real` on a subtree with consistent parent pointers, held by a
pointer variable: the memory then holds the tree `removeT` computes (parent
pointers left aside), the variable designates its root, and nothing changed
outside the subtree and the node of the variable. -/
theorem remove_real_spec : ∀ (fuel : Nat) (val : α) (t : Tree α) (s : RBTree α) (slot : Slot)
    (par : Option Nat), Own s.cells par t → t.addrs.Nodup → SlotHolds s par t.ptr slot →
    (∀ q, par = some q → q ∉ t.addrs) → t.height < fuel →
    ∃ s', remove_real fuel s t.ptr val = .ok s' ∧ Shape s'.cells (removeT val fuel t) ∧
      SlotUpdated s s' (removeT val fuel t).ptr slot ∧
      (∀ z, z ∉ t.addrs → par ≠ some z → get s'.cells z = get s.cells z) ∧
      s'.cells.length = s.cells.length
  | 0, _, _, _, _, _, _, _, _, _, hf => absurd hf (Nat.not_lt_zero _)
  | fuel + 1, val, .nil, s, slot, par, _, _, hslot, _, _ =>
    ⟨s, rfl, trivial, slotUpdated_refl hslot, fun _ _ _ => rfl, rfl⟩
  | fuel + 1, val, .node a c l v r, s, slot, par, hown, hnd, hslot, hq, hf => by
    obtain ⟨ha, hl, hr⟩ := hown
    have hal := get_lt ha
    simp only [Tree.height] at hf
    simp only [Tree.addrs, List.nodup_cons, List.mem_append, not_or, List.nodup_append]
      at hnd
    obtain ⟨⟨hanl, hanr⟩, hndl, hndr, hdis⟩ := hnd
    have hqa : ∀ q, par = some q → q ≠ a := fun q hp e =>
      hq q hp (by simp [Tree.addrs, e])
    have hql : ∀ q, par = some q → q ∉ l.addrs := fun q hp hm =>
      hq q hp (by simp [Tree.addrs, hm])
    have hqr : ∀ q, par = some q → q ∉ r.addrs := fun q hp hm =>
      hq q hp (by simp [Tree.addrs, hm])
    simp only [ptr_node] at hslot ⊢
    by_cases hv : v = val
    · subst hv
      cases l with
      | nil =>
        cases r with
        | nil =>
          have hpost := splice_post Tree.nil hslot
            (fun q hp => ⟨hqa q hp, by simp [Tree.addrs]⟩) trivial (by simp [Tree.addrs])
          refine ⟨_, unlink_leaf fuel ha hslot hqa, ?_⟩
          simp only [removeT, if_true]
          refine ⟨hpost.1, hpost.2.1, ?_, hpost.2.2.2⟩
          intro z hz hz2
          exact hpost.2.2.1 z (fun e => hz (by simp [Tree.addrs, e])) hz2
        | node d cd rl rv rr =>
          have hpost := splice_post (Tree.node d cd rl rv rr) hslot
            (fun q hp => ⟨hqa q hp, hqr q hp⟩) (own_shape hr) hanr
          have hcalc := unlink_one fuel ha (Or.inl ⟨rfl, by simp⟩) hslot hqa
          simp only [ptr_node, ptr_nil] at hcalc hpost
          refine ⟨_, hcalc, ?_⟩
          simp only [removeT, if_true, ptr_node]
          refine ⟨by simpa using hpost.1, by simpa using hpost.2.1, ?_,
            by simpa using hpost.2.2.2⟩
          intro z hz hz2
          simpa using hpost.2.2.1 z (fun e => hz (by simp [Tree.addrs, e])) hz2
      | node b cb ll lv lr =>
        cases r with
        | nil =>
          have hpost := splice_post (Tree.node b cb ll lv lr) hslot
            (fun q hp => ⟨hqa q hp, hql q hp⟩) (own_shape hl) hanl
          have hcalc := unlink_one fuel ha (Or.inr ⟨by simp, rfl⟩) hslot hqa
          simp only [ptr_node, ptr_nil] at hcalc hpost
          refine ⟨_, hcalc, ?_⟩
          simp only [removeT, if_true, ptr_node]
          refine ⟨by simpa using hpost.1, by simpa using hpost.2.1, ?_,
            by simpa using hpost.2.2.2⟩
          intro z hz hz2
          simpa using hpost.2.2.1 z (fun e => hz (by simp [Tree.addrs, e])) hz2
        | node d cd rl rv rr =>
          have hrs : Shape s.cells (Tree.node d cd rl rv rr) := own_shape hr
          have hsz := shape_size_le hrs hndr
          have hh := height_le_size (Tree.node d cd rl rv rr)
          obtain ⟨x, hx⟩ := leftmostAddr_isSome d cd rl rv rr
          have hlm := leftmost_spec s _ (s.cells.length + 1) hrs (by simp) (by omega)
          rw [hx] at hlm
          simp only [ptr_node] at hlm
          obtain ⟨sn, hsn, hsnv, -⟩ := shape_leftmost v hrs hx
          have hxr := leftmostAddr_mem hx
          have hxa : x ≠ a := fun e => hanr (e ▸ hxr)
          have hxl := get_lt hsn
          -- the state after the two values have been exchanged
          have hown1 : Own (s.cells.set a (some ⟨sn.value, some b, some d, par, c⟩)) (some a)
              (Tree.node d cd rl rv rr) := own_set _ hr hanr
          have hsn1 : get (s.cells.set a (some ⟨sn.value, some b, some d, par, c⟩)) x = some sn := by
            rw [get_set_ne _ (Ne.symm hxa)]; exact hsn
          have hown2 := own_setLeftmost v hown1 hndr hx hsn1
          have ha2 : get ((s.cells.set a (some ⟨sn.value, some b, some d, par, c⟩)).set x
              (some { sn with value := v })) a = some ⟨sn.value, some b, some d, par, c⟩ := by
            simp [get_set, Ne.symm hxa, hal]
          obtain ⟨s3, hs3, hshape3, hupd3, hconf3, hlen3⟩ := remove_real_spec fuel v
            (Tree.setLeftmost v (.node d cd rl rv rr))
            ⟨(s.cells.set a (some ⟨sn.value, some b, some d, par, c⟩)).set x
              (some { sn with value := v }), s.root⟩ (.right a) (some a) hown2
            (by rw [addrs_setLeftmost]; exact hndr)
            ⟨rfl, _, ha2, by rw [ptr_setLeftmost]; rfl, by
              rw [ptr_setLeftmost]
              intro _ e
              simp only [ptr_node, Option.some.injEq] at e
              exact hdis (by simp [Tree.addrs] : b ∈ _) (by simp [Tree.addrs, e])⟩
            (by intro q hq'; simp only [Option.some.injEq] at hq'; subst hq'
                rw [addrs_setLeftmost]; exact hanr)
            (by rw [height_setLeftmost]; omega)
          obtain ⟨hroot3, pn3, hpn3, hget3⟩ := hupd3
          rw [ha2] at hpn3
          simp only [Option.some.injEq] at hpn3
          subst hpn3
          rw [addrs_setLeftmost] at hconf3
          have hag : ∀ z, z ≠ a → z ∉ (Tree.node d cd rl rv rr).addrs →
              get s3.cells z = get s.cells z := by
            intro z hz1 hz2
            rw [hconf3 z hz2 (by simpa using Ne.symm hz1)]
            have hzx : z ≠ x := fun e => hz2 (e ▸ hxr)
            simp [get_set, hz1, hzx]
          refine ⟨s3, ?_, ?_, ?_, ?_, by simpa using hlen3⟩
          · rw [ptr_setLeftmost] at hs3
            simp only [ptr_node] at hs3
            simp [remove_real, load, ha, hlm, hsn, setValue, store, get_set, hal, hxa,
              hxa.symm, hs3]
          · simp only [removeT, if_true]
            refine ⟨⟨par, by rw [← hsnv]; simpa using hget3⟩, ?_, hshape3⟩
            exact shape_congr (own_shape hl) (fun z hz =>
              hag z (ne_of_mem_of_not_mem hz hanl) (fun hm => hdis hz hm))
          · simp only [removeT, if_true, ptr_node]
            refine slotUpdated_of_agree hslot (by simpa using hroot3) ?_
            intro q hp
            exact hag q (hqa q hp) (hqr q hp)
          · intro z hz hz2
            simp only [Tree.addrs, List.mem_cons, List.mem_append, not_or] at hz
            exact hag z hz.1 (by simpa [Tree.addrs] using hz.2.2)
    · -- the node does not hold the value: both subtrees are searched
      obtain ⟨s1, hs1, hshape1, hupd1, hconf1, hlen1⟩ := remove_real_spec fuel val l s
        (.left a) (some a) hl hndl ⟨rfl, _, ha, rfl⟩
        (by intro q hq'; simp only [Option.some.injEq] at hq'; subst hq'; exact hanl)
        (by omega)
      obtain ⟨hroot1, pn1, hpn1, hget1⟩ := hupd1
      rw [ha] at hpn1
      simp only [Option.some.injEq] at hpn1
      subst hpn1
      simp only at hget1
      have hsub1 := (removeT_sublist val fuel l).subset
      have hown1 : Own s1.cells (some a) r :=
        own_congr hr (fun z hz => hconf1 z (fun hm => hdis hm hz)
          (by simpa using (ne_of_mem_of_not_mem hz hanr).symm))
      obtain ⟨s2, hs2, hshape2, hupd2, hconf2, hlen2⟩ := remove_real_spec fuel val r s1
        (.right a) (some a) hown1 hndr ⟨rfl, _, hget1, rfl, by
          intro hne e
          obtain ⟨y, hy⟩ := Option.ne_none_iff_exists'.mp hne
          have h1 : y ∈ l.addrs := hsub1 (ptr_mem (by simpa [hy] using e))
          exact hdis h1 (ptr_mem hy)⟩
        (by intro q hq'; simp only [Option.some.injEq] at hq'; subst hq'; exact hanr)
        (by omega)
      obtain ⟨hroot2, pn2, hpn2, hget2⟩ := hupd2
      rw [hget1] at hpn2
      simp only [Option.some.injEq] at hpn2
      subst hpn2
      simp only at hget2
      have hag : ∀ z, z ≠ a → z ∉ l.addrs → z ∉ r.addrs → get s2.cells z = get s.cells z := by
        intro z hz1 hz2 hz3
        rw [hconf2 z hz3 (by simpa using Ne.symm hz1),
          hconf1 z hz2 (by simpa using Ne.symm hz1)]
      refine ⟨s2, ?_, ?_, ?_, ?_, by omega⟩
      · simp [remove_real, load, ha, hv, hs1, hget1, hs2]
      · simp only [removeT, hv, if_false]
        refine ⟨⟨par, hget2⟩, ?_, hshape2⟩
        refine shape_congr hshape1 (fun z hz => hconf2 z (fun hm => hdis (hsub1 hz) hm) ?_)
        simpa using (ne_of_mem_of_not_mem (hsub1 hz) hanl).symm
      · simp only [removeT, hv, if_false, ptr_node]
        refine slotUpdated_of_agree hslot (hroot2.trans hroot1) ?_
        intro q hp
        exact hag q (hqa q hp) (hql q hp) (hqr q hp)
      · intro z hz hz2
        simp only [Tree.addrs, List.mem_cons, List.mem_append, not_or] at hz
        exact hag z hz.1 hz.2.1 hz.2.2

end

section

variable {α : Type}

theorem inorder_leftmost (d x : α) : ∀ (a : Nat) (c : Color) (l : Tree α) (v : α) (r : Tree α),
    ∃ rest, (Tree.node a c l v r).inorder = Tree.leftmostValue d (.node a c l v r) :: rest ∧
      (Tree.setLeftmost x (.node a c l v r)).inorder = x :: rest
  | a, c, .nil, v, r => ⟨r.inorder, rfl, rfl⟩
  | a, c, .node b cb ll lv lr, v, r => by
    obtain ⟨rest, h1, h2⟩ := inorder_leftmost d x b cb ll lv lr
    refine ⟨rest ++ v :: r.inorder, ?_, ?_⟩
    · simp only [Tree.inorder, Tree.leftmostValue] at h1 ⊢
      rw [h1]; rfl
    · simp only [Tree.inorder, Tree.setLeftmost] at h2 ⊢
      rw [h2]; rfl

variable [LinearOrder α]

theorem sorted_mid_iff {A B : List α} {v : α} :
    (A ++ v :: B).Sorted (· ≤ ·) ↔
      A.Sorted (· ≤ ·) ∧ B.Sorted (· ≤ ·) ∧ (∀ x ∈ A, x ≤ v) ∧ (∀ y ∈ B, v ≤ y) := by
  simp only [List.Sorted, List.pairwise_append, List.pairwise_cons, List.mem_cons]
  constructor
  · rintro ⟨h1, ⟨h2, h3⟩, h4⟩
    exact ⟨h1, h3, fun x hx => h4 x hx v (Or.inl rfl), h2⟩
  · rintro ⟨h1, h2, h3, h4⟩
    refine ⟨h1, ⟨h4, h2⟩, ?_⟩
    rintro x hx y (rfl | hy)
    · exact h3 x hx
    · exact le_trans (h3 x hx) (h4 y hy)

theorem perm_erase_mid {A B : List α} {v : α} : ((A ++ v :: B).erase v).Perm (A ++ B) := by
  have h1 : (A ++ v :: B).Perm (v :: (A ++ v :: B).erase v) :=
    List.perm_cons_erase (by simp)
  have h2 : (A ++ v :: B).Perm (v :: (A ++ B)) := List.perm_middle
  exact (List.Perm.cons_inv (h1.symm.trans h2))

/-- On a tree with sorted in-order sequence, `removeT` deletes one occurrence
of the value and keeps the sequence sorted. -/
theorem removeT_spec : ∀ (fuel : Nat) (val : α) (t : Tree α), t.inorder.Sorted (· ≤ ·) →
    t.height < fuel →
    (removeT val fuel t).inorder.Sorted (· ≤ ·) ∧
      (removeT val fuel t).inorder.Perm (t.inorder.erase val)
  | 0, _, _, _, hf => absurd hf (Nat.not_lt_zero _)
  | fuel + 1, val, .nil, _, _ => by simp [removeT, Tree.inorder]
  | fuel + 1, val, .node a c l v r, hs, hf => by
    simp only [Tree.height] at hf
    have hs' := hs
    simp only [Tree.inorder] at hs'
    obtain ⟨hsl, hsr, hlv, hvr⟩ := sorted_mid_iff.mp hs'
    by_cases hv : v = val
    · subst hv
      cases l with
      | nil =>
        cases r with
        | nil => simp [removeT, Tree.inorder]
        | node d cd rl rv rr =>
          simp only [removeT, if_true]
          refine ⟨hsr, ?_⟩
          simp [Tree.inorder]
      | node b cb ll lv lr =>
        cases r with
        | nil =>
          simp only [removeT, if_true]
          refine ⟨hsl, ?_⟩
          have := @perm_erase_mid α _ (Tree.node b cb ll lv lr).inorder [] v
          simpa [Tree.inorder] using this.symm
        | node d cd rl rv rr =>
          simp only [removeT, if_true]
          obtain ⟨rest, h1, h2⟩ := inorder_leftmost v v d cd rl rv rr
          have hsr' : (Tree.setLeftmost v (.node d cd rl rv rr)).inorder.Sorted (· ≤ ·) := by
            rw [h2]
            rw [h1] at hsr hvr
            simp only [List.Sorted, List.pairwise_cons, List.mem_cons] at hsr hvr ⊢
            exact ⟨fun y hy => hvr y (Or.inr hy), hsr.2⟩
          obtain ⟨ih1, ih2⟩ := removeT_spec fuel v _ hsr' (by
            rw [height_setLeftmost]; omega)
          rw [h2, List.erase_cons_head] at ih2
          have hmem : ∀ y, y ∈ (removeT v fuel (Tree.setLeftmost v
              (.node d cd rl rv rr))).inorder → y ∈ rest := fun y hy => ih2.subset hy
          rw [h1] at hsr hvr
          simp only [List.Sorted, List.pairwise_cons, List.mem_cons] at hsr
          constructor
          · show List.Sorted _ ((Tree.node b cb ll lv lr).inorder ++ _ :: _)
            refine sorted_mid_iff.mpr ⟨hsl, ih1, ?_, ?_⟩
            · intro x hx
              exact le_trans (hlv x hx) (hvr _ (by simp))
            · intro y hy
              exact hsr.1 y (hmem y hy)
          · show List.Perm ((Tree.node b cb ll lv lr).inorder ++ _ :: _) _
            refine List.Perm.trans ?_ (perm_erase_mid).symm
            rw [h1]
            exact List.Perm.append_left _ (List.Perm.cons _ ih2)
    · simp only [removeT, hv, if_false]
      have hne : val ≠ v := fun e => hv e.symm
      by_cases hin : val ∈ l.inorder
      · have hnr : val ∉ r.inorder := fun hm =>
          hne (le_antisymm (hlv val hin) (hvr val hm))
        obtain ⟨ih1, ih2⟩ := removeT_spec fuel val l hsl (by omega)
        rw [removeT_absent val fuel r hnr]
        simp only [Tree.inorder]
        constructor
        · refine sorted_mid_iff.mpr ⟨ih1, hsr, ?_, hvr⟩
          intro x hx
          exact hlv x (List.mem_of_mem_erase (ih2.subset hx))
        · rw [List.erase_append_left _ hin]
          exact List.Perm.append_right _ ih2
      · obtain ⟨ih1, ih2⟩ := removeT_spec fuel val r hsr (by omega)
        rw [removeT_absent val fuel l hin]
        simp only [Tree.inorder]
        constructor
        · refine sorted_mid_iff.mpr ⟨hsl, ih1, hlv, ?_⟩
          intro y hy
          exact hvr y (List.mem_of_mem_erase (ih2.subset hy))
        · rw [List.erase_append_right _ hin, List.erase_cons_tail (by simpa using hv)]
          exact List.Perm.append_left _ (List.Perm.cons _ ih2)

/-- The code of `remove` on a tree with consistent parent pointers: the memory then holds
the tree `removeT` computes, parent pointers left aside. -/
theorem remove_spec {s : RBTree α} {t : Tree α} (val : α) (h : Models s t) :
    ∃ s', remove s val = .ok s' ∧ ModelsShape s' (removeT val (s.cells.length + 1) t) ∧
      s'.cells.length = s.cells.length := by
  have hh := height_le_size t
  have hsz := models_size_le h
  obtain ⟨s', hs', hshape, hupd, -, hlen⟩ := remove_real_spec (s.cells.length + 1) val t s
    .root none h.2.1 h.2.2 ⟨rfl, h.1⟩ (by simp) (by omega)
  refine ⟨s', ?_, ⟨hupd, hshape, (removeT_sublist val _ t).nodup h.2.2⟩, hlen⟩
  unfold remove
  rw [h.1]; exact hs'

end

section

variable {α : Type}

/-! ## Height of a red-black tree -/

theorem length_inorder (t : Tree α) : t.inorder.length = t.size := by
  induction t with
  | nil => rfl
  | node a c l v r ihl ihr => simp [Tree.inorder, Tree.size, ihl, ihr]; omega

theorem pow_blackHeight_le : ∀ {t : Tree α}, BlackBalanced t →
    2 ^ blackHeight t ≤ t.size + 1
  | .nil, _ => by simp [blackHeight, Tree.size]
  | .node a c l v r, h => by
    obtain ⟨h1, h2, h3⟩ := h
    have hl := pow_blackHeight_le h2
    have hr := pow_blackHeight_le h3
    rw [← h1] at hr
    simp only [blackHeight, Tree.size]
    cases c with
    | RED => simp; omega
    | BLACK =>
      simp only [if_true, Nat.pow_succ]
      omega

theorem height_le_blackHeight : ∀ {t : Tree α}, NoRedRed t → BlackBalanced t →
    t.height ≤ 2 * blackHeight t + (if t.color = .RED then 1 else 0)
  | .nil, _, _ => by simp [Tree.height]
  | .node a c l v r, hn, hb => by
    obtain ⟨h1, h2, h3⟩ := hb
    obtain ⟨n1, n2, n3⟩ := hn
    have hl := height_le_blackHeight n2 h2
    have hr := height_le_blackHeight n3 h3
    rw [← h1] at hr
    simp only [Tree.height, blackHeight, color_node]
    cases c with
    | RED =>
      obtain ⟨cl, cr⟩ := n1 rfl
      rw [cl] at hl
      rw [cr] at hr
      simp at hl hr ⊢
      omega
    | BLACK =>
      simp only [if_true]
      have : (if l.color = Color.RED then 1 else 0) ≤ 1 := by split <;> omega
      have : (if r.color = Color.RED then 1 else 0) ≤ 1 := by split <;> omega
      simp
      omega

/-- The height of a red-black tree is at most twice the binary logarithm of
its size plus one. -/
theorem height_le_log (t : Tree α) (h : RedBlackInv t) :
    t.height ≤ 2 * Nat.log2 (t.size + 1) := by
  obtain ⟨hc, hn, hb⟩ := h
  have h1 := height_le_blackHeight hn hb
  rw [hc] at h1
  simp at h1
  have h2 : blackHeight t ≤ Nat.log2 (t.size + 1) :=
    (Nat.le_log2 (Nat.succ_ne_zero _)).2 (pow_blackHeight_le hb)
  omega

end

section

variable {α : Type}

/-! ## Traversal of a tree whose parent pointers are not looked at -/

theorem traverse_guard {β : Type} (s : RBTree α) (f : Nat → Node α → β) (order : Order)
    (fuel : Nat) (p : Option Nat) :
    (match p with
      | none => (pure [] : Except Fault (List β))
      | some _ => traverse (fuel + 1) s p f order) = traverse (fuel + 1) s p f order := by
  cases p <;> rfl

/-- One step of the traversal at a node, with fuel left for the subtrees. -/
theorem traverse_node {β : Type} (s : RBTree α) (f : Nat → Node α → β) (order : Order)
    (fuel : Nat) {a : Nat} {n : Node α} (ha : get s.cells a = some n) :
    traverse (fuel + 1 + 1) s (some a) f order =
      (traverse (fuel + 1) s n.left f order >>= fun l =>
        traverse (fuel + 1) s n.right f order >>= fun r =>
          pure ((if order = .PRE then [f a n] else []) ++ l ++
            (if order = .IN then [f a n] else []) ++ r ++
            (if order = .POST then [f a n] else []))) := by
  rw [traverse]
  simp only [load, ha, ok_bind]
  cases n.left <;> cases n.right <;> rfl

/-- The traversal visits the nodes in the order `Tree.order` lists them, and
hands each node to the visitor as it lies in memory. -/
theorem traverse_shape {β : Type} (f : Nat → Node α → β) (order : Order) (s : RBTree α) :
    ∀ (t : Tree α) (fuel : Nat), Shape s.cells t → t.height < fuel →
      ∃ ns : List (Nat × Node α),
        traverse fuel s t.ptr f order = .ok (ns.map (fun q => f q.1 q.2)) ∧
        ns.map Prod.fst = t.order order ∧ ∀ q ∈ ns, get s.cells q.1 = some q.2
  | _, 0, _, hf => absurd hf (Nat.not_lt_zero _)
  | .nil, fuel + 1, _, _ => ⟨[], rfl, by cases order <;> rfl, by simp⟩
  | .node a c l v r, 0 + 1, _, hf => by simp [Tree.height] at hf
  | .node a c l v r, fuel + 1 + 1, h, hf => by
    obtain ⟨⟨q, ha⟩, hl, hr⟩ := h
    simp only [Tree.height] at hf
    obtain ⟨nl, hnl, hml, hgl⟩ := traverse_shape f order s l (fuel + 1) hl (by omega)
    obtain ⟨nr, hnr, hmr, hgr⟩ := traverse_shape f order s r (fuel + 1) hr (by omega)
    simp only [ptr_node, traverse_node s f order fuel ha, hnl, hnr, ok_bind, pure_eq_ok]
    cases order with
    | PRE =>
      refine ⟨(a, ⟨v, l.ptr, r.ptr, q, c⟩) :: (nl ++ nr), by simp, by
        simp [Tree.order, hml, hmr], ?_⟩
      intro x hx
      simp only [List.mem_cons, List.mem_append] at hx
      rcases hx with rfl | hx | hx
      · exact ha
      · exact hgl x hx
      · exact hgr x hx
    | IN =>
      refine ⟨nl ++ (a, ⟨v, l.ptr, r.ptr, q, c⟩) :: nr, by simp, by
        simp [Tree.order, hml, hmr], ?_⟩
      intro x hx
      simp only [List.mem_cons, List.mem_append] at hx
      rcases hx with hx | rfl | hx
      · exact hgl x hx
      · exact ha
      · exact hgr x hx
    | POST =>
      refine ⟨nl ++ (nr ++ [(a, ⟨v, l.ptr, r.ptr, q, c⟩)]), by simp, by
        simp [Tree.order, hml, hmr], ?_⟩
      intro x hx
      simp only [List.mem_cons, List.mem_append, List.mem_singleton, List.not_mem_nil,
        or_false] at hx
      rcases hx with hx | hx | rfl
      · exact hgl x hx
      · exact hgr x hx
      · exact ha

theorem order_perm_addrs (order : Order) : ∀ t : Tree α, (t.order order).Perm t.addrs
  | .nil => by cases order <;> exact List.Perm.refl _
  | .node a c l v r => by
    have hl := order_perm_addrs order l
    have hr := order_perm_addrs order r
    cases order with
    | PRE =>
      simp only [Tree.order, Tree.addrs]
      exact List.Perm.cons _ (List.Perm.append hl hr)
    | IN =>
      simp only [Tree.order, Tree.addrs]
      exact List.perm_middle.trans (List.Perm.cons _ (List.Perm.append hl hr))
    | POST =>
      simp only [Tree.order, Tree.addrs]
      rw [← List.append_assoc]
      exact (List.perm_append_singleton _ _).trans (List.Perm.cons _ (List.Perm.append hl hr))

/-- The values a traversal in order IN collects are the in-order sequence of
the tree. -/
theorem inorderValues_shape {s : RBTree α} {t : Tree α} (h : ModelsShape s t) :
    inorderValues s = .ok t.inorder := by
  have hh := height_le_size t
  have hs := shape_size_le h.2.1 h.2.2
  have key : ∀ (t : Tree α) (fuel : Nat), Shape s.cells t → t.height < fuel →
      traverse fuel s t.ptr (fun _ n => n.value) .IN = .ok t.inorder := by
    intro t
    induction t with
    | nil =>
      intro fuel _ hf
      cases fuel with
      | zero => exact absurd hf (Nat.not_lt_zero _)
      | succ fuel => rfl
    | node a c l v r ihl ihr =>
      intro fuel hsh hf
      obtain ⟨⟨q, ha⟩, hl, hr⟩ := hsh
      simp only [Tree.height] at hf
      cases fuel with
      | zero => exact absurd hf (Nat.not_lt_zero _)
      | succ fuel =>
        cases fuel with
        | zero => omega
        | succ fuel =>
          have h1 := ihl (fuel + 1) hl (by omega)
          have h2 := ihr (fuel + 1) hr (by omega)
          simp only [ptr_node, traverse_node s _ Order.IN fuel ha, h1, h2, ok_bind,
            pure_eq_ok]
          simp [Tree.inorder]
  unfold inorderValues
  rw [h.1]
  exact key t _ h.2.1 (by omega)

end

section

variable {α : Type}

/-! ## Removal of a node with two children -/

variable [LinearOrder α]

end

section

variable {α : Type}

/-! ## Parent pointers -/

theorem own_root_get {cells : List (Option (Node α))} {t : Tree α} {par : Option Nat}
    {x : Nat} (h : Own cells par t) (hx : t.ptr = some x) :
    ∃ nx, get cells x = some nx ∧ nx.parent = par := by
  cases t with
  | nil => simp at hx
  | node a c l v r =>
    simp only [ptr_node, Option.some.injEq] at hx
    subst hx
    exact ⟨_, h.1, rfl⟩

/-- A node that has a child is the parent that child points back to. -/
theorem own_child_parent {cells : List (Option (Node α))} :
    ∀ {t : Tree α} {par : Option Nat}, Own cells par t → ∀ q ∈ t.addrs, ∀ nq,
      get cells q = some nq → ∀ x, (nq.left = some x ∨ nq.right = some x) →
      x ∈ t.addrs ∧ ∃ nx, get cells x = some nx ∧ nx.parent = some q
  | .nil, _, _, q, hq, _, _, _, _ => by simp [Tree.addrs] at hq
  | .node a c l v r, par, h, q, hq, nq, hnq, x, hx => by
    obtain ⟨ha, hl, hr⟩ := h
    simp only [Tree.addrs, List.mem_cons, List.mem_append] at hq ⊢
    rcases hq with rfl | hq | hq
    · rw [ha] at hnq
      simp only [Option.some.injEq] at hnq
      subst hnq
      rcases hx with hx | hx
      · exact ⟨Or.inr (Or.inl (ptr_mem hx)), own_root_get hl hx⟩
      · exact ⟨Or.inr (Or.inr (ptr_mem hx)), own_root_get hr hx⟩
    · obtain ⟨h1, h2⟩ := own_child_parent hl q hq nq hnq x hx
      exact ⟨Or.inr (Or.inl h1), h2⟩
    · obtain ⟨h1, h2⟩ := own_child_parent hr q hq nq hnq x hx
      exact ⟨Or.inr (Or.inr h1), h2⟩

/-- A node other than the root points back to a node that has it as a child. -/
theorem own_parent_child {cells : List (Option (Node α))} :
    ∀ {t : Tree α} {par : Option Nat}, Own cells par t → ∀ x ∈ t.addrs, t.ptr ≠ some x →
      ∃ p ∈ t.addrs, ∃ nx np, get cells x = some nx ∧ nx.parent = some p ∧
        get cells p = some np ∧ (np.left = some x ∨ np.right = some x)
  | .nil, _, _, x, hx, _ => by simp [Tree.addrs] at hx
  | .node a c l v r, par, h, x, hx, hne => by
    obtain ⟨ha, hl, hr⟩ := h
    simp only [Tree.addrs, List.mem_cons, List.mem_append] at hx
    simp only [ptr_node, ne_eq, Option.some.injEq] at hne
    rcases hx with rfl | hx | hx
    · exact absurd rfl hne
    · by_cases hp : l.ptr = some x
      · obtain ⟨nx, h1, h2⟩ := own_root_get hl hp
        exact ⟨a, by simp [Tree.addrs], nx, _, h1, h2, ha, Or.inl hp⟩
      · obtain ⟨p, hp1, nx, np, h1, h2, h3, h4⟩ := own_parent_child hl x hx hp
        exact ⟨p, by simp [Tree.addrs, hp1], nx, np, h1, h2, h3, h4⟩
    · by_cases hp : r.ptr = some x
      · obtain ⟨nx, h1, h2⟩ := own_root_get hr hp
        exact ⟨a, by simp [Tree.addrs], nx, _, h1, h2, ha, Or.inr hp⟩
      · obtain ⟨p, hp1, nx, np, h1, h2, h3, h4⟩ := own_parent_child hr x hx hp
        exact ⟨p, by simp [Tree.addrs, hp1], nx, np, h1, h2, h3, h4⟩

/-- A state that is a tree with consistent parent pointers in the sense of
`Models` has them consistent in the sense of `ParentLinksConsistent`. -/
theorem models_parentLinks {s : RBTree α} {t : Tree α} (h : Models s t) :
    ParentLinksConsistent s t.addrs := by
  obtain ⟨hroot, hown, -⟩ := h
  refine ⟨?_, ?_⟩
  · intro a ha
    rw [hroot] at ha
    exact own_root_get hown ha
  · intro x hx hne
    rw [hroot] at hne
    obtain ⟨p, hp, nx, np, h1, h2, h3, h4⟩ := own_parent_child hown x hx hne
    refine ⟨p, hp, nx, np, h1, h2, h3, h4, ?_⟩
    intro q hq nq hnq hchild
    obtain ⟨-, nx', h5, h6⟩ := own_child_parent hown q hq nq hnq x hchild
    rw [h1] at h5
    simp only [Option.some.injEq] at h5
    subst h5
    rw [h2] at h6
    simpa using h6.symm

end

section

variable {α : Type}

/-! ## A call that returns has dereferenced present nodes only -/

@[simp]
theorem error_bind {β γ : Type} (e : Fault) (f : β → Except Fault γ) :
    (Except.error e >>= f) = Except.error e := rfl

theorem load_none (s : RBTree α) : load s none = .error .nullDeref := rfl

theorem setColor_none (s : RBTree α) (c : Color) : setColor s none c = .error .nullDeref := rfl

/-- When `rotate_left(n)` returns, `n` had a right child. -/
theorem rotate_left_ok {s s' : RBTree α} {n : Option Nat} (h : rotate_left s n = .ok s') :
    ∃ nn r, load s n = .ok nn ∧ nn.right = some r := by
  unfold rotate_left at h
  cases h1 : load s n with
  | error e => simp [h1] at h
  | ok nn =>
    cases h2 : nn.right with
    | some r => exact ⟨nn, r, rfl, h2⟩
    | none =>
      simp only [h1, ok_bind, h2] at h
      cases h3 : replace_node s n none with
      | error e => simp [h3] at h
      | ok s1 => simp [h3, load_none] at h

/-- When `rotate_right(n)` returns, `n` had a left child. -/
theorem rotate_right_ok {s s' : RBTree α} {n : Option Nat} (h : rotate_right s n = .ok s') :
    ∃ nn l, load s n = .ok nn ∧ nn.left = some l := by
  unfold rotate_right at h
  cases h1 : load s n with
  | error e => simp [h1] at h
  | ok nn =>
    cases h2 : nn.left with
    | some l => exact ⟨nn, l, rfl, h2⟩
    | none =>
      simp only [h1, ok_bind, h2] at h
      cases h3 : replace_node s n none with
      | error e => simp [h3] at h
      | ok s1 => simp [h3, load_none] at h

/-- When `insert_case5(n)` returns, `n` had a grandparent. -/
theorem insert_case5_ok {s s' : RBTree α} {n : Option Nat} (h : insert_case5 s n = .ok s') :
    ∃ g, grand_parent s n = .ok (some g) := by
  unfold insert_case5 at h
  cases h1 : grand_parent s n with
  | error e => simp [h1] at h
  | ok g =>
    cases g with
    | some g => exact ⟨g, rfl⟩
    | none =>
      simp only [h1, ok_bind] at h
      cases h2 : load s n with
      | error e => simp [h2] at h
      | ok nn =>
        simp only [h2, ok_bind] at h
        cases h3 : setColor s nn.parent .BLACK with
        | error e => simp [h3] at h
        | ok s1 => simp [h3, setColor_none] at h

/-- When `insert_case4(n)` returns, `n` had a grandparent. -/
theorem insert_case4_ok {s s' : RBTree α} {n : Option Nat} (h : insert_case4 s n = .ok s') :
    ∃ g, grand_parent s n = .ok (some g) := by
  cases h1 : grand_parent s n with
  | error e => simp [insert_case4, h1] at h
  | ok g =>
    cases g with
    | some g => exact ⟨g, rfl⟩
    | none =>
      exfalso
      unfold insert_case4 at h
      simp only [h1, ok_bind] at h
      cases h2 : load s n with
      | error e => simp [h2] at h
      | ok nn =>
        simp only [h2, ok_bind] at h
        cases h3 : load s nn.parent with
        | error e => simp [h3] at h
        | ok p =>
          simp only [h3, ok_bind] at h
          by_cases c1 : n = p.right
          · simp [c1, load_none] at h
          · by_cases c2 : n = p.left
            · simp [c1, c2, load_none] at h
            · simp only [c1, c2, if_false, pure_eq_ok, ok_bind] at h
              obtain ⟨g, hg⟩ := insert_case5_ok h
              rw [h1] at hg
              simp at hg

end

section

variable {α : Type} [LinearOrder α]

/-- What `insertT` returns on a red-black tree, whatever its values. -/
theorem insertT_inv {t : Tree α} (a : Nat) (val : α) (hinv : RedBlackInv t) :
    ∃ T', insertT t a val = some T' ∧ RedBlackInv T' := by
  have hp : plug (descend val [] t) .nil = t := plug_descend val t []
  obtain ⟨hc, hrr, hbb⟩ := hinv
  have hc' : rootColor (descend val [] t) .BLACK = .BLACK := by
    have := color_plug (descend val [] t) .nil
    rw [hp, hc] at this
    exact this.symm
  have hrr' := (noRedRed_plug (descend val [] t) .nil).mp (by rw [hp]; exact hrr)
  have hbb' := (blackBalanced_plug (descend val [] t) .nil).mp (by rw [hp]; exact hbb)
  exact fixup_inv (descend val [] t) (.node a .RED .nil val .nil) rfl
    ⟨by simp, trivial, trivial⟩ ⟨rfl, trivial, trivial⟩ hrr'.2.1
    (by simpa [blackHeight] using hbb'.2) hc'

/-! ## The claims -/

/-- C1: whatever values are inserted one by one into the empty tree, the
in-order traversal of the result visits them in non-decreasing order and the
visited sequence is a permutation of the inserted list; inserting 5, 5, 3
gives 3, 5, 5. -/
theorem inorder_sorted_permutation :
    (∀ (β : Type) [LinearOrder β] (xs : List β), ∃ s vs,
      insertAll (emptyTree : RBTree β) xs = .ok s ∧ inorderValues s = .ok vs ∧
        vs.Sorted (· ≤ ·) ∧ vs.Perm xs) ∧
    ∃ s, insertAll (emptyTree : RBTree Nat) [5, 5, 3] = .ok s ∧
      inorderValues s = .ok [3, 5, 5] := by
  refine ⟨?_, _, rfl, rfl⟩
  intro β _ xs
  obtain ⟨s, t, h1, h2, -, h4, h5⟩ := insertAll_empty xs
  exact ⟨s, t.inorder, h1, inorderValues_spec h2, h4, h5⟩

/-- C2: after each insertion of a sequence of insertions into the empty tree
(that is, after the first `k` of them, for every `k`), the tree in memory has a
BLACK root if it has a root, no RED node with a RED child, and the same
number of BLACK nodes on every path from the root to an absent child. -/
theorem colour_invariants_after_each_insert (xs : List α) (k : Nat) :
    ∃ s t, insertAll (emptyTree : RBTree α) (xs.take k) = .ok s ∧ Models s t ∧
      t.color = .BLACK ∧ NoRedRed t ∧ ∀ i ∈ blackCounts t, ∀ j ∈ blackCounts t, i = j := by
  obtain ⟨s, t, h1, h2, ⟨h3, h4, h5⟩, -, -⟩ := insertAll_empty (xs.take k)
  refine ⟨s, t, h1, h2, h3, h4, ?_⟩
  intro i hi j hj
  rw [blackCounts_of_balanced h5 i hi, blackCounts_of_balanced h5 j hj]

/-- C3: on a tree built by insertions only, `search(v)` returns a node exactly
when `v` is among the inserted values, and a node it returns holds `v`. -/
theorem search_finds_inserted (xs : List α) (v : α) :
    ∃ s r, insertAll (emptyTree : RBTree α) xs = .ok s ∧ search s v = .ok r ∧
      ((∃ a, r = some a) ↔ v ∈ xs) ∧
      ∀ a, r = some a → ∃ nd, get s.cells a = some nd ∧ nd.value = v := by
  obtain ⟨s, t, h1, h2, -, h4, h5⟩ := insertAll_empty xs
  obtain ⟨r, hr, hiff, hnode⟩ := search_spec v (models_shape h2) h4
  refine ⟨s, r, h1, hr, ?_, fun a ha => (hnode a ha).2⟩
  rw [← h5.mem_iff, ← hiff]
  cases r <;> simp

/-- C4: when `v` was inserted exactly once, `search(v)` after `remove(v)`
returns not-found. -/
theorem search_after_remove_unique (xs : List α) (v : α) (h : xs.count v = 1) :
    ∃ s s', insertAll (emptyTree : RBTree α) xs = .ok s ∧ remove s v = .ok s' ∧
      search s' v = .ok none := by
  obtain ⟨s, t, h1, h2, -, h4, h5⟩ := insertAll_empty xs
  obtain ⟨s', hs', hm', -⟩ := remove_spec v h2
  obtain ⟨hsort, hperm⟩ := removeT_spec (s.cells.length + 1) v t h4 (by
    have := height_le_size t
    have := models_size_le h2
    omega)
  obtain ⟨r, hr, hiff, -⟩ := search_spec v hm' hsort
  refine ⟨s, s', h1, hs', ?_⟩
  have hnot : v ∉ (removeT v (s.cells.length + 1) t).inorder := by
    intro hm
    have hc : 0 < (removeT v (s.cells.length + 1) t).inorder.count v :=
      List.count_pos_iff.mpr hm
    rw [hperm.count_eq, List.count_erase_self, h5.count_eq, h] at hc
    exact Nat.lt_irrefl _ hc
  cases r with
  | none => exact hr
  | some a => exact absurd (hiff.mp rfl) hnot

/-- Witness for C4: 2 occurs once in 2, 1, 3. -/
theorem search_after_remove_unique_witness :
    [2, 1, 3].count 2 = 1 ∧
      ∃ s s', insertAll (emptyTree : RBTree Nat) [2, 1, 3] = .ok s ∧ remove s 2 = .ok s' ∧
        search s' 2 = .ok none :=
  ⟨by decide, search_after_remove_unique [2, 1, 3] 2 (by decide)⟩

/-- C5: on every tree in memory, `remove(v)` of a value that no node holds
leaves the whole state as it is: root pointer and every cell, hence shape,
values, colours and parent pointers. -/
theorem remove_absent_unchanged (s : RBTree α) (t : Tree α) (v : α) (h : ModelsShape s t)
    (hv : v ∉ t.inorder) : remove s v = .ok s := by
  have hh := height_le_size t
  have hsz := shape_size_le h.2.1 h.2.2
  unfold remove
  rw [h.1]
  exact remove_real_absent s v t _ h.2.1 hv (by omega)

/-- Witness for C5: the one-node tree holding 1, and the value 2. -/
theorem remove_absent_unchanged_witness :
    ModelsShape (⟨[some ⟨1, none, none, none, .BLACK⟩], some 0⟩ : RBTree Nat)
        (.node 0 .BLACK .nil 1 .nil) ∧
      (2 : Nat) ∉ (Tree.node 0 .BLACK .nil 1 .nil : Tree Nat).inorder ∧
      remove (⟨[some ⟨1, none, none, none, .BLACK⟩], some 0⟩ : RBTree Nat) 2 =
        .ok ⟨[some ⟨1, none, none, none, .BLACK⟩], some 0⟩ :=
  ⟨⟨rfl, ⟨⟨none, rfl⟩, trivial, trivial⟩, by simp [Tree.addrs]⟩, by simp [Tree.inorder],
    remove_absent_unchanged _ (.node 0 .BLACK .nil 1 .nil) 2
      ⟨rfl, ⟨⟨none, rfl⟩, trivial, trivial⟩, by simp [Tree.addrs]⟩ (by simp [Tree.inorder])⟩

/-- C6: the copy constructor leaves `root` as it found it when the source is
the empty tree: whatever the uninitialised field held is the root of the copy,
which is then not the empty tree.  Copy assignment, which clears `root` first,
does give the empty tree. -/
theorem copyConstruct_empty_root (junk : Option Nat) :
    copyConstruct junk (emptyTree : RBTree Nat) = .ok ⟨[], junk⟩ ∧
      copyConstruct (some 7) (emptyTree : RBTree Nat) ≠ .ok emptyTree ∧
      copyAssign (emptyTree : RBTree Nat) false none = .ok emptyTree := by
  refine ⟨rfl, ?_, rfl⟩
  intro h
  have : (⟨[], some 7⟩ : RBTree Nat) = emptyTree := Except.ok.inj h
  simp [emptyTree] at this

/-- C7: insert 1, insert 2, remove 1, remove 2 does not run to an end: the
second removal dereferences the parent pointer of node 2, which still
designates the freed node 1. -/
theorem remove_after_splice_faults :
    runOps (emptyTree : RBTree Nat) [.ins 1, .ins 2, .rem 1, .rem 2] =
      .error .danglingDeref := rfl

/-- C8, as stated, fails: after inserting 5, 5, 5 the root 5 has a left child
holding 5, which is not strictly less. -/
theorem strict_left_order_fails :
    insertAll (emptyTree : RBTree Nat) [5, 5, 5] =
        .ok ⟨[some ⟨5, none, none, some 1, .RED⟩, some ⟨5, some 0, some 2, none, .BLACK⟩,
          some ⟨5, none, none, some 1, .RED⟩], some 1⟩ ∧
      Models (⟨[some ⟨5, none, none, some 1, .RED⟩, some ⟨5, some 0, some 2, none, .BLACK⟩,
          some ⟨5, none, none, some 1, .RED⟩], some 1⟩ : RBTree Nat)
        (.node 1 .BLACK (.node 0 .RED .nil 5 .nil) 5 (.node 2 .RED .nil 5 .nil)) ∧
      ¬ StrictLeftBST
        (.node 1 .BLACK (.node 0 .RED .nil 5 .nil) 5 (.node 2 .RED .nil 5 .nil) : Tree Nat) := by
  refine ⟨rfl, ⟨rfl, ⟨rfl, ⟨rfl, trivial, trivial⟩, ⟨rfl, trivial, trivial⟩⟩, by
    simp [Tree.addrs]⟩, ?_⟩
  simp [StrictLeftBST, Tree.inorder]

/-- C8, amended: after any sequence of insertions into the empty tree, at
every node the values of the left subtree are less than or equal to the node's
value and the values of the right subtree are greater than or equal to it. -/
theorem weak_order_after_inserts (xs : List α) :
    ∃ s t, insertAll (emptyTree : RBTree α) xs = .ok s ∧ Models s t ∧ WeakBST t := by
  obtain ⟨s, t, h1, h2, -, h4, -⟩ := insertAll_empty xs
  exact ⟨s, t, h1, h2, weakBST_of_sorted h4⟩

/-- C9: insert 10, insert 20, remove 10 makes node 20 the root, and its parent
pointer still designates the freed cell of node 10 instead of being null. -/
theorem spliced_child_keeps_stale_parent :
    runOps (emptyTree : RBTree Nat) [.ins 10, .ins 20, .rem 10] =
      .ok ⟨[none, some ⟨20, none, none, some 0, .RED⟩], some 1⟩ := rfl

/-- C10, as stated, fails: insert 1, 2, 3, 4, remove 1, insert 5 gives a tree
with one BLACK node on the path left of the root and two on the paths to its
right.  That the invariants hold before an insert is not enough either: after
insert 2, 1, 3, 4, remove 3, remove 1 the memory holds the tree 2 BLACK with
right child 4 RED, which satisfies them, but node 4 keeps the freed node 3 as
parent, and insert 5 dereferences it in `uncle`. -/
theorem insert_after_remove_unbalanced :
    runOps (emptyTree : RBTree Nat) [.ins 1, .ins 2, .ins 3, .ins 4, .rem 1, .ins 5] =
        .ok ⟨[none, some ⟨2, none, some 3, none, .BLACK⟩, some ⟨3, none, none, some 3, .RED⟩,
          some ⟨4, some 2, some 4, some 1, .BLACK⟩, some ⟨5, none, none, some 3, .RED⟩],
          some 1⟩ ∧
      Models (⟨[none, some ⟨2, none, some 3, none, .BLACK⟩,
          some ⟨3, none, none, some 3, .RED⟩, some ⟨4, some 2, some 4, some 1, .BLACK⟩,
          some ⟨5, none, none, some 3, .RED⟩], some 1⟩ : RBTree Nat)
        (.node 1 .BLACK .nil 2
          (.node 3 .BLACK (.node 2 .RED .nil 3 .nil) 4 (.node 4 .RED .nil 5 .nil))) ∧
      ¬ BlackBalanced (.node 1 .BLACK .nil 2
          (.node 3 .BLACK (.node 2 .RED .nil 3 .nil) 4 (.node 4 .RED .nil 5 .nil)) : Tree Nat) ∧
      blackCounts (.node 1 .BLACK .nil 2
          (.node 3 .BLACK (.node 2 .RED .nil 3 .nil) 4 (.node 4 .RED .nil 5 .nil)) : Tree Nat) =
        [1, 2, 2, 2, 2] ∧
      runOps (emptyTree : RBTree Nat) [.ins 2, .ins 1, .ins 3, .ins 4, .rem 3, .rem 1] =
        .ok ⟨[some ⟨2, none, some 3, none, .BLACK⟩, none, none,
          some ⟨4, none, none, some 2, .RED⟩], some 0⟩ ∧
      ModelsShape (⟨[some ⟨2, none, some 3, none, .BLACK⟩, none, none,
          some ⟨4, none, none, some 2, .RED⟩], some 0⟩ : RBTree Nat)
        (.node 0 .BLACK .nil 2 (.node 3 .RED .nil 4 .nil)) ∧
      RedBlackInv (.node 0 .BLACK .nil 2 (.node 3 .RED .nil 4 .nil) : Tree Nat) ∧
      insert (⟨[some ⟨2, none, some 3, none, .BLACK⟩, none, none,
          some ⟨4, none, none, some 2, .RED⟩], some 0⟩ : RBTree Nat) 5 =
        .error .danglingDeref ∧
      runOps (emptyTree : RBTree Nat)
          [.ins 2, .ins 1, .ins 3, .ins 4, .rem 3, .rem 1, .ins 5] =
        .error .danglingDeref := by
  refine ⟨rfl, ⟨rfl, ⟨rfl, trivial, rfl, ⟨rfl, trivial, trivial⟩, ⟨rfl, trivial, trivial⟩⟩, by
    simp [Tree.addrs]⟩, ?_, rfl, rfl,
    ⟨rfl, ⟨⟨_, rfl⟩, trivial, ⟨_, rfl⟩, trivial, trivial⟩, by simp [Tree.addrs]⟩,
    ⟨rfl, ⟨by simp, trivial, fun _ => ⟨rfl, rfl⟩, trivial, trivial⟩,
      ⟨rfl, trivial, rfl, trivial, trivial⟩⟩, rfl, rfl⟩
  simp [BlackBalanced, blackHeight]

/-- C10, amended: `insert` on a tree with consistent parent pointers that
satisfies the three colour invariants runs to its end and gives a tree with
consistent parent pointers that satisfies them again. -/
theorem insert_preserves_invariants (s : RBTree α) (t : Tree α) (v : α) (h : Models s t)
    (hinv : RedBlackInv t) :
    ∃ s' t', insert s v = .ok s' ∧ Models s' t' ∧ RedBlackInv t' := by
  obtain ⟨T', hT', hinv'⟩ := insertT_inv s.cells.length v hinv
  obtain ⟨s', hs', hm', -⟩ := insert_spec h hT'
  exact ⟨s', T', hs', hm', hinv'⟩

/-- Witness for C10: the one-node tree holding 1, and the value 2. -/
theorem insert_preserves_invariants_witness :
    Models (⟨[some ⟨1, none, none, none, .BLACK⟩], some 0⟩ : RBTree Nat)
        (.node 0 .BLACK .nil 1 .nil) ∧
      RedBlackInv (.node 0 .BLACK .nil 1 .nil : Tree Nat) ∧
      ∃ s' t', insert (⟨[some ⟨1, none, none, none, .BLACK⟩], some 0⟩ : RBTree Nat) 2 = .ok s' ∧
        Models s' t' ∧ RedBlackInv t' :=
  ⟨⟨rfl, ⟨rfl, trivial, trivial⟩, by simp [Tree.addrs]⟩,
    ⟨rfl, ⟨by simp, trivial, trivial⟩, ⟨rfl, trivial, trivial⟩⟩,
    insert_preserves_invariants _ (.node 0 .BLACK .nil 1 .nil) 2
      ⟨rfl, ⟨rfl, trivial, trivial⟩, by simp [Tree.addrs]⟩
      ⟨rfl, ⟨by simp, trivial, trivial⟩, ⟨rfl, trivial, trivial⟩⟩⟩

end

section

variable {α : Type}

/-- C11: inserting 10, 20, 30 gives the tree with root 20 BLACK and children
10 RED and 30 RED, printed in order IN as 10:R, 20:B, 30:R.  The third
insertion hangs 30 right of 20, finds no uncle, takes neither zigzag branch of
`insert_case4`, and in `insert_case5` recolours and rotates left at the
grandparent 10. -/
theorem insert_10_20_30 :
    insertAll (emptyTree : RBTree Nat) [10, 20] =
        .ok ⟨[some ⟨10, none, some 1, none, .BLACK⟩, some ⟨20, none, none, some 0, .RED⟩],
          some 0⟩ ∧
      uncle (⟨[some ⟨10, none, some 1, none, .BLACK⟩, some ⟨20, none, some 2, some 0, .RED⟩,
          some ⟨30, none, none, some 1, .RED⟩], some 0⟩ : RBTree Nat) (some 2) = .ok none ∧
      insert_case4 (⟨[some ⟨10, none, some 1, none, .BLACK⟩,
          some ⟨20, none, some 2, some 0, .RED⟩, some ⟨30, none, none, some 1, .RED⟩],
          some 0⟩ : RBTree Nat) (some 2) =
        insert_case5 ⟨[some ⟨10, none, some 1, none, .BLACK⟩,
          some ⟨20, none, some 2, some 0, .RED⟩, some ⟨30, none, none, some 1, .RED⟩],
          some 0⟩ (some 2) ∧
      insert_case5 (⟨[some ⟨10, none, some 1, none, .BLACK⟩,
          some ⟨20, none, some 2, some 0, .RED⟩, some ⟨30, none, none, some 1, .RED⟩],
          some 0⟩ : RBTree Nat) (some 2) =
        rotate_left ⟨[some ⟨10, none, some 1, none, .RED⟩,
          some ⟨20, none, some 2, some 0, .BLACK⟩, some ⟨30, none, none, some 1, .RED⟩],
          some 0⟩ (some 0) ∧
      insertAll (emptyTree : RBTree Nat) [10, 20, 30] =
        .ok ⟨[some ⟨10, none, none, some 1, .RED⟩, some ⟨20, some 0, some 2, none, .BLACK⟩,
          some ⟨30, none, none, some 1, .RED⟩], some 1⟩ ∧
      Models (⟨[some ⟨10, none, none, some 1, .RED⟩, some ⟨20, some 0, some 2, none, .BLACK⟩,
          some ⟨30, none, none, some 1, .RED⟩], some 1⟩ : RBTree Nat)
        (.node 1 .BLACK (.node 0 .RED .nil 10 .nil) 20 (.node 2 .RED .nil 30 .nil)) ∧
      print (⟨[some ⟨10, none, none, some 1, .RED⟩, some ⟨20, some 0, some 2, none, .BLACK⟩,
          some ⟨30, none, none, some 1, .RED⟩], some 1⟩ : RBTree Nat) .IN =
        .ok [(10, 'R'), (20, 'B'), (30, 'R')] :=
  ⟨rfl, rfl, rfl, rfl, rfl,
    ⟨rfl, ⟨rfl, ⟨rfl, trivial, trivial⟩, ⟨rfl, trivial, trivial⟩⟩, by simp [Tree.addrs]⟩, rfl⟩

/-- C12, as stated, fails: after inserting 1 to 7 in ascending order the root
holds 2, the height is 4, and the leaves are at depths 1, 2, 3, 3 counted from
0 at the root (2, 3, 4, 4 counted from 1). -/
theorem ascending_seven_not_perfect :
    insertAll (emptyTree : RBTree Nat) [1, 2, 3, 4, 5, 6, 7] =
        .ok ⟨[some ⟨1, none, none, some 1, .BLACK⟩, some ⟨2, some 0, some 3, none, .BLACK⟩,
          some ⟨3, none, none, some 3, .BLACK⟩, some ⟨4, some 2, some 5, some 1, .RED⟩,
          some ⟨5, none, none, some 5, .RED⟩, some ⟨6, some 4, some 6, some 3, .BLACK⟩,
          some ⟨7, none, none, some 5, .RED⟩], some 1⟩ ∧
      Models (⟨[some ⟨1, none, none, some 1, .BLACK⟩, some ⟨2, some 0, some 3, none, .BLACK⟩,
          some ⟨3, none, none, some 3, .BLACK⟩, some ⟨4, some 2, some 5, some 1, .RED⟩,
          some ⟨5, none, none, some 5, .RED⟩, some ⟨6, some 4, some 6, some 3, .BLACK⟩,
          some ⟨7, none, none, some 5, .RED⟩], some 1⟩ : RBTree Nat)
        (.node 1 .BLACK (.node 0 .BLACK .nil 1 .nil) 2
          (.node 3 .RED (.node 2 .BLACK .nil 3 .nil) 4
            (.node 5 .BLACK (.node 4 .RED .nil 5 .nil) 6 (.node 6 .RED .nil 7 .nil)))) ∧
      ¬ ((Tree.node 1 .BLACK (.node 0 .BLACK .nil 1 .nil) 2
          (.node 3 .RED (.node 2 .BLACK .nil 3 .nil) 4
            (.node 5 .BLACK (.node 4 .RED .nil 5 .nil) 6 (.node 6 .RED .nil 7 .nil))) :
            Tree Nat).height = 3) ∧
      ¬ ((Tree.node 1 .BLACK (.node 0 .BLACK .nil 1 .nil) 2
          (.node 3 .RED (.node 2 .BLACK .nil 3 .nil) 4
            (.node 5 .BLACK (.node 4 .RED .nil 5 .nil) 6 (.node 6 .RED .nil 7 .nil))) :
            Tree Nat).rootValue = some 4) ∧
      ¬ (∀ d ∈ (Tree.node 1 .BLACK (.node 0 .BLACK .nil 1 .nil) 2
          (.node 3 .RED (.node 2 .BLACK .nil 3 .nil) 4
            (.node 5 .BLACK (.node 4 .RED .nil 5 .nil) 6 (.node 6 .RED .nil 7 .nil))) :
            Tree Nat).leafDepths 0, d = 2 ∨ d = 3) ∧
      ¬ (∀ d ∈ (Tree.node 1 .BLACK (.node 0 .BLACK .nil 1 .nil) 2
          (.node 3 .RED (.node 2 .BLACK .nil 3 .nil) 4
            (.node 5 .BLACK (.node 4 .RED .nil 5 .nil) 6 (.node 6 .RED .nil 7 .nil))) :
            Tree Nat).leafDepths 1, d = 2 ∨ d = 3) := by
  refine ⟨rfl, ⟨rfl, ⟨rfl, ⟨rfl, trivial, trivial⟩, rfl, ⟨rfl, trivial, trivial⟩, rfl,
    ⟨rfl, trivial, trivial⟩, ⟨rfl, trivial, trivial⟩⟩, by simp [Tree.addrs]⟩, ?_, ?_, ?_, ?_⟩
  · decide
  · decide
  · simp [Tree.leafDepths]
  · simp [Tree.leafDepths]

/-- C12, amended: inserting 1 to 7 in ascending order gives the tree with
root 2 BLACK, left child 1 BLACK, right child 4 RED with children 3 BLACK and
6 BLACK, the latter with children 5 RED and 7 RED; its height is 4 and its
leaves 1, 3, 5, 7 are at depths 1, 2, 3, 3 counted from 0 at the root. -/
theorem ascending_seven_tree :
    ∃ s, insertAll (emptyTree : RBTree Nat) [1, 2, 3, 4, 5, 6, 7] = .ok s ∧
      Models s (.node 1 .BLACK (.node 0 .BLACK .nil 1 .nil) 2
          (.node 3 .RED (.node 2 .BLACK .nil 3 .nil) 4
            (.node 5 .BLACK (.node 4 .RED .nil 5 .nil) 6 (.node 6 .RED .nil 7 .nil)))) ∧
      (Tree.node 1 .BLACK (.node 0 .BLACK .nil 1 .nil) 2
          (.node 3 .RED (.node 2 .BLACK .nil 3 .nil) 4
            (.node 5 .BLACK (.node 4 .RED .nil 5 .nil) 6 (.node 6 .RED .nil 7 .nil))) :
            Tree Nat).height = 4 ∧
      (Tree.node 1 .BLACK (.node 0 .BLACK .nil 1 .nil) 2
          (.node 3 .RED (.node 2 .BLACK .nil 3 .nil) 4
            (.node 5 .BLACK (.node 4 .RED .nil 5 .nil) 6 (.node 6 .RED .nil 7 .nil))) :
            Tree Nat).rootValue = some 2 ∧
      (Tree.node 1 .BLACK (.node 0 .BLACK .nil 1 .nil) 2
          (.node 3 .RED (.node 2 .BLACK .nil 3 .nil) 4
            (.node 5 .BLACK (.node 4 .RED .nil 5 .nil) 6 (.node 6 .RED .nil 7 .nil))) :
            Tree Nat).leafDepths 0 = [1, 2, 3, 3] :=
  ⟨_, rfl, ⟨rfl, ⟨rfl, ⟨rfl, trivial, trivial⟩, rfl, ⟨rfl, trivial, trivial⟩, rfl,
    ⟨rfl, trivial, trivial⟩, ⟨rfl, trivial, trivial⟩⟩, by simp [Tree.addrs]⟩, rfl, rfl, rfl⟩

/-- C13: a tree built by inserting `n` values into the empty tree has `n`
nodes, and the number of nodes on its longest path from the root to an absent
child is at most `2 * log2 (n + 1)`. -/
theorem height_logarithmic [LinearOrder α] (xs : List α) :
    ∃ s t, insertAll (emptyTree : RBTree α) xs = .ok s ∧ Models s t ∧
      t.size = xs.length ∧ t.height ≤ 2 * Nat.log2 (xs.length + 1) := by
  obtain ⟨s, t, h1, h2, h3, -, h5⟩ := insertAll_empty xs
  have hsz : t.size = xs.length := by rw [← length_inorder, h5.length_eq]
  refine ⟨s, t, h1, h2, hsz, ?_⟩
  rw [← hsz]
  exact height_le_log t h3

/-- C15: on a tree in memory, `traverse` from the root returns, for each of
the orders PRE, IN and POST, the visitor applied to every node exactly once:
the visited addresses are the list `Tree.order` gives (node, left, right for
PRE; left, node, right for IN; left, right, node for POST), each node is
handed over as it lies in memory, the list has no repetition, is a permutation
of the addresses of the tree and of the list of any other order, and its
length is the node count. -/
theorem traverse_visits_each_node_once {β : Type} (s : RBTree α) (t : Tree α)
    (f : Nat → Node α → β) (h : ModelsShape s t) (order : Order) :
    (∃ ns : List (Nat × Node α),
      traverse (s.cells.length + 1) s s.root f order = .ok (ns.map (fun q => f q.1 q.2)) ∧
      ns.map Prod.fst = t.order order ∧ (∀ q ∈ ns, get s.cells q.1 = some q.2) ∧
      ns.length = t.size) ∧
    (t.order order).Nodup ∧ (t.order order).Perm t.addrs ∧
    (∀ other : Order, (t.order order).Perm (t.order other)) ∧
    (∀ (a : Nat) (c : Color) (l : Tree α) (v : α) (r : Tree α),
      (Tree.node a c l v r).order .PRE = a :: (l.order .PRE ++ r.order .PRE) ∧
      (Tree.node a c l v r).order .IN = l.order .IN ++ a :: r.order .IN ∧
      (Tree.node a c l v r).order .POST = l.order .POST ++ (r.order .POST ++ [a])) := by
  have hh := height_le_size t
  have hs := shape_size_le h.2.1 h.2.2
  obtain ⟨ns, h1, h2, h3⟩ := traverse_shape f order s t (s.cells.length + 1) h.2.1 (by omega)
  rw [← h.1] at h1
  have hp := order_perm_addrs order t
  refine ⟨⟨ns, h1, h2, h3, ?_⟩, hp.nodup_iff.mpr h.2.2, hp,
    fun other => hp.trans (order_perm_addrs other t).symm, fun a c l v r => ⟨rfl, rfl, rfl⟩⟩
  rw [← length_addrs, ← hp.length_eq, ← h2, List.length_map]

/-- C15 at work: the tree holding 10, 20, 30 traversed in order POST with the
visitor that returns the address. -/
theorem traverse_visits_each_node_once_witness :
    (∃ ns : List (Nat × Node Nat),
      traverse ((⟨[some ⟨10, none, none, some 1, .RED⟩,
          some ⟨20, some 0, some 2, none, .BLACK⟩, some ⟨30, none, none, some 1, .RED⟩],
          some 1⟩ : RBTree Nat).cells.length + 1)
        ⟨[some ⟨10, none, none, some 1, .RED⟩, some ⟨20, some 0, some 2, none, .BLACK⟩,
          some ⟨30, none, none, some 1, .RED⟩], some 1⟩
        (some 1) (fun a _ => a) .POST = .ok (ns.map (fun q => (fun a _ => a) q.1 q.2)) ∧
      ns.map Prod.fst =
        (Tree.node 1 .BLACK (.node 0 .RED .nil 10 .nil) 20 (.node 2 .RED .nil 30 .nil) :
          Tree Nat).order .POST ∧
      (∀ q ∈ ns, get [some ⟨10, none, none, some 1, .RED⟩,
          some ⟨20, some 0, some 2, none, .BLACK⟩, some ⟨30, none, none, some 1, .RED⟩] q.1 =
        some q.2) ∧
      ns.length =
        (Tree.node 1 .BLACK (.node 0 .RED .nil 10 .nil) 20 (.node 2 .RED .nil 30 .nil) :
          Tree Nat).size) ∧
    ((Tree.node 1 .BLACK (.node 0 .RED .nil 10 .nil) 20 (.node 2 .RED .nil 30 .nil) :
      Tree Nat).order .POST).Nodup :=
  have h := traverse_visits_each_node_once
    (⟨[some ⟨10, none, none, some 1, .RED⟩, some ⟨20, some 0, some 2, none, .BLACK⟩,
      some ⟨30, none, none, some 1, .RED⟩], some 1⟩ : RBTree Nat)
    (.node 1 .BLACK (.node 0 .RED .nil 10 .nil) 20 (.node 2 .RED .nil 30 .nil))
    (fun a _ => a)
    ⟨rfl, ⟨⟨_, rfl⟩, ⟨⟨_, rfl⟩, trivial, trivial⟩, ⟨⟨_, rfl⟩, trivial, trivial⟩⟩,
      by simp [Tree.addrs]⟩ .POST
  ⟨h.1, h.2.1⟩

/-- C16: in a tree with consistent parent links, `rotate_left` at a node `N`
(address `a`) with right child `C` (address `b`) succeeds and yields the tree
with consistent parent links in which `C` stands where `N` stood (under the
same path from the root, so in the same child link of the parent or in the
root pointer), `N` is the left child of `C`, and the former left subtree of
`C` is the right subtree of `N`; the in-order sequence of values of the whole
tree is unchanged.  `rotate_right` at a node with a left child is the mirror
image. -/
theorem rotations_correct (s : RBTree α) (fs : List (Frame α)) (a b : Nat) (c cb : Color)
    (t1 t2 t3 : Tree α) (v w : α) :
    (Models s (plug fs (.node a c t1 v (.node b cb t2 w t3))) →
      ∃ s', rotate_left s (some a) = .ok s' ∧
        Models s' (plug fs (.node b cb (.node a c t1 v t2) w t3)) ∧
        (plug fs (.node b cb (.node a c t1 v t2) w t3)).inorder =
          (plug fs (.node a c t1 v (.node b cb t2 w t3))).inorder) ∧
    (Models s (plug fs (.node a c (.node b cb t1 w t2) v t3)) →
      ∃ s', rotate_right s (some a) = .ok s' ∧
        Models s' (plug fs (.node b cb t1 w (.node a c t2 v t3))) ∧
        (plug fs (.node b cb t1 w (.node a c t2 v t3))).inorder =
          (plug fs (.node a c (.node b cb t1 w t2) v t3)).inorder) := by
  constructor
  · intro h
    obtain ⟨s', h1, h2, -⟩ := rep_rotate_left (models_plug.mp h)
    exact ⟨s', h1, models_plug.mpr h2, inorder_plug_congr (by simp [Tree.inorder]) fs⟩
  · intro h
    obtain ⟨s', h1, h2, -⟩ := rep_rotate_right (models_plug.mp h)
    exact ⟨s', h1, models_plug.mpr h2, inorder_plug_congr (by simp [Tree.inorder]) fs⟩

/-- C16 at work: a left rotation at the root of the tree holding 1 with right
child 2, and a right rotation at the root of the tree holding 2 with left
child 1. -/
theorem rotations_correct_witness :
    (∃ s', rotate_left (⟨[some ⟨1, none, some 1, none, .BLACK⟩,
          some ⟨2, none, none, some 0, .RED⟩], some 0⟩ : RBTree Nat) (some 0) = .ok s' ∧
        Models s' (plug [] (.node 1 .RED (.node 0 .BLACK .nil 1 .nil) 2 .nil)) ∧
        (plug [] (.node 1 .RED (.node 0 .BLACK .nil 1 .nil) 2 .nil) : Tree Nat).inorder =
          (plug [] (.node 0 .BLACK .nil 1 (.node 1 .RED .nil 2 .nil))).inorder) ∧
    (∃ s', rotate_right (⟨[some ⟨2, some 1, none, none, .BLACK⟩,
          some ⟨1, none, none, some 0, .RED⟩], some 0⟩ : RBTree Nat) (some 0) = .ok s' ∧
        Models s' (plug [] (.node 1 .RED .nil 1 (.node 0 .BLACK .nil 2 .nil))) ∧
        (plug [] (.node 1 .RED .nil 1 (.node 0 .BLACK .nil 2 .nil)) : Tree Nat).inorder =
          (plug [] (.node 0 .BLACK (.node 1 .RED .nil 1 .nil) 2 .nil)).inorder) :=
  ⟨(rotations_correct (⟨[some ⟨1, none, some 1, none, .BLACK⟩,
        some ⟨2, none, none, some 0, .RED⟩], some 0⟩ : RBTree Nat) [] 0 1 .BLACK .RED
      .nil .nil .nil 1 2).1
      ⟨rfl, ⟨rfl, trivial, ⟨rfl, trivial, trivial⟩⟩, by simp [plug, Tree.addrs]⟩,
    (rotations_correct (⟨[some ⟨2, some 1, none, none, .BLACK⟩,
        some ⟨1, none, none, some 0, .RED⟩], some 0⟩ : RBTree Nat) [] 0 1 .BLACK .RED
      .nil .nil .nil 2 1).2
      ⟨rfl, ⟨rfl, ⟨rfl, trivial, trivial⟩, trivial⟩, by simp [plug, Tree.addrs]⟩⟩

/-- C17: on a tree built by insertions, `remove v` succeeds and the in-order
sequence of values afterwards is the one before with the first occurrence of
`v` erased (one occurrence if `v` is stored, none otherwise); it is still
non-decreasing. -/
theorem remove_erases_one_occurrence [LinearOrder α] (xs : List α) (v : α) :
    ∃ s s' vs, insertAll (emptyTree : RBTree α) xs = .ok s ∧ remove s v = .ok s' ∧
      inorderValues s = .ok vs ∧ inorderValues s' = .ok (vs.erase v) ∧
      (vs.erase v).Sorted (· ≤ ·) ∧
      (v ∈ xs → (vs.erase v).length + 1 = vs.length ∧
        (vs.erase v).count v + 1 = vs.count v) := by
  obtain ⟨s, t, h1, h2, -, h4, h5⟩ := insertAll_empty xs
  obtain ⟨s', hs', hshape, -⟩ := remove_spec v h2
  have hh := height_le_size t
  have hsz := models_size_le h2
  obtain ⟨r1, r2⟩ := removeT_spec (s.cells.length + 1) v t h4 (by omega)
  have hse : (t.inorder.erase v).Sorted (· ≤ ·) := h4.sublist (List.erase_sublist v _)
  have heq := List.eq_of_perm_of_sorted r2 r1 hse
  refine ⟨s, s', t.inorder, h1, hs', inorderValues_spec h2, ?_, hse, ?_⟩
  · rw [inorderValues_shape hshape, heq]
  · intro hv
    have hv2 : v ∈ t.inorder := h5.symm.subset hv
    have hpos : 0 < t.inorder.length := List.length_pos_of_mem hv2
    have hc : 0 < t.inorder.count v := List.count_pos_iff.mpr hv2
    rw [List.length_erase_of_mem hv2, List.count_erase_self]
    omega

/-- C18: after inserting any finite list of values into the empty tree the
parent links are consistent: the parent field of the root is null, and the
parent field of every other node of the tree designates a node of the tree that
has it as left or right child, and no other node of the tree has it as
child. -/
theorem parent_links_consistent_after_inserts [LinearOrder α] (xs : List α) :
    ∃ s t, insertAll (emptyTree : RBTree α) xs = .ok s ∧ Models s t ∧
      ParentLinksConsistent s t.addrs := by
  obtain ⟨s, t, h1, h2, -⟩ := insertAll_empty xs
  exact ⟨s, t, h1, h2, models_parentLinks h2⟩

/-- C19: on a tree built from the empty tree by insertions, one more
insertion returns without fault.  A fault is what the run gives as soon as an
absent node is dereferenced: `insert_case4` and `insert_case5` return only if
the grandparent of their node is present, `rotate_left` only if its node has a
right child, `rotate_right` only if its node has a left child. -/
theorem insert_total_without_null_dereference [LinearOrder α] (xs : List α) (v : α) :
    (∃ s s', insertAll (emptyTree : RBTree α) xs = .ok s ∧ insert s v = .ok s') ∧
    (∀ (u u' : RBTree α) (n : Option Nat), insert_case4 u n = .ok u' →
      ∃ g, grand_parent u n = .ok (some g)) ∧
    (∀ (u u' : RBTree α) (n : Option Nat), insert_case5 u n = .ok u' →
      ∃ g, grand_parent u n = .ok (some g)) ∧
    (∀ (u u' : RBTree α) (n : Option Nat), rotate_left u n = .ok u' →
      ∃ nn r, load u n = .ok nn ∧ nn.right = some r) ∧
    (∀ (u u' : RBTree α) (n : Option Nat), rotate_right u n = .ok u' →
      ∃ nn l, load u n = .ok nn ∧ nn.left = some l) := by
  obtain ⟨s, t, h1, h2, h3, h4, -⟩ := insertAll_empty xs
  obtain ⟨s', t', h5, -⟩ := insert_step v h2 h3 h4
  exact ⟨⟨s, s', h1, h5⟩, fun _ _ _ h => insert_case4_ok h, fun _ _ _ h => insert_case5_ok h,
    fun _ _ _ h => rotate_left_ok h, fun _ _ _ h => rotate_right_ok h⟩

end

end RedBlack
